import Mathlib

/-!
# Feature selection by nearest-neighbour accuracy: a shallow embedding

Embedding of `src/src/nearest_neighbor.cpp`, `src/src/feature_selection.cpp` and the
loading functions of `src/src/data_loader.cpp`.

Conventions of the embedding.

* `double` is an arbitrary linearly ordered field `α` (exact arithmetic: rounding,
  overflow to infinity and NaN are outside the model).  `std::sqrt` is a library
  function and is passed as the parameter `sqrt`; `std::numeric_limits<double>::max()`
  is passed as the parameter `dblMax`.  A computed distance that is not below `DBL_MAX`
  can only be `+inf`; `asDouble` reads an exact distance in this way.
* `std::size_t` is `ℕ`, `Label = int` is `ℤ`, `std::vector` is `List`,
  `FeatureSet = std::set<std::size_t>` is `Finset ℕ`, iterated in ascending order.
* An unchecked `operator[]` whose index is not guarded by the surrounding code is a
  checked read: the function returns `Option` and `none` stands for an access out of
  bounds.
* The candidate loops of the two searches are OpenMP parallel loops when more than 8
  candidates are scanned; the order in which their results are pushed under the mutex
  is the parameter `arrival` (the identity is the sequential order).
* A file is the list of its bytes (natural numbers, 10 is the newline) and is assumed to
  open; the extraction of the values of one line (`iss >> value`) and the conversion
  `static_cast<Label>` are the parameters `parseRow` and `toLabel`; a thrown exception is
  the result `none`.
* Each function has a value model, in which the `verbose` flag is kept as an argument
  and text written to `std::cout` is left out, and a model with the suffix `Log` that
  also returns the list of lines printed and takes the size of the OpenMP team; the two
  are related by the `_fst` lemmas.  The verbose path of `leaveOneOutCrossValidation`
  does not return on a team of several threads; this is part of the `Log` model only.
-/

namespace feature_selection

/-- The type `FeatureIndex` of `utils.h`. -/
abbrev FeatureIndex := ℕ

/-- The type `FeatureSet` of `utils.h`, an ordered set of feature indices. -/
abbrev FeatureSet := Finset ℕ

/-- The type `DataPoint` of `utils.h`. -/
abbrev DataPoint (α : Type) := List α

/-- The type `DataMatrix` of `utils.h`. -/
abbrev DataMatrix (α : Type) := List (List α)

/-- The type `Label` of `utils.h`. -/
abbrev Label := ℤ

/-- The type `LabelVector` of `utils.h`. -/
abbrev LabelVector := List ℤ

/-- Ascending iteration order of a `std::set`. -/
def FeatureSet.toList (s : FeatureSet) : List ℕ := s.sort (· ≤ ·)

section NearestNeighbor

variable {α : Type} [LinearOrderedField α]

/-- Body of the loop of `calculateDistance` over the feature subset (lines 19-24):
an index valid for both points adds its squared difference, any other index is skipped. -/
def subsetStep (a b : DataPoint α) (sum : α) (idx : FeatureIndex) : α :=
  if h : idx < a.length ∧ idx < b.length then
    let diff := a.get ⟨idx, h.1⟩ - b.get ⟨idx, h.2⟩
    sum + diff * diff
  else sum

/-- Body of the loop of `calculateDistance` over all features (lines 28-31). -/
def allStep (a b : DataPoint α) (sum : α) (i : Fin (min a.length b.length)) : α :=
  let diff := a.get ⟨i, lt_of_lt_of_le i.2 (min_le_left _ _)⟩
    - b.get ⟨i, lt_of_lt_of_le i.2 (min_le_right _ _)⟩
  sum + diff * diff

/-- `NearestNeighbor::calculateDistance` (nearest_neighbor.cpp, lines 10-35). -/
def calculateDistance (sqrt : α → α) (a b : DataPoint α) (featureSubset : FeatureSet) : α :=
  let sum : α :=
    if featureSubset ≠ ∅ then
      featureSubset.toList.foldl (subsetStep a b) 0
    else
      (List.finRange (min a.length b.length)).foldl (allStep a b) 0
  sqrt sum

/-- Loop of `findNearestNeighbor` (lines 46-57) over the instances not yet scanned:
`i` is the index of the head of the list, `minDistance` and `nearestIndex` are the
local variables of the function. -/
def findNearestLoop (sqrt : α → α) (point : DataPoint α) (excludeIndex : ℕ)
    (featureSubset : FeatureSet) : List (DataPoint α) → ℕ → α → ℕ → ℕ
  | [], _, _, nearestIndex => nearestIndex
  | p :: rest, i, minDistance, nearestIndex =>
    if i = excludeIndex then
      findNearestLoop sqrt point excludeIndex featureSubset rest (i + 1) minDistance nearestIndex
    else
      let distance := calculateDistance sqrt point p featureSubset
      if distance < minDistance then
        findNearestLoop sqrt point excludeIndex featureSubset rest (i + 1) distance i
      else
        findNearestLoop sqrt point excludeIndex featureSubset rest (i + 1) minDistance
          nearestIndex

/-- `NearestNeighbor::findNearestNeighbor` (nearest_neighbor.cpp, lines 37-60). -/
def findNearestNeighbor (sqrt : α → α) (dblMax : α) (data : DataMatrix α)
    (point : DataPoint α) (excludeIndex : ℕ) (featureSubset : FeatureSet) : ℕ :=
  findNearestLoop sqrt point excludeIndex featureSubset data 0 dblMax 0

/-- Loop of `leaveOneOutCrossValidation` (lines 97-113) over the instance indices still
to visit, with the running value of `correctPredictions`.  The reads `data[i]`,
`labels[i]` and `labels[nearestIndex]` are checked.  The iterations are independent and
the reduction is a sum, so the sequential order stands for every schedule. -/
def loocvLoop (sqrt : α → α) (dblMax : α) (data : DataMatrix α) (labels : LabelVector)
    (featureSubset : FeatureSet) : List ℕ → ℕ → Option ℕ
  | [], correctPredictions => some correctPredictions
  | i :: rest, correctPredictions =>
    match data[i]? with
    | none => none
    | some point =>
      let nearestIndex := findNearestNeighbor sqrt dblMax data point i featureSubset
      match labels[i]?, labels[nearestIndex]? with
      | some li, some ln =>
        loocvLoop sqrt dblMax data labels featureSubset rest
          (if li = ln then correctPredictions + 1 else correctPredictions)
      | _, _ => none

/-- `NearestNeighbor::leaveOneOutCrossValidation` (nearest_neighbor.cpp, lines 62-118):
the value computed by the guard and the instance loop.  The flag `verbose` does not enter
this value (the reads of `labels` in the printing block are those of line 110).  It is
the value that the call returns with `verbose = false`, the only value the searches pass,
and on a team of one thread; with `verbose = true` on a team of several threads the call
does not return, which is modelled in `leaveOneOutCrossValidationLog`. -/
def leaveOneOutCrossValidation (sqrt : α → α) (dblMax : α) (data : DataMatrix α)
    (labels : LabelVector) (featureSubset : FeatureSet) (verbose : Bool) : Option α :=
  if data.isEmpty || labels.isEmpty || data.length != labels.length then
    some 0
  else
    let totalInstances := data.length
    match loocvLoop sqrt dblMax data labels featureSubset (List.range totalInstances) 0 with
    | none => none
    | some correctPredictions =>
      let _ := verbose
      some ((correctPredictions : α) / (totalInstances : α))

end NearestNeighbor

section FeatureSelection

variable {α : Type} [LinearOrderedField α]

/-- Modelled from the spec: the struct `SearchResult` is declared in
`feature_selection/feature_selection.h`, which is not among the sources.  The fields are
those of section 3 of the specification (best feature set, its accuracy, ordered history
of (feature set, accuracy) pairs) under the names used in `feature_selection.cpp`. -/
structure SearchResult (α : Type) where
  /-- The best feature set found. -/
  bestFeatureSet : FeatureSet
  /-- The accuracy of the best feature set. -/
  bestAccuracy : α
  /-- The history, one entry per level. -/
  allResults : List (FeatureSet × α)

/-- The local struct `CandidateResult` of `forwardSelection` (lines 65-69) and of
`backwardElimination` (lines 209-213). -/
structure CandidateResult (α : Type) where
  /-- The feature added or removed. -/
  feature : FeatureIndex
  /-- The accuracy of the candidate set. -/
  accuracy : α
  /-- The candidate set. -/
  featureSet : FeatureSet

/-- Outcome of one pass through the body of a level loop. -/
inductive LevelStep (σ : Type) where
  /-- The body left the loop through `break`. -/
  | exit : LevelStep σ
  /-- The body ran to its end with the given variables. -/
  | next : σ → LevelStep σ

/-- The variables of `forwardSelection` that live across levels. -/
structure ForwardState (α : Type) where
  /-- The variable `currentSet`. -/
  currentSet : FeatureSet
  /-- The variable `result`. -/
  result : SearchResult α

/-- Candidate loop of `forwardSelection` (lines 79-109) over the values of `featureToAdd`
still to visit, in ascending order: the list of candidate results pushed, in that
order. -/
def forwardCandidates (sqrt : α → α) (dblMax : α) (data : DataMatrix α)
    (labels : LabelVector) (currentSet : FeatureSet) :
    List FeatureIndex → Option (List (CandidateResult α))
  | [] => some []
  | featureToAdd :: rest =>
    if featureToAdd ∈ currentSet then
      forwardCandidates sqrt dblMax data labels currentSet rest
    else
      let candidateSet := insert featureToAdd currentSet
      match leaveOneOutCrossValidation sqrt dblMax data labels candidateSet false with
      | none => none
      | some accuracy =>
        match forwardCandidates sqrt dblMax data labels currentSet rest with
        | none => none
        | some results => some (⟨featureToAdd, accuracy, candidateSet⟩ :: results)

/-- Body of the loop that finds the best candidate in `forwardSelection` (lines 112-118),
on the variables `(bestFeatureToAdd, bestNewAccuracy, foundBetter)`. -/
def forwardBestStep (best : FeatureIndex × α × Bool) (candidate : CandidateResult α) :
    FeatureIndex × α × Bool :=
  if !best.2.2 || candidate.accuracy > best.2.1 then
    (candidate.feature, candidate.accuracy, true)
  else best

/-- Body of the level loop of `forwardSelection` (lines 60-141).  The function `arrival`
is the order in which the candidate results are pushed under the mutex when the candidate
loop runs in parallel (`if(numFeatures > 8)`); the identity is the sequential order.
The unsigned difference `numFeatures - currentSet.size()` of line 72 wraps around when
the set is larger than `numFeatures`, and `reserve` then throws: this is the result
`none`. -/
def forwardLevel (arrival : List (CandidateResult α) → List (CandidateResult α))
    (sqrt : α → α) (dblMax : α) (data : DataMatrix α) (labels : LabelVector)
    (numFeatures : ℕ) (st : ForwardState α) : Option (LevelStep (ForwardState α)) :=
  if numFeatures < st.currentSet.card then none
  else
    match forwardCandidates sqrt dblMax data labels st.currentSet
        (List.range numFeatures) with
    | none => none
    | some pushed =>
      let candidateResults := if numFeatures > 8 then arrival pushed else pushed
      let best := candidateResults.foldl forwardBestStep (0, 0, false)
      let bestFeatureToAdd := best.1
      let bestNewAccuracy := best.2.1
      let foundBetter := best.2.2
      if !foundBetter then
        some LevelStep.exit
      else
        let currentSet := insert bestFeatureToAdd st.currentSet
        let allResults := st.result.allResults ++ [(currentSet, bestNewAccuracy)]
        if bestNewAccuracy > st.result.bestAccuracy then
          some (LevelStep.next ⟨currentSet, ⟨currentSet, bestNewAccuracy, allResults⟩⟩)
        else
          some (LevelStep.next
            ⟨currentSet, ⟨st.result.bestFeatureSet, st.result.bestAccuracy, allResults⟩⟩)

/-- Level loop of `forwardSelection` (line 59), with the number of iterations left. -/
def forwardLoop (arrival : List (CandidateResult α) → List (CandidateResult α))
    (sqrt : α → α) (dblMax : α) (data : DataMatrix α) (labels : LabelVector)
    (numFeatures : ℕ) : ℕ → ForwardState α → Option (ForwardState α)
  | 0, st => some st
  | n + 1, st =>
    match forwardLevel arrival sqrt dblMax data labels numFeatures st with
    | none => none
    | some LevelStep.exit => some st
    | some (LevelStep.next st') =>
      forwardLoop arrival sqrt dblMax data labels numFeatures n st'

/-- The value of `numFeatures` (lines 22-25 and 164-167): the size of the first data
point, `0` for empty data. -/
def numFeaturesOf (data : DataMatrix α) : ℕ :=
  match data with
  | [] => 0
  | point :: _ => point.length

/-- `FeatureSelection::forwardSelection` (feature_selection.cpp, lines 12-152). -/
def forwardSelection (arrival : List (CandidateResult α) → List (CandidateResult α))
    (sqrt : α → α) (dblMax : α) (data : DataMatrix α) (labels : LabelVector)
    (verbose : Bool) : Option (SearchResult α) :=
  let numFeatures := numFeaturesOf data
  let currentSet : FeatureSet := ∅
  match leaveOneOutCrossValidation sqrt dblMax data labels currentSet false with
  | none => none
  | some baselineAccuracy =>
    let result : SearchResult α := ⟨currentSet, baselineAccuracy, [(currentSet, baselineAccuracy)]⟩
    let _ := verbose
    match forwardLoop arrival sqrt dblMax data labels numFeatures numFeatures
        ⟨currentSet, result⟩ with
    | none => none
    | some st => some st.result

/-- The variables of `backwardElimination` that live across levels. -/
structure BackwardState (α : Type) where
  /-- The variable `currentSet`. -/
  currentSet : FeatureSet
  /-- The variable `allFeatures`, the features still present. -/
  allFeatures : List FeatureIndex
  /-- The variable `result`. -/
  result : SearchResult α

/-- Candidate loop of `backwardElimination` (lines 223-255) over the entries of
`allFeatures` still to visit: the list of candidate results pushed, in that order. -/
def backwardCandidates (sqrt : α → α) (dblMax : α) (data : DataMatrix α)
    (labels : LabelVector) (currentSet : FeatureSet) :
    List FeatureIndex → Option (List (CandidateResult α))
  | [] => some []
  | featureToRemove :: rest =>
    let candidateSet := currentSet.erase featureToRemove
    if candidateSet = ∅ then
      backwardCandidates sqrt dblMax data labels currentSet rest
    else
      match leaveOneOutCrossValidation sqrt dblMax data labels candidateSet false with
      | none => none
      | some accuracy =>
        match backwardCandidates sqrt dblMax data labels currentSet rest with
        | none => none
        | some results => some (⟨featureToRemove, accuracy, candidateSet⟩ :: results)

/-- Body of the loop that finds the best candidate in `backwardElimination`
(lines 266-271), on the variables `(bestFeatureToRemove, bestNewAccuracy)`. -/
def backwardBestStep (best : FeatureIndex × α) (candidate : CandidateResult α) :
    FeatureIndex × α :=
  if candidate.accuracy > best.2 then (candidate.feature, candidate.accuracy) else best

/-- Body of the level loop of `backwardElimination` (lines 208-295).  The function
`arrival` is the order in which the candidate results are pushed under the mutex when the
candidate loop runs in parallel (`if(allFeatures.size() > 8)`); the identity is the
sequential order. -/
def backwardLevel (arrival : List (CandidateResult α) → List (CandidateResult α))
    (sqrt : α → α) (dblMax : α) (data : DataMatrix α) (labels : LabelVector)
    (st : BackwardState α) : Option (LevelStep (BackwardState α)) :=
  match backwardCandidates sqrt dblMax data labels st.currentSet st.allFeatures with
  | none => none
  | some pushed =>
    let candidateResults := if st.allFeatures.length > 8 then arrival pushed else pushed
    match candidateResults with
    | [] => some LevelStep.exit
    | first :: others =>
      let best := others.foldl backwardBestStep (first.feature, first.accuracy)
      let bestFeatureToRemove := best.1
      let bestNewAccuracy := best.2
      let currentSet := st.currentSet.erase bestFeatureToRemove
      let allFeatures := st.allFeatures.filter (fun f => decide (f ≠ bestFeatureToRemove))
      let allResults := st.result.allResults ++ [(currentSet, bestNewAccuracy)]
      if bestNewAccuracy > st.result.bestAccuracy then
        some (LevelStep.next
          ⟨currentSet, allFeatures, ⟨currentSet, bestNewAccuracy, allResults⟩⟩)
      else
        some (LevelStep.next
          ⟨currentSet, allFeatures,
            ⟨st.result.bestFeatureSet, st.result.bestAccuracy, allResults⟩⟩)

/-- Level loop of `backwardElimination` (line 207), with the number of iterations left
by the bound `i < numFeatures`. -/
def backwardLoop (arrival : List (CandidateResult α) → List (CandidateResult α))
    (sqrt : α → α) (dblMax : α) (data : DataMatrix α) (labels : LabelVector) :
    ℕ → BackwardState α → Option (BackwardState α)
  | 0, st => some st
  | n + 1, st =>
    if st.allFeatures.length > 1 then
      match backwardLevel arrival sqrt dblMax data labels st with
      | none => none
      | some LevelStep.exit => some st
      | some (LevelStep.next st') => backwardLoop arrival sqrt dblMax data labels n st'
    else some st

/-- The final evaluation of the empty set in `backwardElimination` (lines 298-317). -/
def backwardFinal (sqrt : α → α) (dblMax : α) (data : DataMatrix α) (labels : LabelVector)
    (st : BackwardState α) : Option (SearchResult α) :=
  if st.allFeatures ≠ [] then
    let emptySet : FeatureSet := ∅
    match leaveOneOutCrossValidation sqrt dblMax data labels emptySet false with
    | none => none
    | some emptySetAccuracy =>
      let allResults := st.result.allResults ++ [(emptySet, emptySetAccuracy)]
      if emptySetAccuracy > st.result.bestAccuracy then
        some ⟨emptySet, emptySetAccuracy, allResults⟩
      else
        some ⟨st.result.bestFeatureSet, st.result.bestAccuracy, allResults⟩
  else some st.result

/-- `FeatureSelection::backwardElimination` (feature_selection.cpp, lines 154-327). -/
def backwardElimination (arrival : List (CandidateResult α) → List (CandidateResult α))
    (sqrt : α → α) (dblMax : α) (data : DataMatrix α) (labels : LabelVector)
    (verbose : Bool) : Option (SearchResult α) :=
  let numFeatures := numFeaturesOf data
  let currentSet : FeatureSet :=
    (List.range numFeatures).foldl (fun set i => insert i set) ∅
  match leaveOneOutCrossValidation sqrt dblMax data labels currentSet false with
  | none => none
  | some baselineAccuracy =>
    let result : SearchResult α :=
      ⟨currentSet, baselineAccuracy, [(currentSet, baselineAccuracy)]⟩
    let allFeatures := currentSet.toList
    let _ := verbose
    match backwardLoop arrival sqrt dblMax data labels numFeatures
        ⟨currentSet, allFeatures, result⟩ with
    | none => none
    | some st => backwardFinal sqrt dblMax data labels st

end FeatureSelection

section Output

variable {α : Type} [LinearOrderedField α]

/-- One line group written to `std::cout` by the verbose code paths; the payload is what
the line prints. -/
inductive Output (α : Type) where
  /-- The line "Running with N threads" (nearest_neighbor.cpp, line 90). -/
  | runningWith : ℕ → Output α
  /-- The line "Object i is class c" (nearest_neighbor.cpp, line 104). -/
  | objectClass : ℕ → ℤ → Output α
  /-- The line "Its nearest neighbor is j which is in class c" (lines 105-106). -/
  | nearestNeighbor : ℕ → ℤ → Output α
  /-- The line "Beginning ... search." and the OpenMP information that follows it
  (feature_selection.cpp, lines 28-37 and 170-179); the flag is true for backward
  elimination. -/
  | beginSearch : Bool → Output α
  /-- The line "Using feature(s) S accuracy is a%" (lines 49, 104, 194, 250, 306). -/
  | usingFeatures : FeatureSet → α → Output α
  /-- The line "Feature set S was best, accuracy is a%" (lines 129 and 283). -/
  | wasBest : FeatureSet → α → Output α
  /-- The line "Finished search!! ..." (lines 145 and 320). -/
  | finished : FeatureSet → α → Output α

/-- The loop of `leaveOneOutCrossValidation` (lines 97-113) together with the lines it
prints: `loocvLoop` extended with the output written so far. -/
def loocvLoopLog (sqrt : α → α) (dblMax : α) (data : DataMatrix α) (labels : LabelVector)
    (featureSubset : FeatureSet) (verbose : Bool) :
    List ℕ → ℕ → List (Output α) → Option (ℕ × List (Output α))
  | [], correctPredictions, out => some (correctPredictions, out)
  | i :: rest, correctPredictions, out =>
    match data[i]? with
    | none => none
    | some point =>
      let nearestIndex := findNearestNeighbor sqrt dblMax data point i featureSubset
      match labels[i]?, labels[nearestIndex]? with
      | some li, some ln =>
        let out' :=
          if verbose then
            out ++ [Output.objectClass (i + 1) li, Output.nearestNeighbor (nearestIndex + 1) ln]
          else out
        loocvLoopLog sqrt dblMax data labels featureSubset verbose rest
          (if li = ln then correctPredictions + 1 else correctPredictions) out'
      | _, _ => none

/-- `NearestNeighbor::leaveOneOutCrossValidation` (nearest_neighbor.cpp, lines 62-118)
together with the lines it prints; `numThreads` is the value of `omp_get_num_threads()`,
the size of the team of the parallel region.  The guard of line 68 returns before the
region.  In the region, `#pragma omp single` (line 88) is placed under
`if (threadId == 0 && verbose)`: with `verbose` on a team of more than one thread only
thread 0 reaches the construct and waits at its barrier for threads that never arrive, so
the call returns no value, which is the result `none` (as is a read out of bounds).  The
lines of concurrent iterations are listed in index order. -/
def leaveOneOutCrossValidationLog (numThreads : ℕ) (sqrt : α → α) (dblMax : α)
    (data : DataMatrix α) (labels : LabelVector) (featureSubset : FeatureSet)
    (verbose : Bool) : Option (α × List (Output α)) :=
  if data.isEmpty || labels.isEmpty || data.length != labels.length then
    some (0, [])
  else if verbose && decide (1 < numThreads) then
    none
  else
    let totalInstances := data.length
    let out := if verbose then [Output.runningWith numThreads] else []
    match loocvLoopLog sqrt dblMax data labels featureSubset verbose
        (List.range totalInstances) 0 out with
    | none => none
    | some (correctPredictions, out') =>
      some ((correctPredictions : α) / (totalInstances : α), out')

/-- The candidate loop of `forwardSelection` (lines 79-109) together with the lines it
prints, listed in loop order. -/
def forwardCandidatesLog (numThreads : ℕ) (sqrt : α → α) (dblMax : α) (data : DataMatrix α)
    (labels : LabelVector) (currentSet : FeatureSet) (verbose : Bool) :
    List FeatureIndex → Option (List (CandidateResult α) × List (Output α))
  | [] => some ([], [])
  | featureToAdd :: rest =>
    if featureToAdd ∈ currentSet then
      forwardCandidatesLog numThreads sqrt dblMax data labels currentSet verbose rest
    else
      let candidateSet := insert featureToAdd currentSet
      match leaveOneOutCrossValidationLog numThreads sqrt dblMax data labels candidateSet
          false with
      | none => none
      | some (accuracy, printed) =>
        match forwardCandidatesLog numThreads sqrt dblMax data labels currentSet verbose
            rest with
        | none => none
        | some (results, out) =>
          some (⟨featureToAdd, accuracy, candidateSet⟩ :: results,
            printed ++ (if verbose then [Output.usingFeatures candidateSet accuracy] else [])
              ++ out)

/-- The body of the level loop of `forwardSelection` (lines 60-141) together with the
lines it prints. -/
def forwardLevelLog (numThreads : ℕ)
    (arrival : List (CandidateResult α) → List (CandidateResult α))
    (sqrt : α → α) (dblMax : α) (data : DataMatrix α) (labels : LabelVector)
    (numFeatures : ℕ) (verbose : Bool) (st : ForwardState α) :
    Option (LevelStep (ForwardState α) × List (Output α)) :=
  if numFeatures < st.currentSet.card then none
  else
    match forwardCandidatesLog numThreads sqrt dblMax data labels st.currentSet verbose
        (List.range numFeatures) with
    | none => none
    | some (pushed, out) =>
      let candidateResults := if numFeatures > 8 then arrival pushed else pushed
      let best := candidateResults.foldl forwardBestStep (0, 0, false)
      let bestFeatureToAdd := best.1
      let bestNewAccuracy := best.2.1
      let foundBetter := best.2.2
      if !foundBetter then
        some (LevelStep.exit, out)
      else
        let currentSet := insert bestFeatureToAdd st.currentSet
        let out' := out ++ (if verbose then [Output.wasBest currentSet bestNewAccuracy] else [])
        let allResults := st.result.allResults ++ [(currentSet, bestNewAccuracy)]
        if bestNewAccuracy > st.result.bestAccuracy then
          some (LevelStep.next ⟨currentSet, ⟨currentSet, bestNewAccuracy, allResults⟩⟩, out')
        else
          some (LevelStep.next
            ⟨currentSet, ⟨st.result.bestFeatureSet, st.result.bestAccuracy, allResults⟩⟩,
            out')

/-- The level loop of `forwardSelection` (line 59) together with the output written so
far. -/
def forwardLoopLog (numThreads : ℕ)
    (arrival : List (CandidateResult α) → List (CandidateResult α))
    (sqrt : α → α) (dblMax : α) (data : DataMatrix α) (labels : LabelVector)
    (numFeatures : ℕ) (verbose : Bool) :
    ℕ → ForwardState α → List (Output α) → Option (ForwardState α × List (Output α))
  | 0, st, out => some (st, out)
  | n + 1, st, out =>
    match forwardLevelLog numThreads arrival sqrt dblMax data labels numFeatures verbose
        st with
    | none => none
    | some (LevelStep.exit, printed) => some (st, out ++ printed)
    | some (LevelStep.next st', printed) =>
      forwardLoopLog numThreads arrival sqrt dblMax data labels numFeatures verbose n st'
        (out ++ printed)

/-- `FeatureSelection::forwardSelection` (feature_selection.cpp, lines 12-152) together
with the lines it prints.  The line of the `Timer` destructor is printed for both values
of `verbose` and shows the elapsed time; it is not listed. -/
def forwardSelectionLog (numThreads : ℕ)
    (arrival : List (CandidateResult α) → List (CandidateResult α))
    (sqrt : α → α) (dblMax : α) (data : DataMatrix α) (labels : LabelVector)
    (verbose : Bool) : Option (SearchResult α × List (Output α)) :=
  let numFeatures := numFeaturesOf data
  let out₀ : List (Output α) := if verbose then [Output.beginSearch false] else []
  let currentSet : FeatureSet := ∅
  match leaveOneOutCrossValidationLog numThreads sqrt dblMax data labels currentSet
      false with
  | none => none
  | some (baselineAccuracy, printed) =>
    let out₁ := out₀ ++ printed
      ++ (if verbose then [Output.usingFeatures currentSet baselineAccuracy] else [])
    let result : SearchResult α :=
      ⟨currentSet, baselineAccuracy, [(currentSet, baselineAccuracy)]⟩
    match forwardLoopLog numThreads arrival sqrt dblMax data labels numFeatures verbose
        numFeatures ⟨currentSet, result⟩ out₁ with
    | none => none
    | some (st, out) =>
      some (st.result,
        out ++ (if verbose then
          [Output.finished st.result.bestFeatureSet st.result.bestAccuracy] else []))

/-- The candidate loop of `backwardElimination` (lines 223-255) together with the lines
it prints, listed in loop order. -/
def backwardCandidatesLog (numThreads : ℕ) (sqrt : α → α) (dblMax : α)
    (data : DataMatrix α) (labels : LabelVector) (currentSet : FeatureSet)
    (verbose : Bool) :
    List FeatureIndex → Option (List (CandidateResult α) × List (Output α))
  | [] => some ([], [])
  | featureToRemove :: rest =>
    let candidateSet := currentSet.erase featureToRemove
    if candidateSet = ∅ then
      backwardCandidatesLog numThreads sqrt dblMax data labels currentSet verbose rest
    else
      match leaveOneOutCrossValidationLog numThreads sqrt dblMax data labels candidateSet
          false with
      | none => none
      | some (accuracy, printed) =>
        match backwardCandidatesLog numThreads sqrt dblMax data labels currentSet verbose
            rest with
        | none => none
        | some (results, out) =>
          some (⟨featureToRemove, accuracy, candidateSet⟩ :: results,
            printed ++ (if verbose then [Output.usingFeatures candidateSet accuracy] else [])
              ++ out)

/-- The body of the level loop of `backwardElimination` (lines 208-295) together with
the lines it prints. -/
def backwardLevelLog (numThreads : ℕ)
    (arrival : List (CandidateResult α) → List (CandidateResult α))
    (sqrt : α → α) (dblMax : α) (data : DataMatrix α) (labels : LabelVector)
    (verbose : Bool) (st : BackwardState α) :
    Option (LevelStep (BackwardState α) × List (Output α)) :=
  match backwardCandidatesLog numThreads sqrt dblMax data labels st.currentSet verbose
      st.allFeatures with
  | none => none
  | some (pushed, out) =>
    let candidateResults := if st.allFeatures.length > 8 then arrival pushed else pushed
    match candidateResults with
    | [] => some (LevelStep.exit, out)
    | first :: others =>
      let best := others.foldl backwardBestStep (first.feature, first.accuracy)
      let bestFeatureToRemove := best.1
      let bestNewAccuracy := best.2
      let currentSet := st.currentSet.erase bestFeatureToRemove
      let allFeatures := st.allFeatures.filter (fun f => decide (f ≠ bestFeatureToRemove))
      let out' := out ++ (if verbose then [Output.wasBest currentSet bestNewAccuracy] else [])
      let allResults := st.result.allResults ++ [(currentSet, bestNewAccuracy)]
      if bestNewAccuracy > st.result.bestAccuracy then
        some (LevelStep.next
          ⟨currentSet, allFeatures, ⟨currentSet, bestNewAccuracy, allResults⟩⟩, out')
      else
        some (LevelStep.next
          ⟨currentSet, allFeatures,
            ⟨st.result.bestFeatureSet, st.result.bestAccuracy, allResults⟩⟩, out')

/-- The level loop of `backwardElimination` (line 207) together with the output written
so far. -/
def backwardLoopLog (numThreads : ℕ)
    (arrival : List (CandidateResult α) → List (CandidateResult α))
    (sqrt : α → α) (dblMax : α) (data : DataMatrix α) (labels : LabelVector)
    (verbose : Bool) :
    ℕ → BackwardState α → List (Output α) → Option (BackwardState α × List (Output α))
  | 0, st, out => some (st, out)
  | n + 1, st, out =>
    if st.allFeatures.length > 1 then
      match backwardLevelLog numThreads arrival sqrt dblMax data labels verbose st with
      | none => none
      | some (LevelStep.exit, printed) => some (st, out ++ printed)
      | some (LevelStep.next st', printed) =>
        backwardLoopLog numThreads arrival sqrt dblMax data labels verbose n st'
          (out ++ printed)
    else some (st, out)

/-- The final evaluation of the empty set in `backwardElimination` (lines 298-317)
together with the line it prints. -/
def backwardFinalLog (numThreads : ℕ) (sqrt : α → α) (dblMax : α) (data : DataMatrix α)
    (labels : LabelVector) (verbose : Bool) (st : BackwardState α) :
    Option (SearchResult α × List (Output α)) :=
  if st.allFeatures ≠ [] then
    let emptySet : FeatureSet := ∅
    match leaveOneOutCrossValidationLog numThreads sqrt dblMax data labels emptySet
        false with
    | none => none
    | some (emptySetAccuracy, printed) =>
      let out := printed
        ++ (if verbose then [Output.usingFeatures emptySet emptySetAccuracy] else [])
      let allResults := st.result.allResults ++ [(emptySet, emptySetAccuracy)]
      if emptySetAccuracy > st.result.bestAccuracy then
        some (⟨emptySet, emptySetAccuracy, allResults⟩, out)
      else
        some (⟨st.result.bestFeatureSet, st.result.bestAccuracy, allResults⟩, out)
  else some (st.result, [])

/-- `FeatureSelection::backwardElimination` (feature_selection.cpp, lines 154-327)
together with the lines it prints.  The line of the `Timer` destructor is printed for
both values of `verbose` and shows the elapsed time; it is not listed. -/
def backwardEliminationLog (numThreads : ℕ)
    (arrival : List (CandidateResult α) → List (CandidateResult α))
    (sqrt : α → α) (dblMax : α) (data : DataMatrix α) (labels : LabelVector)
    (verbose : Bool) : Option (SearchResult α × List (Output α)) :=
  let numFeatures := numFeaturesOf data
  let out₀ : List (Output α) := if verbose then [Output.beginSearch true] else []
  let currentSet : FeatureSet :=
    (List.range numFeatures).foldl (fun set i => insert i set) ∅
  match leaveOneOutCrossValidationLog numThreads sqrt dblMax data labels currentSet
      false with
  | none => none
  | some (baselineAccuracy, printed) =>
    let out₁ := out₀ ++ printed
      ++ (if verbose then [Output.usingFeatures currentSet baselineAccuracy] else [])
    let result : SearchResult α :=
      ⟨currentSet, baselineAccuracy, [(currentSet, baselineAccuracy)]⟩
    let allFeatures := currentSet.toList
    match backwardLoopLog numThreads arrival sqrt dblMax data labels verbose numFeatures
        ⟨currentSet, allFeatures, result⟩ out₁ with
    | none => none
    | some (st, out) =>
      match backwardFinalLog numThreads sqrt dblMax data labels verbose st with
      | none => none
      | some (result', printed') =>
        some (result',
          out ++ printed' ++ (if verbose then
            [Output.finished result'.bestFeatureSet result'.bestAccuracy] else []))

end Output

section DataLoader

variable {α : Type}

/-- `DataLoader::extractFeatures`: the empty matrix when `data` or `features` is empty,
otherwise one row per data point holding `dataPoint[idx]` for each `idx` of `features`, in
the ascending order of the set, skipping an index that is not below `dataPoint.size()`. -/
def extractFeatures (data : DataMatrix α) (features : FeatureSet) : DataMatrix α :=
  if data.isEmpty || decide (features = ∅) then []
  else
    data.foldl (fun result dataPoint =>
      let newPoint := features.toList.foldl (fun (newPoint : DataPoint α) idx =>
        if h : idx < dataPoint.length then newPoint ++ [dataPoint[idx]] else newPoint) []
      result ++ [newPoint]) []

/-- `std::getline(file, line)` on the unread part of a file, a list of bytes in which 10 is
the newline: `none` when nothing is left to extract (the call sets `failbit` and the loop
condition is false), otherwise the bytes before the next newline and what follows that
newline. -/
def getline (stream : List ℕ) : Option (List ℕ × List ℕ) :=
  match stream with
  | [] => none
  | _ :: _ => some (stream.takeWhile (· != 10), (stream.dropWhile (· != 10)).tail)

/-- The loop `while (bytesRead < chunkSize && std::getline(file, line))` of
`DataLoader::readFileChunk`.  `parseRow` stands for the extraction loop
`while (iss >> value) row.push_back(value)` over one line.  Every successful `getline`
consumes at least one byte, so `fuel = stream.length` iterations are enough (see
`readLines_fuel`). -/
def readLines (parseRow : List ℕ → List α) (chunkSize : ℕ) :
    ℕ → ℕ → List ℕ → List (List α) → List (List α)
  | 0, _, _, chunkData => chunkData
  | fuel + 1, bytesRead, stream, chunkData =>
    if bytesRead < chunkSize then
      match getline stream with
      | none => chunkData
      | some (line, rest) =>
        let row := parseRow line
        readLines parseRow chunkSize fuel (bytesRead + (line.length + 1)) rest
          (if row.isEmpty then chunkData else chunkData ++ [row])
    else chunkData

/-- `DataLoader::readFileChunk` on a file that can be opened, given by its content:
`seekg(startPos)`, one line discarded (and counted) when `startPos > 0`, then the reading
loop. -/
def readFileChunk (parseRow : List ℕ → List α) (content : List ℕ)
    (startPos chunkSize : ℕ) : List (List α) :=
  let file := content.drop startPos
  let afterSkip : List ℕ × ℕ :=
    if startPos > 0 then
      match getline file with
      | none => ([], 0 + (0 + 1))
      | some (line, rest) => (rest, 0 + (line.length + 1))
    else (file, 0)
  readLines parseRow chunkSize afterSkip.1.length afterSkip.2 afterSkip.1 []

/-- `DataLoader::readFileConcurrent` on a file that can be opened.  `hardwareConcurrency`
is the value of `std::thread::hardware_concurrency()`; `none` is the division by zero of
`fileSize / numThreads` when that value is 0.  Every task reads the immutable file, and
the futures are collected in the order of their creation. -/
def readFileConcurrent (parseRow : List ℕ → List α) (hardwareConcurrency : ℕ)
    (content : List ℕ) : Option (List (List α)) :=
  let fileSize := content.length
  let numThreads := min 8 hardwareConcurrency
  if numThreads = 0 then none
  else
    let chunkSize := fileSize / numThreads
    some ((List.range numThreads).foldl (fun result i =>
      let startPos := i * chunkSize
      let endPos := if i = numThreads - 1 then fileSize else startPos + chunkSize
      let actualChunkSize := endPos - startPos
      result ++ readFileChunk parseRow content startPos actualChunkSize) [])

/-- `DataLoader::processRawData`: empty rows are skipped; for any other row the first
value, converted by `static_cast<Label>` (the parameter `toLabel`), is pushed to `labels`
and the remaining values are pushed to `data` as one point. -/
def processRawData (toLabel : α → ℤ) (rawData : List (List α)) :
    DataMatrix α × LabelVector :=
  rawData.foldl (fun (acc : DataMatrix α × LabelVector) row =>
    match row with
    | [] => acc
    | first :: point => (acc.1 ++ [point], acc.2 ++ [toLabel first])) ([], [])

/-- `DataLoader::verifyDatasetConsistency`. -/
def verifyDatasetConsistency (data : DataMatrix α) : Bool :=
  match data with
  | [] => true
  | first :: _ =>
    let featureCount := first.length
    data.all (fun point => point.length == featureCount)

/-- The statements of `DataLoader::loadDataset` that follow the call of
`readFileConcurrent`: `processRawData`, `verifyDatasetConsistency` and the comparison of the
two sizes; `none` stands for a thrown `std::runtime_error`. -/
def loadDatasetRows (toLabel : α → ℤ) (rawData : List (List α)) :
    Option (DataMatrix α × LabelVector) :=
  let processed := processRawData toLabel rawData
  let data := processed.1
  let labels := processed.2
  if !verifyDatasetConsistency data then none
  else if labels.length != data.length then none
  else some (data, labels)

/-- `DataLoader::loadDataset` on a file that can be opened, given by its content; `none`
stands for a thrown `std::runtime_error` (or the division by zero of
`readFileConcurrent`). -/
def loadDataset (parseRow : List ℕ → List α) (toLabel : α → ℤ) (hardwareConcurrency : ℕ)
    (content : List ℕ) : Option (DataMatrix α × LabelVector) :=
  match readFileConcurrent parseRow hardwareConcurrency content with
  | none => none
  | some rawData => loadDatasetRows toLabel rawData

end DataLoader

section Specification

variable {α : Type} [LinearOrderedField α]

/-- The effective index set of the distance, in the words of the specification: the
indices of a non-empty subset that are valid for both points, and every index below
`min(len(a), len(b))` for the empty subset. -/
def effectiveIndices (a b : DataPoint α) (S : FeatureSet) : Finset ℕ :=
  if S.Nonempty then S.filter (fun i => i < a.length ∧ i < b.length)
  else Finset.range (min a.length b.length)

/-- The squared difference of two points at one index. -/
def sqDiff (a b : DataPoint α) (i : ℕ) : α := (a.getD i 0 - b.getD i 0) ^ 2

/-- Whether instance `i` is predicted correctly by its nearest neighbour, in the words of
the specification: `labels[i] == labels[findNearestNeighbor(data, data[i], i, subset)]`. -/
def correctAt (sqrt : α → α) (dblMax : α) (data : DataMatrix α) (labels : LabelVector)
    (S : FeatureSet) (i : ℕ) : Bool :=
  decide (labels.getD i 0
    = labels.getD (findNearestNeighbor sqrt dblMax data (data.getD i []) i S) 0)

/-- The number of correctly predicted instances, in the words of the specification: the
number of indices `i` in `[0, n)` that are predicted correctly. -/
def correctCount (sqrt : α → α) (dblMax : α) (data : DataMatrix α) (labels : LabelVector)
    (S : FeatureSet) : ℕ :=
  ((Finset.range data.length).filter
    (fun i => correctAt sqrt dblMax data labels S i = true)).card

/-- The accuracy of the specification: `0` on degenerate inputs, `correct_count / n`
otherwise. -/
def loocvAccuracy (sqrt : α → α) (dblMax : α) (data : DataMatrix α) (labels : LabelVector)
    (S : FeatureSet) : α :=
  if data = [] ∨ labels = [] ∨ data.length ≠ labels.length then 0
  else (correctCount sqrt dblMax data labels S : α) / (data.length : α)

/-- A square root on the rationals that is exact on squares of rationals, for evaluating
the definitions on concrete inputs. -/
def ratSqrt (x : ℚ) : ℚ := (Nat.sqrt x.num.toNat : ℚ) / (Nat.sqrt x.den : ℚ)

/-- The value of `std::numeric_limits<double>::max()`, `(2 - 2^-52) * 2^1023`, as a
rational number. -/
def doubleMax : ℚ := (2 ^ 53 - 1) * 2 ^ 971

/-- The candidate result that the candidate loop of `forwardSelection` pushes for the
feature `f` (lines 86-97), with the accuracy of the specification. -/
def forwardCandidate (sqrt : α → α) (dblMax : α) (data : DataMatrix α) (labels : LabelVector)
    (currentSet : FeatureSet) (f : FeatureIndex) : CandidateResult α :=
  ⟨f, loocvAccuracy sqrt dblMax data labels (insert f currentSet), insert f currentSet⟩

/-- The candidate results of one level of `forwardSelection` in the order in which they
are pushed: ascending feature index when the candidate loop is sequential, the order
`arrival` when it runs in parallel. -/
def forwardArrived (arrival : List (CandidateResult α) → List (CandidateResult α))
    (sqrt : α → α) (dblMax : α) (data : DataMatrix α) (labels : LabelVector)
    (numFeatures : ℕ) (currentSet : FeatureSet) : List (CandidateResult α) :=
  let pushed := ((List.range numFeatures).filter (fun f => decide (f ∉ currentSet))).map
    (forwardCandidate sqrt dblMax data labels currentSet)
  if numFeatures > 8 then arrival pushed else pushed

/-- The update of `result` that ends a level (lines 134-141, 288-295 and 311-316): the
pair is appended to the history, and replaces the best pair when its accuracy is strictly
greater. -/
def recordLevel (result : SearchResult α) (set : FeatureSet) (accuracy : α) :
    SearchResult α :=
  ⟨if accuracy > result.bestAccuracy then set else result.bestFeatureSet,
    if accuracy > result.bestAccuracy then accuracy else result.bestAccuracy,
    result.allResults ++ [(set, accuracy)]⟩

/-- The variables of `forwardSelection` after a level whose winner is the candidate `c`
(lines 126-141). -/
def forwardAdvance (st : ForwardState α) (c : CandidateResult α) : ForwardState α :=
  ⟨insert c.feature st.currentSet,
    recordLevel st.result (insert c.feature st.currentSet) c.accuracy⟩

/-- The candidate result that the candidate loop of `backwardElimination` pushes for the
feature `f` (lines 227-243), with the accuracy of the specification. -/
def backwardCandidate (sqrt : α → α) (dblMax : α) (data : DataMatrix α)
    (labels : LabelVector) (currentSet : FeatureSet) (f : FeatureIndex) :
    CandidateResult α :=
  ⟨f, loocvAccuracy sqrt dblMax data labels (currentSet.erase f), currentSet.erase f⟩

/-- The candidate results of one level of `backwardElimination` in the order in which
they are pushed: the order of `allFeatures` when the candidate loop is sequential, the
order `arrival` when it runs in parallel. -/
def backwardArrived (arrival : List (CandidateResult α) → List (CandidateResult α))
    (sqrt : α → α) (dblMax : α) (data : DataMatrix α) (labels : LabelVector)
    (st : BackwardState α) : List (CandidateResult α) :=
  let pushed := (st.allFeatures.filter (fun f => decide (st.currentSet.erase f ≠ ∅))).map
    (backwardCandidate sqrt dblMax data labels st.currentSet)
  if st.allFeatures.length > 8 then arrival pushed else pushed

/-- The variables of `backwardElimination` after a level whose winner is the candidate
`c` (lines 273-295). -/
def backwardAdvance (st : BackwardState α) (c : CandidateResult α) : BackwardState α :=
  ⟨st.currentSet.erase c.feature, st.allFeatures.filter (fun f => decide (f ≠ c.feature)),
    recordLevel st.result (st.currentSet.erase c.feature) c.accuracy⟩

/-- The history of a search result is led by its best pair: every entry before the first
occurrence of the best pair is strictly less accurate, every entry after it is at most as
accurate. -/
def BestIsFirstMax (result : SearchResult α) : Prop :=
  ∃ pre post, result.allResults = pre ++ (result.bestFeatureSet, result.bestAccuracy) :: post ∧
    (∀ e ∈ pre, e.2 < result.bestAccuracy) ∧ ∀ e ∈ post, e.2 ≤ result.bestAccuracy

/-- The number of levels of `forwardSelection` that selected a winner, among at most `n`
levels run from the state `st`. -/
def forwardLevelsRun (arrival : List (CandidateResult α) → List (CandidateResult α))
    (sqrt : α → α) (dblMax : α) (data : DataMatrix α) (labels : LabelVector)
    (numFeatures : ℕ) : ℕ → ForwardState α → ℕ
  | 0, _ => 0
  | n + 1, st =>
    match forwardLevel arrival sqrt dblMax data labels numFeatures st with
    | some (LevelStep.next st') =>
      forwardLevelsRun arrival sqrt dblMax data labels numFeatures n st' + 1
    | _ => 0

/-- The set `T` is the set `S` plus exactly one feature index below `numFeatures` that is
not in `S`. -/
def AddsFeature (numFeatures : ℕ) (S T : FeatureSet) : Prop :=
  ∃ f, f < numFeatures ∧ f ∉ S ∧ T = insert f S

/-- The set `T` is the set `S` minus exactly one of its features. -/
def RemovesFeature (S T : FeatureSet) : Prop :=
  ∃ f, f ∈ S ∧ T = S.erase f

/-- A history whose consecutive feature sets are related by `step`, whose last set is
`current`, and whose accuracies are those of the evaluator `acc`. -/
def HistoryInv (step : FeatureSet → FeatureSet → Prop) (acc : FeatureSet → α)
    (current : FeatureSet) (history : List (FeatureSet × α)) : Prop :=
  (history.map Prod.fst).Chain' step ∧
  (history.map Prod.fst).getLast? = some current ∧
  ∀ e ∈ history, e.2 = acc e.1

/-- The states in which the body of the level loop of `backwardElimination` is entered,
among at most `n` iterations from the state `st`: the loop condition holds, and the
previous level did not leave through `break`. -/
def backwardVisited (arrival : List (CandidateResult α) → List (CandidateResult α))
    (sqrt : α → α) (dblMax : α) (data : DataMatrix α) (labels : LabelVector) :
    ℕ → BackwardState α → List (BackwardState α)
  | 0, _ => []
  | n + 1, st =>
    if st.allFeatures.length > 1 then
      match backwardLevel arrival sqrt dblMax data labels st with
      | some (LevelStep.next st') =>
        st :: backwardVisited arrival sqrt dblMax data labels n st'
      | _ => [st]
    else []

/-- A push order of a parallel candidate loop that two threads produce: the result of the
second candidate is pushed before the result of the first one, the other results follow
in loop order. -/
def secondFirst {β : Type} : List β → List β
  | first :: second :: others => second :: first :: others
  | results => results

end Specification

section LoaderSpecification

variable {α : Type}

/-- The non-empty rows of the raw data, in order. -/
def nonEmptyRows (rawData : List (List α)) : List (List α) :=
  rawData.filter (fun row => !row.isEmpty)

/-- The label pushed by `processRawData` for a row. -/
def rowLabel (toLabel : α → ℤ) (row : List α) : ℤ :=
  match row with
  | [] => 0
  | first :: _ => toLabel first

/-- The lines of a file content: the bytes between consecutive newlines (byte 10); a
final line without a newline counts, an empty remainder after the last newline does
not. -/
def fileLines : ℕ → List ℕ → List (List ℕ)
  | 0, _ => []
  | fuel + 1, stream =>
    match stream with
    | [] => []
    | _ :: _ =>
      stream.takeWhile (· != 10) :: fileLines fuel ((stream.dropWhile (· != 10)).tail)

/-- The rows obtained by parsing a whole file sequentially from position 0: every line is
parsed once, in order, and lines without a value are dropped. -/
def sequentialRows (parseRow : List ℕ → List α) (content : List ℕ) :
    List (List α) :=
  ((fileLines content.length content).map parseRow).filter (fun row => !row.isEmpty)

end LoaderSpecification

section DistanceLemmas
variable {α : Type} [LinearOrderedField α]

theorem subsetStep_eq (a b : DataPoint α) (sum : α) (idx : ℕ) :
    subsetStep a b sum idx
      = sum + (if idx < a.length ∧ idx < b.length then sqDiff a b idx else 0) := by
  unfold subsetStep sqDiff
  by_cases h : idx < a.length ∧ idx < b.length
  · simp only [dif_pos h, if_pos h]
    rw [List.getD_eq_getElem _ _ h.1, List.getD_eq_getElem _ _ h.2]
    simp only [List.get_eq_getElem]
    ring
  · simp [dif_neg h, if_neg h]

theorem foldl_subsetStep (a b : DataPoint α) (l : List ℕ) (init : α) :
    l.foldl (subsetStep a b) init
      = init + (l.map (fun i => if i < a.length ∧ i < b.length then sqDiff a b i else 0)).sum := by
  induction l generalizing init with
  | nil => simp
  | cons i l ih =>
    rw [List.foldl_cons, ih, subsetStep_eq, List.map_cons, List.sum_cons, add_assoc]

theorem allStep_eq (a b : DataPoint α) (sum : α) (i : Fin (min a.length b.length)) :
    allStep a b sum i = sum + sqDiff a b i.val := by
  have h1 : i.val < a.length := lt_of_lt_of_le i.2 (min_le_left _ _)
  have h2 : i.val < b.length := lt_of_lt_of_le i.2 (min_le_right _ _)
  unfold allStep sqDiff
  rw [List.getD_eq_getElem _ _ h1, List.getD_eq_getElem _ _ h2]
  simp only [List.get_eq_getElem]
  ring

theorem foldl_allStep (a b : DataPoint α) (l : List (Fin (min a.length b.length))) (init : α) :
    l.foldl (allStep a b) init = init + ((l.map Fin.val).map (sqDiff a b)).sum := by
  induction l generalizing init with
  | nil => simp
  | cons i l ih =>
    rw [List.foldl_cons, ih, allStep_eq, List.map_cons, List.map_cons, List.sum_cons, add_assoc]

theorem calculateDistance_eq_sum (sqrt : α → α) (a b : DataPoint α) (S : FeatureSet) :
    calculateDistance sqrt a b S = sqrt (∑ i ∈ effectiveIndices a b S, sqDiff a b i) := by
  unfold calculateDistance effectiveIndices
  by_cases hS : S = ∅
  · subst hS
    simp only [ne_eq, not_true_eq_false, if_false, Finset.not_nonempty_empty]
    rw [foldl_allStep, List.map_coe_finRange, zero_add]
    rfl
  · have hne : S.Nonempty := Finset.nonempty_iff_ne_empty.mpr hS
    simp only [ne_eq, hS, not_false_eq_true, if_true, hne]
    rw [foldl_subsetStep, zero_add, FeatureSet.toList]
    congr 1
    rw [← List.sum_toFinset _ (Finset.sort_nodup _ _), Finset.sort_toFinset, Finset.sum_filter]

omit [LinearOrderedField α] in
theorem effectiveIndices_range (a b : DataPoint α) (m : ℕ) (h : min a.length b.length ≤ m) :
    effectiveIndices a b (Finset.range m) = effectiveIndices a b ∅ := by
  unfold effectiveIndices
  simp only [Finset.not_nonempty_empty, if_false]
  split
  · ext i
    simp only [Finset.mem_filter, Finset.mem_range, lt_min_iff]
    constructor
    · exact fun h' => h'.2
    · exact fun h' => ⟨lt_of_lt_of_le (lt_min h'.1 h'.2) h, h'⟩
  · rfl

theorem calculateDistance_range (sqrt : α → α) (a b : DataPoint α) (m : ℕ)
    (h : min a.length b.length ≤ m) :
    calculateDistance sqrt a b (Finset.range m) = calculateDistance sqrt a b ∅ := by
  rw [calculateDistance_eq_sum, calculateDistance_eq_sum, effectiveIndices_range a b m h]

end DistanceLemmas

section NearestLemmas
variable {α : Type} [LinearOrderedField α]

theorem findNearestLoop_cases (sqrt : α → α) (point : DataPoint α) (excl : ℕ) (S : FeatureSet)
    (l : List (DataPoint α)) (i : ℕ) (minD : α) (nearest : ℕ) :
    (findNearestLoop sqrt point excl S l i minD nearest = nearest ∧
      ∀ k p, l[k]? = some p → i + k ≠ excl → ¬ calculateDistance sqrt point p S < minD)
    ∨ (∃ k p, l[k]? = some p ∧ findNearestLoop sqrt point excl S l i minD nearest = i + k ∧
        i + k ≠ excl ∧ calculateDistance sqrt point p S < minD ∧
        (∀ k' p', l[k']? = some p' → i + k' ≠ excl →
          calculateDistance sqrt point p S ≤ calculateDistance sqrt point p' S) ∧
        (∀ k' p', l[k']? = some p' → k' < k → i + k' ≠ excl →
          calculateDistance sqrt point p S < calculateDistance sqrt point p' S)) := by
  induction l generalizing i minD nearest with
  | nil => left; simp [findNearestLoop]
  | cons q rest ih =>
    by_cases hi : i = excl
    · rw [findNearestLoop, if_pos hi]
      rcases ih (i + 1) minD nearest with ⟨hr, hall⟩ | ⟨k, p, hk, hr, hne, hlt, hmin, hfirst⟩
      · left
        refine ⟨hr, ?_⟩
        intro k p hk hne
        cases k with
        | zero => exact absurd hi hne
        | succ k =>
          simp only [List.getElem?_cons_succ] at hk
          exact hall k p hk (by omega)
      · right
        refine ⟨k + 1, p, by simpa using hk, by rw [hr]; omega, by omega, hlt, ?_, ?_⟩
        · intro k' p' hk' hne'
          cases k' with
          | zero => exact absurd hi hne'
          | succ k' =>
            simp only [List.getElem?_cons_succ] at hk'
            exact hmin k' p' hk' (by omega)
        · intro k' p' hk' hlt' hne'
          cases k' with
          | zero => exact absurd hi hne'
          | succ k' =>
            simp only [List.getElem?_cons_succ] at hk'
            exact hfirst k' p' hk' (by omega) (by omega)
    · by_cases hd : calculateDistance sqrt point q S < minD
      · rw [findNearestLoop, if_neg hi]
        simp only [if_pos hd]
        right
        rcases ih (i + 1) (calculateDistance sqrt point q S) i with
          ⟨hr, hall⟩ | ⟨k, p, hk, hr, hne, hlt, hmin, hfirst⟩
        · refine ⟨0, q, by simp, by rw [hr]; rfl, hi, hd, ?_, ?_⟩
          · intro k' p' hk' hne'
            cases k' with
            | zero =>
              simp only [List.getElem?_cons_zero, Option.some.injEq] at hk'
              rw [hk']
            | succ k' =>
              simp only [List.getElem?_cons_succ] at hk'
              exact not_lt.mp (hall k' p' hk' (by omega))
          · intro k' p' _ hlt'
            exact absurd hlt' (Nat.not_lt_zero _)
        · refine ⟨k + 1, p, by simpa using hk, by rw [hr]; omega, by omega, lt_trans hlt hd,
            ?_, ?_⟩
          · intro k' p' hk' hne'
            cases k' with
            | zero =>
              simp only [List.getElem?_cons_zero, Option.some.injEq] at hk'
              rw [← hk']
              exact le_of_lt hlt
            | succ k' =>
              simp only [List.getElem?_cons_succ] at hk'
              exact hmin k' p' hk' (by omega)
          · intro k' p' hk' hlt' hne'
            cases k' with
            | zero =>
              simp only [List.getElem?_cons_zero, Option.some.injEq] at hk'
              rw [← hk']
              exact hlt
            | succ k' =>
              simp only [List.getElem?_cons_succ] at hk'
              exact hfirst k' p' hk' (by omega) (by omega)
      · rw [findNearestLoop, if_neg hi]
        simp only [if_neg hd]
        rcases ih (i + 1) minD nearest with ⟨hr, hall⟩ | ⟨k, p, hk, hr, hne, hlt, hmin, hfirst⟩
        · left
          refine ⟨hr, ?_⟩
          intro k p hk hne
          cases k with
          | zero =>
            simp only [List.getElem?_cons_zero, Option.some.injEq] at hk
            rw [← hk]
            exact hd
          | succ k =>
            simp only [List.getElem?_cons_succ] at hk
            exact hall k p hk (by omega)
        · right
          have hqp : calculateDistance sqrt point p S < calculateDistance sqrt point q S :=
            lt_of_lt_of_le hlt (not_lt.mp hd)
          refine ⟨k + 1, p, by simpa using hk, by rw [hr]; omega, by omega, hlt, ?_, ?_⟩
          · intro k' p' hk' hne'
            cases k' with
            | zero =>
              simp only [List.getElem?_cons_zero, Option.some.injEq] at hk'
              rw [← hk']
              exact le_of_lt hqp
            | succ k' =>
              simp only [List.getElem?_cons_succ] at hk'
              exact hmin k' p' hk' (by omega)
          · intro k' p' hk' hlt' hne'
            cases k' with
            | zero =>
              simp only [List.getElem?_cons_zero, Option.some.injEq] at hk'
              rw [← hk']
              exact hqp
            | succ k' =>
              simp only [List.getElem?_cons_succ] at hk'
              exact hfirst k' p' hk' (by omega) (by omega)

end NearestLemmas

section NearestCorollaries
variable {α : Type} [LinearOrderedField α]

theorem findNearestNeighbor_lt (sqrt : α → α) (dblMax : α) (data : DataMatrix α)
    (point : DataPoint α) (excl : ℕ) (S : FeatureSet) (h : data ≠ []) :
    findNearestNeighbor sqrt dblMax data point excl S < data.length := by
  unfold findNearestNeighbor
  rcases findNearestLoop_cases sqrt point excl S data 0 dblMax 0 with
    ⟨hr, _⟩ | ⟨k, p, hk, hr, _⟩
  · rw [hr]
    exact List.length_pos.mpr h
  · rw [hr, Nat.zero_add]
    exact (List.getElem?_eq_some_iff.mp hk).1

end NearestCorollaries

section LoocvLemmas
variable {α : Type} [LinearOrderedField α]

theorem loocvLoop_eq (sqrt : α → α) (dblMax : α) (data : DataMatrix α) (labels : LabelVector)
    (S : FeatureSet) (hne : data ≠ []) (hlen : data.length = labels.length)
    (is : List ℕ) (his : ∀ i ∈ is, i < data.length) (c : ℕ) :
    loocvLoop sqrt dblMax data labels S is c
      = some (c + (is.filter (correctAt sqrt dblMax data labels S)).length) := by
  induction is generalizing c with
  | nil => simp [loocvLoop]
  | cons i rest ih =>
    have hi : i < data.length := his i (List.mem_cons_self _ _)
    have hrest : ∀ j ∈ rest, j < data.length := fun j hj => his j (List.mem_cons_of_mem _ hj)
    have hn : findNearestNeighbor sqrt dblMax data data[i] i S < labels.length :=
      hlen ▸ findNearestNeighbor_lt sqrt dblMax data data[i] i S hne
    have hil : i < labels.length := hlen ▸ hi
    rw [loocvLoop, List.getElem?_eq_getElem hi]
    simp only [List.getElem?_eq_getElem hil, List.getElem?_eq_getElem hn]
    rw [ih hrest, List.filter_cons]
    have hc : correctAt sqrt dblMax data labels S i
        = decide (labels[i] = labels[findNearestNeighbor sqrt dblMax data data[i] i S]) := by
      unfold correctAt
      rw [List.getD_eq_getElem _ _ hi, List.getD_eq_getElem _ _ hil,
        List.getD_eq_getElem _ _ hn]
    rw [hc]
    by_cases heq : labels[i] = labels[findNearestNeighbor sqrt dblMax data data[i] i S]
    · simp [heq]; omega
    · simp [heq]

theorem correctCount_eq_length (sqrt : α → α) (dblMax : α) (data : DataMatrix α)
    (labels : LabelVector) (S : FeatureSet) :
    correctCount sqrt dblMax data labels S
      = ((List.range data.length).filter (correctAt sqrt dblMax data labels S)).length := by
  unfold correctCount
  have h : Finset.range data.length = (List.range data.length).toFinset := by
    ext i; simp
  rw [h, ← List.toFinset_filter, List.toFinset_card_of_nodup ((List.nodup_range _).filter _)]

theorem correctCount_le (sqrt : α → α) (dblMax : α) (data : DataMatrix α)
    (labels : LabelVector) (S : FeatureSet) :
    correctCount sqrt dblMax data labels S ≤ data.length := by
  unfold correctCount
  calc _ ≤ (Finset.range data.length).card := Finset.card_filter_le _ _
    _ = data.length := Finset.card_range _

theorem loocv_eq_accuracy (sqrt : α → α) (dblMax : α) (data : DataMatrix α)
    (labels : LabelVector) (S : FeatureSet) (verbose : Bool) :
    leaveOneOutCrossValidation sqrt dblMax data labels S verbose
      = some (loocvAccuracy sqrt dblMax data labels S) := by
  unfold leaveOneOutCrossValidation loocvAccuracy
  by_cases hd : data = [] ∨ labels = [] ∨ data.length ≠ labels.length
  · have : (data.isEmpty || labels.isEmpty || data.length != labels.length) = true := by
      rcases hd with h | h | h
      · simp [h]
      · simp [h]
      · simp [h]
    rw [if_pos this, if_pos hd]
  · have hd' := hd
    push_neg at hd'
    obtain ⟨h1, h2, h3⟩ := hd'
    have : ¬ (data.isEmpty || labels.isEmpty || data.length != labels.length) = true := by
      simp [List.isEmpty_iff, h1, h2, h3]
    rw [if_neg this, if_neg hd]
    simp only
    rw [loocvLoop_eq sqrt dblMax data labels S h1 h3 _ (fun i hi => List.mem_range.mp hi) 0,
      Nat.zero_add, ← correctCount_eq_length]

theorem findNearestLoop_congr (sqrt : α → α) (point : DataPoint α) (excl : ℕ)
    (S T : FeatureSet) (l : List (DataPoint α))
    (h : ∀ p ∈ l, calculateDistance sqrt point p S = calculateDistance sqrt point p T)
    (i : ℕ) (minD : α) (nearest : ℕ) :
    findNearestLoop sqrt point excl S l i minD nearest
      = findNearestLoop sqrt point excl T l i minD nearest := by
  induction l generalizing i minD nearest with
  | nil => rfl
  | cons q rest ih =>
    have hq := h q (List.mem_cons_self _ _)
    have hrest : ∀ p ∈ rest,
        calculateDistance sqrt point p S = calculateDistance sqrt point p T :=
      fun p hp => h p (List.mem_cons_of_mem _ hp)
    simp only [findNearestLoop, hq, ih hrest]

theorem findNearestNeighbor_range (sqrt : α → α) (dblMax : α) (data : DataMatrix α) (m : ℕ)
    (hm : ∀ p ∈ data, p.length = m) (point : DataPoint α) (excl : ℕ) :
    findNearestNeighbor sqrt dblMax data point excl ∅
      = findNearestNeighbor sqrt dblMax data point excl (Finset.range m) := by
  unfold findNearestNeighbor
  apply findNearestLoop_congr
  intro p hp
  exact (calculateDistance_range sqrt point p m (by rw [hm p hp]; exact min_le_right _ _)).symm

theorem loocvLoop_congr (sqrt : α → α) (dblMax : α) (data : DataMatrix α)
    (labels : LabelVector) (S T : FeatureSet)
    (h : ∀ point excl, findNearestNeighbor sqrt dblMax data point excl S
      = findNearestNeighbor sqrt dblMax data point excl T)
    (is : List ℕ) (c : ℕ) :
    loocvLoop sqrt dblMax data labels S is c = loocvLoop sqrt dblMax data labels T is c := by
  induction is generalizing c with
  | nil => rfl
  | cons i rest ih => simp only [loocvLoop, h, ih]

end LoocvLemmas

section ForwardLemmas
variable {α : Type} [LinearOrderedField α]

theorem forwardCandidates_isSome (sqrt : α → α) (dblMax : α) (data : DataMatrix α)
    (labels : LabelVector) (currentSet : FeatureSet) (fs : List FeatureIndex) :
    ∃ results, forwardCandidates sqrt dblMax data labels currentSet fs = some results := by
  induction fs with
  | nil => exact ⟨[], rfl⟩
  | cons f rest ih =>
    obtain ⟨results, hres⟩ := ih
    by_cases hf : f ∈ currentSet
    · exact ⟨results, by rw [forwardCandidates, if_pos hf, hres]⟩
    · refine ⟨⟨f, loocvAccuracy sqrt dblMax data labels (insert f currentSet),
        insert f currentSet⟩ :: results, ?_⟩
      rw [forwardCandidates, if_neg hf]
      simp only [loocv_eq_accuracy, hres]

theorem forwardLevel_cases (arrival : List (CandidateResult α) → List (CandidateResult α))
    (sqrt : α → α) (dblMax : α) (data : DataMatrix α) (labels : LabelVector)
    (numFeatures : ℕ) (st : ForwardState α) (hcard : st.currentSet.card ≤ numFeatures) :
    forwardLevel arrival sqrt dblMax data labels numFeatures st = some LevelStep.exit ∨
    ∃ st', forwardLevel arrival sqrt dblMax data labels numFeatures st
        = some (LevelStep.next st') ∧
      st'.currentSet.card ≤ st.currentSet.card + 1 ∧
      ∃ entry, st'.result.allResults = st.result.allResults ++ [entry] := by
  obtain ⟨pushed, hp⟩ := forwardCandidates_isSome sqrt dblMax data labels st.currentSet
    (List.range numFeatures)
  unfold forwardLevel
  rw [if_neg (not_lt.mpr hcard)]
  simp only [hp]
  generalize (if numFeatures > 8 then arrival pushed else pushed) = candidateResults
  generalize candidateResults.foldl forwardBestStep (0, 0, false) = best
  by_cases hfound : (!best.2.2) = true
  · left
    rw [if_pos hfound]
  · right
    rw [if_neg hfound]
    by_cases hbetter : best.2.1 > st.result.bestAccuracy
    · rw [if_pos hbetter]
      exact ⟨_, rfl, Finset.card_insert_le _ _, _, rfl⟩
    · rw [if_neg hbetter]
      exact ⟨_, rfl, Finset.card_insert_le _ _, _, rfl⟩

theorem forwardLevel_step (arrival : List (CandidateResult α) → List (CandidateResult α))
    (sqrt : α → α) (dblMax : α) (data : DataMatrix α) (labels : LabelVector)
    (numFeatures : ℕ) (st : ForwardState α) (step : LevelStep (ForwardState α))
    (hstep : forwardLevel arrival sqrt dblMax data labels numFeatures st = some step) :
    step = LevelStep.exit ∨
      ∃ st' entry, step = LevelStep.next st' ∧
        st'.result.allResults = st.result.allResults ++ [entry] := by
  by_cases hcard : st.currentSet.card ≤ numFeatures
  · rcases forwardLevel_cases arrival sqrt dblMax data labels numFeatures st hcard with
      hexit | ⟨st', hnext, _, entry, hentry⟩
    · rw [hexit] at hstep
      exact Or.inl (Option.some.inj hstep).symm
    · rw [hnext] at hstep
      exact Or.inr ⟨st', entry, (Option.some.inj hstep).symm, hentry⟩
  · rw [forwardLevel, if_pos (not_le.mp hcard)] at hstep
    cases hstep

theorem forwardLoop_history (arrival : List (CandidateResult α) → List (CandidateResult α))
    (sqrt : α → α) (dblMax : α) (data : DataMatrix α) (labels : LabelVector)
    (numFeatures : ℕ) (n : ℕ) (st : ForwardState α)
    (hcard : st.currentSet.card + n ≤ numFeatures) :
    ∃ st', forwardLoop arrival sqrt dblMax data labels numFeatures n st = some st' ∧
      (∃ tail, st'.result.allResults = st.result.allResults ++ tail ∧
        tail.length = forwardLevelsRun arrival sqrt dblMax data labels numFeatures n st) := by
  induction n generalizing st with
  | zero => exact ⟨st, rfl, [], by simp, rfl⟩
  | succ n ih =>
    rcases forwardLevel_cases arrival sqrt dblMax data labels numFeatures st (by omega) with
      hexit | ⟨st₁, hnext, hcard₁, entry, hentry⟩
    · refine ⟨st, ?_, [], by simp, ?_⟩
      · rw [forwardLoop, hexit]
      · rw [forwardLevelsRun, hexit]
        rfl
    · obtain ⟨st', hloop, tail, htail, hlen⟩ := ih st₁ (by omega)
      refine ⟨st', ?_, entry :: tail, ?_, ?_⟩
      · rw [forwardLoop, hnext]
        exact hloop
      · rw [htail, hentry, List.append_assoc]
        rfl
      · rw [forwardLevelsRun, hnext, List.length_cons, hlen]

end ForwardLemmas

section BestCandidateLemmas
variable {α : Type} [LinearOrderedField α]

theorem forwardCandidates_eq (sqrt : α → α) (dblMax : α) (data : DataMatrix α)
    (labels : LabelVector) (currentSet : FeatureSet) (fs : List FeatureIndex) :
    forwardCandidates sqrt dblMax data labels currentSet fs
      = some ((fs.filter (fun f => decide (f ∉ currentSet))).map
          (forwardCandidate sqrt dblMax data labels currentSet)) := by
  induction fs with
  | nil => rfl
  | cons f rest ih =>
    by_cases hf : f ∈ currentSet
    · rw [forwardCandidates, if_pos hf, ih, List.filter_cons_of_neg (by simpa using hf)]
    · rw [forwardCandidates, if_neg hf, List.filter_cons_of_pos (by simpa using hf)]
      simp only [loocv_eq_accuracy, ih, List.map_cons, forwardCandidate]

theorem forwardBest_found (l : List (CandidateResult α)) (bf : FeatureIndex) (ba : α) :
    (l.foldl forwardBestStep (bf, ba, true) = (bf, ba, true) ∧
      ∀ x ∈ l, x.accuracy ≤ ba) ∨
    ∃ pre c post, l = pre ++ c :: post ∧
      l.foldl forwardBestStep (bf, ba, true) = (c.feature, c.accuracy, true) ∧
      ba < c.accuracy ∧ (∀ x ∈ pre, x.accuracy < c.accuracy) ∧
      ∀ x ∈ post, x.accuracy ≤ c.accuracy := by
  induction l generalizing bf ba with
  | nil => left; simp
  | cons x xs ih =>
    by_cases hx : x.accuracy > ba
    · have hstep : forwardBestStep (bf, ba, true) x = (x.feature, x.accuracy, true) := by
        simp [forwardBestStep, hx]
      rw [List.foldl_cons, hstep]
      right
      rcases ih x.feature x.accuracy with ⟨hfold, hall⟩ | ⟨pre, c, post, hl, hfold, hlt, hpre, hpost⟩
      · exact ⟨[], x, xs, rfl, hfold, hx, by simp, hall⟩
      · refine ⟨x :: pre, c, post, by rw [hl]; rfl, hfold, lt_trans hx hlt, ?_, hpost⟩
        intro y hy
        rcases List.mem_cons.mp hy with rfl | hy
        · exact hlt
        · exact hpre y hy
    · have hstep : forwardBestStep (bf, ba, true) x = (bf, ba, true) := by
        simp [forwardBestStep, hx]
      rw [List.foldl_cons, hstep]
      rcases ih bf ba with ⟨hfold, hall⟩ | ⟨pre, c, post, hl, hfold, hlt, hpre, hpost⟩
      · left
        refine ⟨hfold, ?_⟩
        intro y hy
        rcases List.mem_cons.mp hy with rfl | hy
        · exact not_lt.mp hx
        · exact hall y hy
      · right
        refine ⟨x :: pre, c, post, by rw [hl]; rfl, hfold, hlt, ?_, hpost⟩
        intro y hy
        rcases List.mem_cons.mp hy with rfl | hy
        · exact lt_of_le_of_lt (not_lt.mp hx) hlt
        · exact hpre y hy

theorem forwardBest_nil :
    ([] : List (CandidateResult α)).foldl forwardBestStep (0, 0, false) = (0, 0, false) := rfl

theorem forwardBest_first_max (l : List (CandidateResult α)) (hl : l ≠ []) :
    ∃ pre c post, l = pre ++ c :: post ∧
      l.foldl forwardBestStep (0, 0, false) = (c.feature, c.accuracy, true) ∧
      (∀ x ∈ pre, x.accuracy < c.accuracy) ∧ ∀ x ∈ post, x.accuracy ≤ c.accuracy := by
  obtain ⟨x, xs, rfl⟩ := List.exists_cons_of_ne_nil hl
  have hstep : forwardBestStep ((0 : FeatureIndex), (0 : α), false) x
      = (x.feature, x.accuracy, true) := by
    simp [forwardBestStep]
  rw [List.foldl_cons, hstep]
  rcases forwardBest_found xs x.feature x.accuracy with
    ⟨hfold, hall⟩ | ⟨pre, c, post, hl, hfold, hlt, hpre, hpost⟩
  · exact ⟨[], x, xs, rfl, hfold, by simp, hall⟩
  · refine ⟨x :: pre, c, post, by rw [hl]; rfl, hfold, ?_, hpost⟩
    intro y hy
    rcases List.mem_cons.mp hy with rfl | hy
    · exact hlt
    · exact hpre y hy

end BestCandidateLemmas

section ForwardLevelLemmas
variable {α : Type} [LinearOrderedField α]

theorem forwardLevel_eq (arrival : List (CandidateResult α) → List (CandidateResult α))
    (sqrt : α → α) (dblMax : α) (data : DataMatrix α) (labels : LabelVector)
    (numFeatures : ℕ) (st : ForwardState α) (hcard : st.currentSet.card ≤ numFeatures) :
    (forwardArrived arrival sqrt dblMax data labels numFeatures st.currentSet = [] ∧
      forwardLevel arrival sqrt dblMax data labels numFeatures st = some LevelStep.exit) ∨
    ∃ pre c post,
      forwardArrived arrival sqrt dblMax data labels numFeatures st.currentSet
        = pre ++ c :: post ∧
      (∀ x ∈ pre, x.accuracy < c.accuracy) ∧ (∀ x ∈ post, x.accuracy ≤ c.accuracy) ∧
      forwardLevel arrival sqrt dblMax data labels numFeatures st
        = some (LevelStep.next (forwardAdvance st c)) := by
  unfold forwardLevel forwardArrived
  rw [if_neg (not_lt.mpr hcard), forwardCandidates_eq]
  simp only
  generalize (if numFeatures > 8 then
      arrival (((List.range numFeatures).filter (fun f => decide (f ∉ st.currentSet))).map
        (forwardCandidate sqrt dblMax data labels st.currentSet))
    else ((List.range numFeatures).filter (fun f => decide (f ∉ st.currentSet))).map
        (forwardCandidate sqrt dblMax data labels st.currentSet)) = cands
  by_cases hc : cands = []
  · left
    subst hc
    exact ⟨rfl, by simp⟩
  · right
    obtain ⟨pre, c, post, hl, hfold, hpre, hpost⟩ := forwardBest_first_max cands hc
    refine ⟨pre, c, post, hl, hpre, hpost, ?_⟩
    rw [hfold]
    by_cases hbetter : c.accuracy > st.result.bestAccuracy
    · simp [forwardAdvance, recordLevel, hbetter]
    · simp [forwardAdvance, recordLevel, hbetter]

end ForwardLevelLemmas

section ConstantLabels
variable {α : Type} [LinearOrderedField α]

theorem loocvAccuracy_const (sqrt : α → α) (dblMax : α) (data : DataMatrix α)
    (labels : LabelVector) (S : FeatureSet) (l : ℤ) (hne : data ≠ [])
    (hlen : data.length = labels.length) (hconst : ∀ x ∈ labels, x = l) :
    loocvAccuracy sqrt dblMax data labels S = 1 := by
  have hl : labels ≠ [] := fun h => hne (List.length_eq_zero.mp (by rw [hlen, h]; rfl))
  have hget : ∀ i, i < labels.length → labels.getD i 0 = l := fun i hi => by
    rw [List.getD_eq_getElem _ _ hi]
    exact hconst _ (List.getElem_mem _)
  have hall : ∀ i ∈ Finset.range data.length,
      correctAt sqrt dblMax data labels S i = true := by
    intro i hi
    have hi' : i < labels.length := hlen ▸ Finset.mem_range.mp hi
    have hr : findNearestNeighbor sqrt dblMax data (data.getD i []) i S < labels.length :=
      hlen ▸ findNearestNeighbor_lt sqrt dblMax data _ i S hne
    unfold correctAt
    rw [hget i hi', hget _ hr]
    exact decide_eq_true rfl
  have hpos : (data.length : α) ≠ 0 := by
    exact_mod_cast (List.length_pos.mpr hne).ne'
  rw [loocvAccuracy, if_neg (by simp [hne, hl, hlen]), correctCount,
    Finset.filter_true_of_mem hall, Finset.card_range, div_self hpos]

end ConstantLabels

section SequentialOrder
variable {α : Type} [LinearOrderedField α]

theorem mem_prefix_of_sorted (l l₁ l₂ : List ℕ) (f g : ℕ) (h : l = l₁ ++ f :: l₂)
    (hs : l.Pairwise (· < ·)) (hg : g ∈ l) (hlt : g < f) : g ∈ l₁ := by
  subst h
  rcases List.mem_append.mp hg with hg | hg
  · exact hg
  · rcases List.mem_cons.mp hg with rfl | hg
    · exact absurd hlt (lt_irrefl _)
    · have hfg : f < g := by
        have := (List.pairwise_append.mp hs).2.1
        exact List.rel_of_pairwise_cons this hg
      exact absurd hlt (not_lt.mpr hfg.le)

theorem forwardArrived_sequential
    (arrival : List (CandidateResult α) → List (CandidateResult α))
    (sqrt : α → α) (dblMax : α) (data : DataMatrix α) (labels : LabelVector)
    (numFeatures : ℕ) (currentSet : FeatureSet)
    (hseq : numFeatures ≤ 8 ∨ ∀ l, arrival l = l) :
    forwardArrived arrival sqrt dblMax data labels numFeatures currentSet
      = ((List.range numFeatures).filter (fun f => decide (f ∉ currentSet))).map
          (forwardCandidate sqrt dblMax data labels currentSet) := by
  unfold forwardArrived
  rcases hseq with h | h
  · simp only [if_neg (not_lt.mpr h)]
  · simp only [h, ite_self]

theorem forwardLevel_sequential
    (arrival : List (CandidateResult α) → List (CandidateResult α))
    (sqrt : α → α) (dblMax : α) (data : DataMatrix α) (labels : LabelVector)
    (numFeatures : ℕ) (st : ForwardState α) (hcard : st.currentSet.card ≤ numFeatures)
    (hseq : numFeatures ≤ 8 ∨ ∀ l, arrival l = l) :
    ((∀ f, f < numFeatures → f ∈ st.currentSet) ∧
      forwardLevel arrival sqrt dblMax data labels numFeatures st = some LevelStep.exit) ∨
    ∃ f, f < numFeatures ∧ f ∉ st.currentSet ∧
      forwardLevel arrival sqrt dblMax data labels numFeatures st
        = some (LevelStep.next
            (forwardAdvance st (forwardCandidate sqrt dblMax data labels st.currentSet f))) ∧
      (∀ g, g < numFeatures → g ∉ st.currentSet →
        loocvAccuracy sqrt dblMax data labels (insert g st.currentSet)
          ≤ loocvAccuracy sqrt dblMax data labels (insert f st.currentSet)) ∧
      ∀ g, g < f → g ∉ st.currentSet →
        loocvAccuracy sqrt dblMax data labels (insert g st.currentSet)
          < loocvAccuracy sqrt dblMax data labels (insert f st.currentSet) := by
  have hmem : ∀ g, g ∈ (List.range numFeatures).filter (fun f => decide (f ∉ st.currentSet))
      ↔ g < numFeatures ∧ g ∉ st.currentSet := by
    intro g
    simp [List.mem_filter]
  have hsorted : ((List.range numFeatures).filter
      (fun f => decide (f ∉ st.currentSet))).Pairwise (· < ·) :=
    (List.pairwise_lt_range numFeatures).filter _
  rcases forwardLevel_eq arrival sqrt dblMax data labels numFeatures st hcard with
    ⟨hnil, hexit⟩ | ⟨pre, c, post, hsplit, hpre, hpost, hnext⟩
  · left
    refine ⟨fun f hf => ?_, hexit⟩
    rw [forwardArrived_sequential arrival sqrt dblMax data labels numFeatures st.currentSet hseq,
      List.map_eq_nil_iff] at hnil
    by_contra hfc
    have : f ∈ (List.range numFeatures).filter (fun f => decide (f ∉ st.currentSet)) :=
      (hmem f).mpr ⟨hf, hfc⟩
    rw [hnil] at this
    exact List.not_mem_nil _ this
  · right
    rw [forwardArrived_sequential arrival sqrt dblMax data labels numFeatures st.currentSet hseq]
      at hsplit
    obtain ⟨l₁, l₂, hl, hl₁, hl₂⟩ := List.map_eq_append_iff.mp hsplit
    obtain ⟨f, l₂', hl₂', hf, hpost'⟩ := List.map_eq_cons_iff.mp hl₂
    subst hl₂'
    have hfmem := (hmem f).mp (by rw [hl]; simp)
    refine ⟨f, hfmem.1, hfmem.2, by rw [hf]; exact hnext, ?_, ?_⟩
    · intro g hg hgc
      have hgm : g ∈ l₁ ++ f :: l₂' := hl ▸ (hmem g).mpr ⟨hg, hgc⟩
      rcases List.mem_append.mp hgm with hg₁ | hg₂
      · have : forwardCandidate sqrt dblMax data labels st.currentSet g ∈ pre :=
          hl₁ ▸ List.mem_map_of_mem _ hg₁
        have := hpre _ this
        rw [← hf] at this
        exact le_of_lt this
      · rcases List.mem_cons.mp hg₂ with rfl | hg₂
        · exact le_refl _
        · have : forwardCandidate sqrt dblMax data labels st.currentSet g ∈ post :=
            hpost' ▸ List.mem_map_of_mem _ hg₂
          have := hpost _ this
          rw [← hf] at this
          exact this
    · intro g hgf hgc
      have hg₁ : g ∈ l₁ :=
        mem_prefix_of_sorted _ l₁ l₂' f g hl hsorted
          ((hmem g).mpr ⟨lt_trans hgf hfmem.1, hgc⟩) hgf
      have : forwardCandidate sqrt dblMax data labels st.currentSet g ∈ pre :=
        hl₁ ▸ List.mem_map_of_mem _ hg₁
      have := hpre _ this
      rw [← hf] at this
      exact this

end SequentialOrder

section BackwardLemmas
variable {α : Type} [LinearOrderedField α]

theorem backwardCandidates_eq (sqrt : α → α) (dblMax : α) (data : DataMatrix α)
    (labels : LabelVector) (currentSet : FeatureSet) (fs : List FeatureIndex) :
    backwardCandidates sqrt dblMax data labels currentSet fs
      = some ((fs.filter (fun f => decide (currentSet.erase f ≠ ∅))).map
          (backwardCandidate sqrt dblMax data labels currentSet)) := by
  induction fs with
  | nil => rfl
  | cons f rest ih =>
    by_cases hf : currentSet.erase f = ∅
    · rw [backwardCandidates]
      simp only [if_pos hf]
      rw [ih, List.filter_cons_of_neg (by simpa using hf)]
    · rw [backwardCandidates]
      simp only [if_neg hf]
      rw [List.filter_cons_of_pos (by simpa using hf)]
      simp only [loocv_eq_accuracy, ih, List.map_cons, backwardCandidate]

theorem backwardBest_found (l : List (CandidateResult α)) (bf : FeatureIndex) (ba : α) :
    (l.foldl backwardBestStep (bf, ba) = (bf, ba) ∧ ∀ x ∈ l, x.accuracy ≤ ba) ∨
    ∃ pre c post, l = pre ++ c :: post ∧
      l.foldl backwardBestStep (bf, ba) = (c.feature, c.accuracy) ∧
      ba < c.accuracy ∧ (∀ x ∈ pre, x.accuracy < c.accuracy) ∧
      ∀ x ∈ post, x.accuracy ≤ c.accuracy := by
  induction l generalizing bf ba with
  | nil => left; simp
  | cons x xs ih =>
    by_cases hx : x.accuracy > ba
    · have hstep : backwardBestStep (bf, ba) x = (x.feature, x.accuracy) := by
        simp [backwardBestStep, hx]
      rw [List.foldl_cons, hstep]
      right
      rcases ih x.feature x.accuracy with
        ⟨hfold, hall⟩ | ⟨pre, c, post, hl, hfold, hlt, hpre, hpost⟩
      · exact ⟨[], x, xs, rfl, hfold, hx, by simp, hall⟩
      · refine ⟨x :: pre, c, post, by rw [hl]; rfl, hfold, lt_trans hx hlt, ?_, hpost⟩
        intro y hy
        rcases List.mem_cons.mp hy with rfl | hy
        · exact hlt
        · exact hpre y hy
    · have hstep : backwardBestStep (bf, ba) x = (bf, ba) := by
        simp [backwardBestStep, hx]
      rw [List.foldl_cons, hstep]
      rcases ih bf ba with ⟨hfold, hall⟩ | ⟨pre, c, post, hl, hfold, hlt, hpre, hpost⟩
      · left
        refine ⟨hfold, ?_⟩
        intro y hy
        rcases List.mem_cons.mp hy with rfl | hy
        · exact not_lt.mp hx
        · exact hall y hy
      · right
        refine ⟨x :: pre, c, post, by rw [hl]; rfl, hfold, hlt, ?_, hpost⟩
        intro y hy
        rcases List.mem_cons.mp hy with rfl | hy
        · exact lt_of_le_of_lt (not_lt.mp hx) hlt
        · exact hpre y hy

theorem backwardBest_first_max (first : CandidateResult α) (others : List (CandidateResult α)) :
    ∃ pre c post, first :: others = pre ++ c :: post ∧
      others.foldl backwardBestStep (first.feature, first.accuracy)
        = (c.feature, c.accuracy) ∧
      (∀ x ∈ pre, x.accuracy < c.accuracy) ∧ ∀ x ∈ post, x.accuracy ≤ c.accuracy := by
  rcases backwardBest_found others first.feature first.accuracy with
    ⟨hfold, hall⟩ | ⟨pre, c, post, hl, hfold, hlt, hpre, hpost⟩
  · exact ⟨[], first, others, rfl, hfold, by simp, hall⟩
  · refine ⟨first :: pre, c, post, by rw [hl]; rfl, hfold, ?_, hpost⟩
    intro y hy
    rcases List.mem_cons.mp hy with rfl | hy
    · exact hlt
    · exact hpre y hy

theorem backwardLevel_eq (arrival : List (CandidateResult α) → List (CandidateResult α))
    (sqrt : α → α) (dblMax : α) (data : DataMatrix α) (labels : LabelVector)
    (st : BackwardState α) :
    (backwardArrived arrival sqrt dblMax data labels st = [] ∧
      backwardLevel arrival sqrt dblMax data labels st = some LevelStep.exit) ∨
    ∃ pre c post,
      backwardArrived arrival sqrt dblMax data labels st = pre ++ c :: post ∧
      (∀ x ∈ pre, x.accuracy < c.accuracy) ∧ (∀ x ∈ post, x.accuracy ≤ c.accuracy) ∧
      backwardLevel arrival sqrt dblMax data labels st
        = some (LevelStep.next (backwardAdvance st c)) := by
  unfold backwardLevel backwardArrived
  rw [backwardCandidates_eq]
  simp only
  generalize (if st.allFeatures.length > 8 then
      arrival ((st.allFeatures.filter (fun f => decide (st.currentSet.erase f ≠ ∅))).map
        (backwardCandidate sqrt dblMax data labels st.currentSet))
    else (st.allFeatures.filter (fun f => decide (st.currentSet.erase f ≠ ∅))).map
        (backwardCandidate sqrt dblMax data labels st.currentSet)) = cands
  cases cands with
  | nil => exact Or.inl ⟨rfl, rfl⟩
  | cons first others =>
    right
    obtain ⟨pre, c, post, hl, hfold, hpre, hpost⟩ := backwardBest_first_max first others
    refine ⟨pre, c, post, hl, hpre, hpost, ?_⟩
    simp only [hfold]
    by_cases hbetter : c.accuracy > st.result.bestAccuracy
    · simp [backwardAdvance, recordLevel, hbetter]
    · simp [backwardAdvance, recordLevel, hbetter]

end BackwardLemmas

section BestTracking
variable {α : Type} [LinearOrderedField α]

theorem bestIsFirstMax_init (set : FeatureSet) (accuracy : α) :
    BestIsFirstMax (⟨set, accuracy, [(set, accuracy)]⟩ : SearchResult α) :=
  ⟨[], [], rfl, by simp, by simp⟩

theorem bestIsFirstMax_le (result : SearchResult α) (h : BestIsFirstMax result) :
    ∀ e ∈ result.allResults, e.2 ≤ result.bestAccuracy := by
  obtain ⟨pre, post, hsplit, hpre, hpost⟩ := h
  intro e he
  rw [hsplit] at he
  rcases List.mem_append.mp he with he | he
  · exact le_of_lt (hpre e he)
  · rcases List.mem_cons.mp he with rfl | he
    · exact le_refl _
    · exact hpost e he

theorem recordLevel_bestIsFirstMax (result : SearchResult α) (set : FeatureSet) (accuracy : α)
    (h : BestIsFirstMax result) : BestIsFirstMax (recordLevel result set accuracy) := by
  by_cases hbetter : accuracy > result.bestAccuracy
  · refine ⟨result.allResults, [], ?_, ?_, by simp⟩
    · simp [recordLevel, hbetter]
    · intro e he
      simp only [recordLevel, if_pos hbetter]
      exact lt_of_le_of_lt (bestIsFirstMax_le result h e he) hbetter
  · obtain ⟨pre, post, hsplit, hpre, hpost⟩ := h
    refine ⟨pre, post ++ [(set, accuracy)], ?_, ?_, ?_⟩
    · simp [recordLevel, hbetter, hsplit]
    · simpa [recordLevel, hbetter] using hpre
    · intro e he
      simp only [recordLevel, if_neg hbetter]
      rcases List.mem_append.mp he with he | he
      · exact hpost e he
      · rw [List.mem_singleton.mp he]
        exact not_lt.mp hbetter

theorem bestIsFirstMax_index (result : SearchResult α) (h : BestIsFirstMax result) :
    ∃ k, result.allResults[k]? = some (result.bestFeatureSet, result.bestAccuracy) ∧
      ∀ (j : ℕ) (e : FeatureSet × α), j < k → result.allResults[j]? = some e →
        e.2 < result.bestAccuracy := by
  obtain ⟨pre, post, hsplit, hpre, _⟩ := h
  refine ⟨pre.length, ?_, ?_⟩
  · rw [hsplit, List.getElem?_append_right (le_refl _)]
    simp
  · intro j e hj he
    rw [hsplit, List.getElem?_append_left hj] at he
    exact hpre e (List.getElem?_mem he)

theorem forwardLoop_bestIsFirstMax
    (arrival : List (CandidateResult α) → List (CandidateResult α))
    (sqrt : α → α) (dblMax : α) (data : DataMatrix α) (labels : LabelVector)
    (numFeatures : ℕ) (n : ℕ) (st st' : ForwardState α)
    (hloop : forwardLoop arrival sqrt dblMax data labels numFeatures n st = some st')
    (h : BestIsFirstMax st.result) : BestIsFirstMax st'.result := by
  induction n generalizing st with
  | zero =>
    rw [forwardLoop] at hloop
    rw [← Option.some.inj hloop]
    exact h
  | succ n ih =>
    rw [forwardLoop] at hloop
    by_cases hcard : st.currentSet.card ≤ numFeatures
    · rcases forwardLevel_eq arrival sqrt dblMax data labels numFeatures st hcard with
        ⟨_, hexit⟩ | ⟨pre, c, post, _, _, _, hnext⟩
      · rw [hexit] at hloop
        rw [← Option.some.inj hloop]
        exact h
      · rw [hnext] at hloop
        exact ih _ hloop (recordLevel_bestIsFirstMax _ _ _ h)
    · rw [forwardLevel, if_pos (not_le.mp hcard)] at hloop
      cases hloop

theorem backwardFilter_ne_nil (l : List FeatureIndex) (x : FeatureIndex) (hnd : l.Nodup)
    (hlen : l.length > 1) : l.filter (fun f => decide (f ≠ x)) ≠ [] := by
  match l, hnd, hlen with
  | a :: b :: rest, hnd, _ =>
    have hab : a ≠ b := by
      intro h
      rw [h] at hnd
      exact (List.nodup_cons.mp hnd).1 (List.mem_cons_self _ _)
    by_cases ha : a = x
    · have hb : b ≠ x := fun h => hab (ha.trans h.symm)
      intro hnil
      have : b ∈ (a :: b :: rest).filter (fun f => decide (f ≠ x)) :=
        List.mem_filter.mpr ⟨by simp, by simpa using hb⟩
      rw [hnil] at this
      exact List.not_mem_nil _ this
    · intro hnil
      have : a ∈ (a :: b :: rest).filter (fun f => decide (f ≠ x)) :=
        List.mem_filter.mpr ⟨by simp, by simpa using ha⟩
      rw [hnil] at this
      exact List.not_mem_nil _ this

theorem backwardLoop_inv (arrival : List (CandidateResult α) → List (CandidateResult α))
    (sqrt : α → α) (dblMax : α) (data : DataMatrix α) (labels : LabelVector)
    (n : ℕ) (st : BackwardState α) (hnd : st.allFeatures.Nodup)
    (hbest : BestIsFirstMax st.result) :
    ∃ st', backwardLoop arrival sqrt dblMax data labels n st = some st' ∧
      st'.allFeatures.Nodup ∧ (st.allFeatures ≠ [] → st'.allFeatures ≠ []) ∧
      BestIsFirstMax st'.result ∧
      ∃ tail, st'.result.allResults = st.result.allResults ++ tail := by
  induction n generalizing st with
  | zero => exact ⟨st, rfl, hnd, id, hbest, [], by simp⟩
  | succ n ih =>
    rw [backwardLoop]
    by_cases hlen : st.allFeatures.length > 1
    · rw [if_pos hlen]
      rcases backwardLevel_eq arrival sqrt dblMax data labels st with
        ⟨_, hexit⟩ | ⟨pre, c, post, _, _, _, hnext⟩
      · rw [hexit]
        exact ⟨st, rfl, hnd, id, hbest, [], by simp⟩
      · rw [hnext]
        obtain ⟨st', hloop, hnd', hne', hbest', tail, htail⟩ :=
          ih (backwardAdvance st c) (hnd.filter _)
            (recordLevel_bestIsFirstMax _ _ _ hbest)
        refine ⟨st', hloop, hnd', fun _ => hne' ?_, hbest',
          (st.currentSet.erase c.feature, c.accuracy) :: tail, ?_⟩
        · exact backwardFilter_ne_nil st.allFeatures c.feature hnd hlen
        · rw [htail]
          simp [backwardAdvance, recordLevel]
    · rw [if_neg hlen]
      exact ⟨st, rfl, hnd, id, hbest, [], by simp⟩

end BestTracking

section BackwardTop
variable {α : Type} [LinearOrderedField α]

theorem fullSet_eq_range (n : ℕ) :
    (List.range n).foldl (fun (set : FeatureSet) i => insert i set) ∅ = Finset.range n := by
  induction n with
  | zero => rfl
  | succ n ih =>
    rw [List.range_succ, List.foldl_append, ih, List.foldl_cons, List.foldl_nil,
      Finset.range_succ]

theorem toList_range (n : ℕ) : FeatureSet.toList (Finset.range n) = List.range n :=
  Finset.sort_range n

theorem backwardFinal_spec (sqrt : α → α) (dblMax : α) (data : DataMatrix α)
    (labels : LabelVector) (st : BackwardState α) (hbest : BestIsFirstMax st.result) :
    ∃ result, backwardFinal sqrt dblMax data labels st = some result ∧
      BestIsFirstMax result ∧
      (st.allFeatures ≠ [] →
        result = recordLevel st.result ∅ (loocvAccuracy sqrt dblMax data labels ∅)) ∧
      (st.allFeatures = [] → result = st.result) := by
  unfold backwardFinal
  by_cases hne : st.allFeatures ≠ []
  · rw [if_pos hne]
    simp only [loocv_eq_accuracy]
    refine ⟨recordLevel st.result ∅ (loocvAccuracy sqrt dblMax data labels ∅), ?_,
      recordLevel_bestIsFirstMax _ _ _ hbest, fun _ => rfl, fun h => absurd h hne⟩
    by_cases hbetter : loocvAccuracy sqrt dblMax data labels ∅ > st.result.bestAccuracy
    · simp [recordLevel, hbetter]
    · simp [recordLevel, hbetter]
  · rw [if_neg hne]
    exact ⟨st.result, rfl, hbest, fun h => absurd h hne, fun _ => rfl⟩

theorem backwardElimination_run
    (arrival : List (CandidateResult α) → List (CandidateResult α))
    (sqrt : α → α) (dblMax : α) (data : DataMatrix α) (labels : LabelVector)
    (verbose : Bool) :
    ∃ st result,
      backwardLoop arrival sqrt dblMax data labels (numFeaturesOf data)
        ⟨Finset.range (numFeaturesOf data), List.range (numFeaturesOf data),
          ⟨Finset.range (numFeaturesOf data),
            loocvAccuracy sqrt dblMax data labels (Finset.range (numFeaturesOf data)),
            [(Finset.range (numFeaturesOf data),
              loocvAccuracy sqrt dblMax data labels (Finset.range (numFeaturesOf data)))]⟩⟩
        = some st ∧
      backwardFinal sqrt dblMax data labels st = some result ∧
      backwardElimination arrival sqrt dblMax data labels verbose = some result ∧
      BestIsFirstMax result ∧
      (numFeaturesOf data ≠ 0 → st.allFeatures ≠ []) ∧
      (∃ tail, st.result.allResults
        = (Finset.range (numFeaturesOf data),
            loocvAccuracy sqrt dblMax data labels (Finset.range (numFeaturesOf data)))
          :: tail) ∧
      (st.allFeatures ≠ [] →
        result = recordLevel st.result ∅ (loocvAccuracy sqrt dblMax data labels ∅)) ∧
      (st.allFeatures = [] → result = st.result) := by
  obtain ⟨st, hloop, _, hne, hbest, tail, htail⟩ :=
    backwardLoop_inv arrival sqrt dblMax data labels (numFeaturesOf data)
      ⟨Finset.range (numFeaturesOf data), List.range (numFeaturesOf data),
        ⟨Finset.range (numFeaturesOf data),
          loocvAccuracy sqrt dblMax data labels (Finset.range (numFeaturesOf data)),
          [(Finset.range (numFeaturesOf data),
            loocvAccuracy sqrt dblMax data labels (Finset.range (numFeaturesOf data)))]⟩⟩
      (List.nodup_range _) (bestIsFirstMax_init _ _)
  obtain ⟨result, hfinal, hbest', hrec, hsame⟩ :=
    backwardFinal_spec sqrt dblMax data labels st hbest
  refine ⟨st, result, hloop, hfinal, ?_, hbest', ?_, ⟨tail, by rw [htail]; rfl⟩, hrec, hsame⟩
  · unfold backwardElimination
    simp only [fullSet_eq_range, loocv_eq_accuracy, toList_range, hloop, hfinal]
  · intro hnf
    apply hne
    simp only [ne_eq, List.range_eq_nil]
    exact hnf

end BackwardTop

section BackwardSequential
variable {α : Type} [LinearOrderedField α]

theorem backwardArrived_sequential
    (arrival : List (CandidateResult α) → List (CandidateResult α))
    (sqrt : α → α) (dblMax : α) (data : DataMatrix α) (labels : LabelVector)
    (st : BackwardState α) (hseq : st.allFeatures.length ≤ 8 ∨ ∀ l, arrival l = l) :
    backwardArrived arrival sqrt dblMax data labels st
      = (st.allFeatures.filter (fun f => decide (st.currentSet.erase f ≠ ∅))).map
          (backwardCandidate sqrt dblMax data labels st.currentSet) := by
  unfold backwardArrived
  rcases hseq with h | h
  · simp only [if_neg (not_lt.mpr h)]
  · simp only [h, ite_self]

theorem backwardLevel_sequential
    (arrival : List (CandidateResult α) → List (CandidateResult α))
    (sqrt : α → α) (dblMax : α) (data : DataMatrix α) (labels : LabelVector)
    (st : BackwardState α) (hseq : st.allFeatures.length ≤ 8 ∨ ∀ l, arrival l = l) :
    ((∀ f ∈ st.allFeatures, st.currentSet.erase f = ∅) ∧
      backwardLevel arrival sqrt dblMax data labels st = some LevelStep.exit) ∨
    ∃ pre f post, st.allFeatures = pre ++ f :: post ∧ st.currentSet.erase f ≠ ∅ ∧
      backwardLevel arrival sqrt dblMax data labels st
        = some (LevelStep.next
            (backwardAdvance st (backwardCandidate sqrt dblMax data labels st.currentSet f))) ∧
      (∀ g ∈ pre, st.currentSet.erase g ≠ ∅ →
        loocvAccuracy sqrt dblMax data labels (st.currentSet.erase g)
          < loocvAccuracy sqrt dblMax data labels (st.currentSet.erase f)) ∧
      ∀ g ∈ post, st.currentSet.erase g ≠ ∅ →
        loocvAccuracy sqrt dblMax data labels (st.currentSet.erase g)
          ≤ loocvAccuracy sqrt dblMax data labels (st.currentSet.erase f) := by
  rcases backwardLevel_eq arrival sqrt dblMax data labels st with
    ⟨hnil, hexit⟩ | ⟨pre, c, post, hsplit, hpre, hpost, hnext⟩
  · left
    refine ⟨fun f hf => ?_, hexit⟩
    rw [backwardArrived_sequential arrival sqrt dblMax data labels st hseq,
      List.map_eq_nil_iff] at hnil
    by_contra hfc
    have : f ∈ st.allFeatures.filter (fun f => decide (st.currentSet.erase f ≠ ∅)) :=
      List.mem_filter.mpr ⟨hf, by simpa using hfc⟩
    rw [hnil] at this
    exact List.not_mem_nil _ this
  · right
    rw [backwardArrived_sequential arrival sqrt dblMax data labels st hseq] at hsplit
    obtain ⟨l₁, l₂, hl, hl₁, hl₂⟩ := List.map_eq_append_iff.mp hsplit
    obtain ⟨f, l₂', hl₂', hf, hpost'⟩ := List.map_eq_cons_iff.mp hl₂
    subst hl₂'
    obtain ⟨m₁, m₂, hm, hm₁, hm₂⟩ := List.filter_eq_append_iff.mp hl
    obtain ⟨m₃, m₄, hm₂', hm₃, hpf, hm₄⟩ := List.filter_eq_cons_iff.mp hm₂
    refine ⟨m₁ ++ m₃, f, m₄, by rw [hm, hm₂', List.append_assoc], by simpa using hpf,
      by rw [hf]; exact hnext, ?_, ?_⟩
    · intro g hg hgc
      rcases List.mem_append.mp hg with hg | hg
      · have hg₁ : g ∈ l₁ := hm₁ ▸ List.mem_filter.mpr ⟨hg, by simpa using hgc⟩
        have : backwardCandidate sqrt dblMax data labels st.currentSet g ∈ pre :=
          hl₁ ▸ List.mem_map_of_mem _ hg₁
        have := hpre _ this
        rw [← hf] at this
        exact this
      · exact absurd (by simpa using hgc) (hm₃ g hg)
    · intro g hg hgc
      have hg₂ : g ∈ l₂' := hm₄ ▸ List.mem_filter.mpr ⟨hg, by simpa using hgc⟩
      have : backwardCandidate sqrt dblMax data labels st.currentSet g ∈ post :=
        hpost' ▸ List.mem_map_of_mem _ hg₂
      have := hpost _ this
      rw [← hf] at this
      exact this

end BackwardSequential

section ForwardTop
variable {α : Type} [LinearOrderedField α]

theorem forwardSelection_run
    (arrival : List (CandidateResult α) → List (CandidateResult α))
    (sqrt : α → α) (dblMax : α) (data : DataMatrix α) (labels : LabelVector)
    (verbose : Bool) :
    ∃ st,
      forwardLoop arrival sqrt dblMax data labels (numFeaturesOf data) (numFeaturesOf data)
        ⟨∅, ⟨∅, loocvAccuracy sqrt dblMax data labels ∅,
          [(∅, loocvAccuracy sqrt dblMax data labels ∅)]⟩⟩ = some st ∧
      forwardSelection arrival sqrt dblMax data labels verbose = some st.result ∧
      BestIsFirstMax st.result ∧
      ∃ tail, st.result.allResults = (∅, loocvAccuracy sqrt dblMax data labels ∅) :: tail := by
  obtain ⟨st, hloop, tail, htail, _⟩ :=
    forwardLoop_history arrival sqrt dblMax data labels (numFeaturesOf data)
      (numFeaturesOf data)
      ⟨∅, ⟨∅, loocvAccuracy sqrt dblMax data labels ∅,
        [(∅, loocvAccuracy sqrt dblMax data labels ∅)]⟩⟩ (by simp)
  refine ⟨st, hloop, ?_, ?_, tail, by rw [htail]; rfl⟩
  · unfold forwardSelection
    simp only [loocv_eq_accuracy, hloop]
  · exact forwardLoop_bestIsFirstMax arrival sqrt dblMax data labels _ _ _ st hloop
      (bestIsFirstMax_init _ _)

omit [LinearOrderedField α] in
theorem numFeaturesOf_eq_zero (data : DataMatrix α) (h : ∀ p ∈ data, p.length = 0) :
    numFeaturesOf data = 0 := by
  cases data with
  | nil => rfl
  | cons p rest => exact h p (List.mem_cons_self _ _)

end ForwardTop

section ForwardPermutation
variable {α : Type} [LinearOrderedField α]

theorem loocvAccuracy_le_one (sqrt : α → α) (dblMax : α) (data : DataMatrix α)
    (labels : LabelVector) (S : FeatureSet) : loocvAccuracy sqrt dblMax data labels S ≤ 1 := by
  unfold loocvAccuracy
  split
  · exact zero_le_one
  · next hd =>
    have hpos : (0 : α) < (data.length : α) := by
      have : data ≠ [] := fun h => hd (Or.inl h)
      exact_mod_cast List.length_pos.mpr this
    have hle : (correctCount sqrt dblMax data labels S : α) ≤ (data.length : α) := by
      exact_mod_cast correctCount_le sqrt dblMax data labels S
    exact (div_le_one hpos).mpr hle

theorem forwardPushed_eq_nil_iff (sqrt : α → α) (dblMax : α) (data : DataMatrix α)
    (labels : LabelVector) (numFeatures : ℕ) (currentSet : FeatureSet) :
    ((List.range numFeatures).filter (fun f => decide (f ∉ currentSet))).map
        (forwardCandidate sqrt dblMax data labels currentSet) = []
      ↔ ∀ f, f < numFeatures → f ∈ currentSet := by
  rw [List.map_eq_nil_iff, List.filter_eq_nil_iff]
  constructor
  · intro h f hf
    have := h f (List.mem_range.mpr hf)
    simpa using this
  · intro h f hf
    simpa using h f (List.mem_range.mp hf)

theorem forwardArrived_eq_nil_iff
    (arrival : List (CandidateResult α) → List (CandidateResult α))
    (sqrt : α → α) (dblMax : α) (data : DataMatrix α) (labels : LabelVector)
    (numFeatures : ℕ) (currentSet : FeatureSet) (harr : ∀ l, (arrival l).Perm l) :
    forwardArrived arrival sqrt dblMax data labels numFeatures currentSet = []
      ↔ ∀ f, f < numFeatures → f ∈ currentSet := by
  rw [← forwardPushed_eq_nil_iff sqrt dblMax data labels numFeatures currentSet]
  unfold forwardArrived
  simp only
  split
  · constructor
    · intro h
      have := harr (((List.range numFeatures).filter (fun f => decide (f ∉ currentSet))).map
        (forwardCandidate sqrt dblMax data labels currentSet))
      rw [h] at this
      exact this.symm.eq_nil
    · intro h
      rw [h]
      exact (harr []).eq_nil
  · exact Iff.rfl

theorem forwardLevel_exit_iff
    (arrival : List (CandidateResult α) → List (CandidateResult α))
    (sqrt : α → α) (dblMax : α) (data : DataMatrix α) (labels : LabelVector)
    (numFeatures : ℕ) (st : ForwardState α) (hcard : st.currentSet.card ≤ numFeatures)
    (harr : ∀ l, (arrival l).Perm l) :
    forwardLevel arrival sqrt dblMax data labels numFeatures st = some LevelStep.exit
      ↔ ∀ f, f < numFeatures → f ∈ st.currentSet := by
  rw [← forwardArrived_eq_nil_iff arrival sqrt dblMax data labels numFeatures st.currentSet harr]
  rcases forwardLevel_eq arrival sqrt dblMax data labels numFeatures st hcard with
    ⟨hnil, hexit⟩ | ⟨pre, c, post, hsplit, _, _, hnext⟩
  · exact ⟨fun _ => hnil, fun _ => hexit⟩
  · constructor
    · intro h
      rw [hnext] at h
      cases h
    · intro h
      rw [h] at hsplit
      exact absurd hsplit (by simp)

theorem forwardLevel_perm
    (arrival : List (CandidateResult α) → List (CandidateResult α))
    (sqrt : α → α) (dblMax : α) (data : DataMatrix α) (labels : LabelVector)
    (numFeatures : ℕ) (st : ForwardState α) (hcard : st.currentSet.card ≤ numFeatures)
    (harr : ∀ l, (arrival l).Perm l) (hex : ∃ f, f < numFeatures ∧ f ∉ st.currentSet) :
    ∃ f, f < numFeatures ∧ f ∉ st.currentSet ∧
      forwardLevel arrival sqrt dblMax data labels numFeatures st
        = some (LevelStep.next
            (forwardAdvance st (forwardCandidate sqrt dblMax data labels st.currentSet f))) := by
  rcases forwardLevel_eq arrival sqrt dblMax data labels numFeatures st hcard with
    ⟨hnil, _⟩ | ⟨pre, c, post, hsplit, _, _, hnext⟩
  · obtain ⟨f, hf, hfc⟩ := hex
    exact absurd ((forwardArrived_eq_nil_iff arrival sqrt dblMax data labels numFeatures
      st.currentSet harr).mp hnil f hf) hfc
  · have hc : c ∈ forwardArrived arrival sqrt dblMax data labels numFeatures st.currentSet := by
      rw [hsplit]
      simp
    have hc' : c ∈ ((List.range numFeatures).filter (fun f => decide (f ∉ st.currentSet))).map
        (forwardCandidate sqrt dblMax data labels st.currentSet) := by
      unfold forwardArrived at hc
      simp only at hc
      split at hc
      · exact (harr _).mem_iff.mp hc
      · exact hc
    obtain ⟨f, hf, hfc⟩ := List.mem_map.mp hc'
    have hf' := List.mem_filter.mp hf
    refine ⟨f, List.mem_range.mp hf'.1, by simpa using hf'.2, ?_⟩
    rw [hfc]
    exact hnext

theorem exists_missing_feature (numFeatures : ℕ) (currentSet : FeatureSet)
    (hcard : currentSet.card < numFeatures) : ∃ f, f < numFeatures ∧ f ∉ currentSet := by
  by_contra h
  push_neg at h
  have hsub : Finset.range numFeatures ⊆ currentSet := fun f hf => h f (Finset.mem_range.mp hf)
  have := Finset.card_le_card hsub
  rw [Finset.card_range] at this
  omega

theorem forwardLoop_full
    (arrival : List (CandidateResult α) → List (CandidateResult α))
    (sqrt : α → α) (dblMax : α) (data : DataMatrix α) (labels : LabelVector)
    (numFeatures : ℕ) (harr : ∀ l, (arrival l).Perm l) (n : ℕ) (st : ForwardState α)
    (hcard : st.currentSet.card + n ≤ numFeatures) :
    ∃ st', forwardLoop arrival sqrt dblMax data labels numFeatures n st = some st' ∧
      st'.result.allResults.length = st.result.allResults.length + n := by
  induction n generalizing st with
  | zero => exact ⟨st, rfl, rfl⟩
  | succ n ih =>
    obtain ⟨f, _, hfc, hnext⟩ := forwardLevel_perm arrival sqrt dblMax data labels numFeatures
      st (by omega) harr (exists_missing_feature numFeatures st.currentSet (by omega))
    have hcard' : (forwardAdvance st
        (forwardCandidate sqrt dblMax data labels st.currentSet f)).currentSet.card + n
          ≤ numFeatures := by
      simp only [forwardAdvance, forwardCandidate]
      rw [Finset.card_insert_of_not_mem hfc]
      omega
    obtain ⟨st', hloop, hlen⟩ := ih _ hcard'
    refine ⟨st', ?_, ?_⟩
    · rw [forwardLoop, hnext]
      exact hloop
    · rw [hlen]
      simp [forwardAdvance, recordLevel]
      omega

end ForwardPermutation

section LevelOne
variable {α : Type} [LinearOrderedField α]

theorem forwardLoop_first_level
    (arrival : List (CandidateResult α) → List (CandidateResult α))
    (sqrt : α → α) (dblMax : α) (data : DataMatrix α) (labels : LabelVector)
    (numFeatures n : ℕ) (st st₁ : ForwardState α)
    (hnext : forwardLevel arrival sqrt dblMax data labels numFeatures st
      = some (LevelStep.next st₁))
    (hcard : st₁.currentSet.card + n ≤ numFeatures) :
    ∃ st' tail, forwardLoop arrival sqrt dblMax data labels numFeatures (n + 1) st = some st' ∧
      st'.result.allResults = st₁.result.allResults ++ tail := by
  obtain ⟨st', hloop, tail, htail, _⟩ :=
    forwardLoop_history arrival sqrt dblMax data labels numFeatures n st₁ hcard
  exact ⟨st', tail, by rw [forwardLoop, hnext]; exact hloop, htail⟩

theorem forwardSelection_level_one
    (arrival : List (CandidateResult α) → List (CandidateResult α))
    (sqrt : α → α) (dblMax : α) (data : DataMatrix α) (labels : LabelVector)
    (verbose : Bool) (hfeat : 1 ≤ numFeaturesOf data)
    (hseq : numFeaturesOf data ≤ 8 ∨ ∀ l, arrival l = l)
    (h0 : loocvAccuracy sqrt dblMax data labels {0} = 1) :
    ∃ result, forwardSelection arrival sqrt dblMax data labels verbose = some result ∧
      result.allResults[1]? = some ({0}, 1) := by
  obtain ⟨n, hn⟩ : ∃ n, numFeaturesOf data = n + 1 := ⟨numFeaturesOf data - 1, by omega⟩
  rcases forwardLevel_sequential arrival sqrt dblMax data labels (numFeaturesOf data)
      ⟨∅, ⟨∅, loocvAccuracy sqrt dblMax data labels ∅,
        [(∅, loocvAccuracy sqrt dblMax data labels ∅)]⟩⟩ (by simp) hseq with
    ⟨hall, _⟩ | ⟨f, hf, _, hnext, hmax, hfirst⟩
  · exact absurd (hall 0 (by omega)) (by simp)
  · have hf0 : f = 0 := by
      by_contra hne
      have hlt := hfirst 0 (Nat.pos_of_ne_zero hne) (by simp)
      simp only [insert_emptyc_eq] at hlt
      rw [h0] at hlt
      exact absurd (loocvAccuracy_le_one sqrt dblMax data labels {f}) (not_le.mpr hlt)
    subst hf0
    obtain ⟨st', tail, hloop, htail⟩ :=
      forwardLoop_first_level arrival sqrt dblMax data labels (numFeaturesOf data) n _ _ hnext
        (by simp [forwardAdvance, forwardCandidate]; omega)
    refine ⟨st'.result, ?_, ?_⟩
    · unfold forwardSelection
      simp only [loocv_eq_accuracy]
      rw [← hn] at hloop
      rw [hloop]
    · rw [htail]
      simp [forwardAdvance, forwardCandidate, recordLevel, h0]

end LevelOne

section OutputLemmas
variable {α : Type} [LinearOrderedField α]

theorem loocvLoopLog_fst (sqrt : α → α) (dblMax : α) (data : DataMatrix α)
    (labels : LabelVector) (S : FeatureSet) (verbose : Bool) (is : List ℕ) (c : ℕ)
    (out : List (Output α)) :
    (loocvLoopLog sqrt dblMax data labels S verbose is c out).map Prod.fst
      = loocvLoop sqrt dblMax data labels S is c := by
  induction is generalizing c out with
  | nil => rfl
  | cons i rest ih =>
    rw [loocvLoopLog, loocvLoop]
    cases hd : data[i]? with
    | none => rfl
    | some point =>
      simp only
      cases hi : labels[i]? with
      | none => rfl
      | some li =>
        cases hn : labels[findNearestNeighbor sqrt dblMax data point i S]? with
        | none => rfl
        | some ln => exact ih _ _

theorem leaveOneOutCrossValidationLog_fst (numThreads : ℕ) (sqrt : α → α) (dblMax : α)
    (data : DataMatrix α) (labels : LabelVector) (S : FeatureSet) (verbose : Bool)
    (hteam : verbose = false ∨ numThreads ≤ 1) :
    (leaveOneOutCrossValidationLog numThreads sqrt dblMax data labels S verbose).map Prod.fst
      = leaveOneOutCrossValidation sqrt dblMax data labels S verbose := by
  have hblock : (verbose && decide (1 < numThreads)) = false := by
    rcases hteam with h | h
    · simp [h]
    · simp [Nat.not_lt.mpr h]
  unfold leaveOneOutCrossValidationLog leaveOneOutCrossValidation
  split
  · rfl
  · rw [hblock]
    simp only [Bool.false_eq_true, if_false]
    rw [← loocvLoopLog_fst sqrt dblMax data labels S verbose (List.range data.length) 0
      (if verbose then [Output.runningWith numThreads] else [])]
    cases loocvLoopLog sqrt dblMax data labels S verbose (List.range data.length) 0
      (if verbose then [Output.runningWith numThreads] else []) with
    | none => rfl
    | some r => rfl

theorem leaveOneOutCrossValidationLog_blocks (numThreads : ℕ) (sqrt : α → α) (dblMax : α)
    (data : DataMatrix α) (labels : LabelVector) (S : FeatureSet)
    (hne : data ≠ []) (hlen : data.length = labels.length) (hteam : 1 < numThreads) :
    leaveOneOutCrossValidationLog numThreads sqrt dblMax data labels S true = none := by
  have hl : labels ≠ [] := fun h => hne (List.length_eq_zero.mp (by rw [hlen, h]; rfl))
  have hguard : (data.isEmpty || labels.isEmpty || data.length != labels.length) = false := by
    cases data with
    | nil => exact absurd rfl hne
    | cons p rest =>
      cases labels with
      | nil => exact absurd rfl hl
      | cons l ls => simpa using hlen
  unfold leaveOneOutCrossValidationLog
  rw [hguard]
  simp [hteam]

theorem eq_some_of_map_fst {β γ : Type} (x : Option (β × γ)) (v : β)
    (h : x.map Prod.fst = some v) : ∃ out, x = some (v, out) := by
  cases x with
  | none => cases h
  | some r =>
    obtain ⟨a, out⟩ := r
    simp only [Option.map_some', Option.some.injEq] at h
    exact ⟨out, by rw [h]⟩

theorem leaveOneOutCrossValidationLog_eq (numThreads : ℕ) (sqrt : α → α) (dblMax : α)
    (data : DataMatrix α) (labels : LabelVector) (S : FeatureSet) :
    ∃ out, leaveOneOutCrossValidationLog numThreads sqrt dblMax data labels S false
      = some (loocvAccuracy sqrt dblMax data labels S, out) :=
  eq_some_of_map_fst _ _
    (by rw [leaveOneOutCrossValidationLog_fst _ _ _ _ _ _ _ (Or.inl rfl), loocv_eq_accuracy])

theorem forwardCandidatesLog_fst (numThreads : ℕ) (sqrt : α → α) (dblMax : α)
    (data : DataMatrix α) (labels : LabelVector) (currentSet : FeatureSet) (verbose : Bool)
    (fs : List FeatureIndex) :
    (forwardCandidatesLog numThreads sqrt dblMax data labels currentSet verbose fs).map
        Prod.fst
      = forwardCandidates sqrt dblMax data labels currentSet fs := by
  induction fs with
  | nil => rfl
  | cons f rest ih =>
    rw [forwardCandidatesLog, forwardCandidates]
    by_cases hf : f ∈ currentSet
    · rw [if_pos hf, if_pos hf]
      exact ih
    · rw [if_neg hf, if_neg hf]
      obtain ⟨printed, hp⟩ := leaveOneOutCrossValidationLog_eq numThreads sqrt dblMax data
        labels (insert f currentSet)
      simp only [hp, loocv_eq_accuracy]
      rw [← ih]
      cases forwardCandidatesLog numThreads sqrt dblMax data labels currentSet verbose
        rest with
      | none => rfl
      | some r => rfl

theorem forwardLevelLog_fst (numThreads : ℕ)
    (arrival : List (CandidateResult α) → List (CandidateResult α))
    (sqrt : α → α) (dblMax : α) (data : DataMatrix α) (labels : LabelVector)
    (numFeatures : ℕ) (verbose : Bool) (st : ForwardState α) :
    (forwardLevelLog numThreads arrival sqrt dblMax data labels numFeatures verbose st).map
        Prod.fst
      = forwardLevel arrival sqrt dblMax data labels numFeatures st := by
  unfold forwardLevelLog forwardLevel
  split
  · rfl
  · rw [← forwardCandidatesLog_fst numThreads sqrt dblMax data labels st.currentSet verbose]
    cases forwardCandidatesLog numThreads sqrt dblMax data labels st.currentSet verbose
      (List.range numFeatures) with
    | none => rfl
    | some r =>
      obtain ⟨pushed, out⟩ := r
      simp only [Option.map_some']
      generalize (if numFeatures > 8 then arrival pushed else pushed) = candidateResults
      generalize candidateResults.foldl forwardBestStep (0, 0, false) = best
      by_cases hfound : (!best.2.2) = true
      · rw [if_pos hfound, if_pos hfound]
        rfl
      · rw [if_neg hfound, if_neg hfound]
        by_cases hbetter : best.2.1 > st.result.bestAccuracy
        · rw [if_pos hbetter, if_pos hbetter]
          rfl
        · rw [if_neg hbetter, if_neg hbetter]
          rfl

theorem forwardLoopLog_fst (numThreads : ℕ)
    (arrival : List (CandidateResult α) → List (CandidateResult α))
    (sqrt : α → α) (dblMax : α) (data : DataMatrix α) (labels : LabelVector)
    (numFeatures : ℕ) (verbose : Bool) (n : ℕ) (st : ForwardState α)
    (out : List (Output α)) :
    (forwardLoopLog numThreads arrival sqrt dblMax data labels numFeatures verbose n st
        out).map Prod.fst
      = forwardLoop arrival sqrt dblMax data labels numFeatures n st := by
  induction n generalizing st out with
  | zero => rfl
  | succ n ih =>
    rw [forwardLoopLog, forwardLoop,
      ← forwardLevelLog_fst numThreads arrival sqrt dblMax data labels numFeatures verbose st]
    cases forwardLevelLog numThreads arrival sqrt dblMax data labels numFeatures verbose
      st with
    | none => rfl
    | some r =>
      obtain ⟨step, printed⟩ := r
      cases step with
      | exit => rfl
      | next st' => exact ih st' _

theorem forwardSelectionLog_fst (numThreads : ℕ)
    (arrival : List (CandidateResult α) → List (CandidateResult α))
    (sqrt : α → α) (dblMax : α) (data : DataMatrix α) (labels : LabelVector)
    (verbose : Bool) :
    (forwardSelectionLog numThreads arrival sqrt dblMax data labels verbose).map Prod.fst
      = forwardSelection arrival sqrt dblMax data labels verbose := by
  unfold forwardSelectionLog forwardSelection
  obtain ⟨printed, hp⟩ := leaveOneOutCrossValidationLog_eq numThreads sqrt dblMax data
    labels ∅
  simp only [hp, loocv_eq_accuracy]
  generalize hout : ((if verbose = true then [Output.beginSearch false] else []) ++ printed
    ++ if verbose = true then
      [Output.usingFeatures ∅ (loocvAccuracy sqrt dblMax data labels ∅)] else []) = out₁
  rw [← forwardLoopLog_fst numThreads arrival sqrt dblMax data labels (numFeaturesOf data)
    verbose (numFeaturesOf data) _ out₁]
  cases forwardLoopLog numThreads arrival sqrt dblMax data labels (numFeaturesOf data)
    verbose (numFeaturesOf data)
    ⟨∅, ⟨∅, loocvAccuracy sqrt dblMax data labels ∅,
      [(∅, loocvAccuracy sqrt dblMax data labels ∅)]⟩⟩ out₁ with
  | none => rfl
  | some r => rfl

end OutputLemmas

section OutputLemmasBackward
variable {α : Type} [LinearOrderedField α]

theorem backwardCandidatesLog_fst (numThreads : ℕ) (sqrt : α → α) (dblMax : α)
    (data : DataMatrix α) (labels : LabelVector) (currentSet : FeatureSet) (verbose : Bool)
    (fs : List FeatureIndex) :
    (backwardCandidatesLog numThreads sqrt dblMax data labels currentSet verbose fs).map
        Prod.fst
      = backwardCandidates sqrt dblMax data labels currentSet fs := by
  induction fs with
  | nil => rfl
  | cons f rest ih =>
    rw [backwardCandidatesLog, backwardCandidates]
    by_cases hf : currentSet.erase f = ∅
    · simp only [if_pos hf]
      exact ih
    · simp only [if_neg hf]
      obtain ⟨printed, hp⟩ := leaveOneOutCrossValidationLog_eq numThreads sqrt dblMax data
        labels (currentSet.erase f)
      simp only [hp, loocv_eq_accuracy]
      rw [← ih]
      cases backwardCandidatesLog numThreads sqrt dblMax data labels currentSet verbose
        rest with
      | none => rfl
      | some r => rfl

theorem backwardLevelLog_fst (numThreads : ℕ)
    (arrival : List (CandidateResult α) → List (CandidateResult α))
    (sqrt : α → α) (dblMax : α) (data : DataMatrix α) (labels : LabelVector)
    (verbose : Bool) (st : BackwardState α) :
    (backwardLevelLog numThreads arrival sqrt dblMax data labels verbose st).map Prod.fst
      = backwardLevel arrival sqrt dblMax data labels st := by
  unfold backwardLevelLog backwardLevel
  rw [← backwardCandidatesLog_fst numThreads sqrt dblMax data labels st.currentSet verbose]
  cases backwardCandidatesLog numThreads sqrt dblMax data labels st.currentSet verbose
    st.allFeatures with
  | none => rfl
  | some r =>
    obtain ⟨pushed, out⟩ := r
    simp only [Option.map_some']
    generalize (if st.allFeatures.length > 8 then arrival pushed else pushed)
      = candidateResults
    cases candidateResults with
    | nil => rfl
    | cons first others =>
      simp only
      generalize others.foldl backwardBestStep (first.feature, first.accuracy) = best
      by_cases hbetter : best.2 > st.result.bestAccuracy
      · rw [if_pos hbetter, if_pos hbetter]
        rfl
      · rw [if_neg hbetter, if_neg hbetter]
        rfl

theorem backwardLoopLog_fst (numThreads : ℕ)
    (arrival : List (CandidateResult α) → List (CandidateResult α))
    (sqrt : α → α) (dblMax : α) (data : DataMatrix α) (labels : LabelVector)
    (verbose : Bool) (n : ℕ) (st : BackwardState α) (out : List (Output α)) :
    (backwardLoopLog numThreads arrival sqrt dblMax data labels verbose n st out).map
        Prod.fst
      = backwardLoop arrival sqrt dblMax data labels n st := by
  induction n generalizing st out with
  | zero => rfl
  | succ n ih =>
    rw [backwardLoopLog, backwardLoop]
    by_cases hlen : st.allFeatures.length > 1
    · rw [if_pos hlen, if_pos hlen,
        ← backwardLevelLog_fst numThreads arrival sqrt dblMax data labels verbose st]
      cases backwardLevelLog numThreads arrival sqrt dblMax data labels verbose st with
      | none => rfl
      | some r =>
        obtain ⟨step, printed⟩ := r
        cases step with
        | exit => rfl
        | next st' => exact ih st' _
    · rw [if_neg hlen, if_neg hlen]
      rfl

theorem backwardFinalLog_fst (numThreads : ℕ) (sqrt : α → α) (dblMax : α)
    (data : DataMatrix α) (labels : LabelVector) (verbose : Bool) (st : BackwardState α) :
    (backwardFinalLog numThreads sqrt dblMax data labels verbose st).map Prod.fst
      = backwardFinal sqrt dblMax data labels st := by
  unfold backwardFinalLog backwardFinal
  by_cases hne : st.allFeatures ≠ []
  · rw [if_pos hne, if_pos hne]
    obtain ⟨printed, hp⟩ := leaveOneOutCrossValidationLog_eq numThreads sqrt dblMax data
      labels ∅
    simp only [hp, loocv_eq_accuracy]
    by_cases hbetter : loocvAccuracy sqrt dblMax data labels ∅ > st.result.bestAccuracy
    · rw [if_pos hbetter, if_pos hbetter]
      rfl
    · rw [if_neg hbetter, if_neg hbetter]
      rfl
  · rw [if_neg hne, if_neg hne]
    rfl

theorem backwardEliminationLog_fst (numThreads : ℕ)
    (arrival : List (CandidateResult α) → List (CandidateResult α))
    (sqrt : α → α) (dblMax : α) (data : DataMatrix α) (labels : LabelVector)
    (verbose : Bool) :
    (backwardEliminationLog numThreads arrival sqrt dblMax data labels verbose).map Prod.fst
      = backwardElimination arrival sqrt dblMax data labels verbose := by
  unfold backwardEliminationLog backwardElimination
  obtain ⟨printed, hp⟩ := leaveOneOutCrossValidationLog_eq numThreads sqrt dblMax data
    labels ((List.range (numFeaturesOf data)).foldl (fun set i => insert i set) ∅)
  simp only [hp, loocv_eq_accuracy]
  generalize ((if verbose = true then [Output.beginSearch true] else []) ++ printed
    ++ if verbose = true then
      [Output.usingFeatures
        ((List.range (numFeaturesOf data)).foldl (fun set i => insert i set) ∅)
        (loocvAccuracy sqrt dblMax data labels
          ((List.range (numFeaturesOf data)).foldl (fun set i => insert i set) ∅))]
      else []) = out₁
  rw [← backwardLoopLog_fst numThreads arrival sqrt dblMax data labels verbose
    (numFeaturesOf data) _ out₁]
  cases backwardLoopLog numThreads arrival sqrt dblMax data labels verbose
    (numFeaturesOf data)
    ⟨(List.range (numFeaturesOf data)).foldl (fun set i => insert i set) ∅,
      FeatureSet.toList
        ((List.range (numFeaturesOf data)).foldl (fun set i => insert i set) ∅),
      ⟨(List.range (numFeaturesOf data)).foldl (fun set i => insert i set) ∅,
        loocvAccuracy sqrt dblMax data labels
          ((List.range (numFeaturesOf data)).foldl (fun set i => insert i set) ∅),
        [((List.range (numFeaturesOf data)).foldl (fun set i => insert i set) ∅,
          loocvAccuracy sqrt dblMax data labels
            ((List.range (numFeaturesOf data)).foldl (fun set i => insert i set) ∅))]⟩⟩
    out₁ with
  | none => rfl
  | some r =>
    obtain ⟨st, out⟩ := r
    simp only [Option.map_some']
    rw [← backwardFinalLog_fst numThreads sqrt dblMax data labels verbose st]
    cases backwardFinalLog numThreads sqrt dblMax data labels verbose st with
    | none => rfl
    | some r' => rfl

end OutputLemmasBackward

section HistoryLemmas
variable {α : Type} [LinearOrderedField α]

omit [LinearOrderedField α] in
theorem historyInv_append (step : FeatureSet → FeatureSet → Prop) (acc : FeatureSet → α)
    (current next : FeatureSet) (history : List (FeatureSet × α)) (accuracy : α)
    (hinv : HistoryInv step acc current history) (hstep : step current next)
    (hacc : accuracy = acc next) :
    HistoryInv step acc next (history ++ [(next, accuracy)]) := by
  obtain ⟨hchain, hlast, hall⟩ := hinv
  refine ⟨?_, ?_, ?_⟩
  · rw [List.map_append]
    refine List.Chain'.append hchain (List.chain'_singleton _) ?_
    intro x hx y hy
    rw [hlast] at hx
    simp only [List.map_cons, List.map_nil, List.head?_cons, Option.mem_def,
      Option.some.injEq] at hx hy
    subst hx hy
    exact hstep
  · simp
  · intro e he
    rcases List.mem_append.1 he with h | h
    · exact hall e h
    · simp only [List.mem_singleton] at h
      subst h
      exact hacc

omit [LinearOrderedField α] in
theorem historyInv_init (step : FeatureSet → FeatureSet → Prop) (acc : FeatureSet → α)
    (S : FeatureSet) : HistoryInv step acc S [(S, acc S)] :=
  ⟨List.chain'_singleton _, rfl, by simp⟩

theorem chain_addsFeature_card (numFeatures : ℕ) (l : List FeatureSet)
    (hchain : l.Chain' (AddsFeature numFeatures)) :
    ∀ (S₀ : FeatureSet), l.head? = some S₀ → ∀ (k : ℕ) (S : FeatureSet),
      l[k]? = some S → S.card = S₀.card + k := by
  induction l with
  | nil => intro S₀ h; simp at h
  | cons a rest ih =>
    intro S₀ h k S hk
    simp only [List.head?_cons, Option.some.injEq] at h
    subst h
    cases k with
    | zero =>
      simp only [List.getElem?_cons_zero, Option.some.injEq] at hk
      subst hk
      rfl
    | succ k =>
      simp only [List.getElem?_cons_succ] at hk
      cases rest with
      | nil => simp at hk
      | cons b rest' =>
        obtain ⟨hab, hrest⟩ := List.chain'_cons.1 hchain
        obtain ⟨f, _, hf, rfl⟩ := hab
        have := ih hrest _ rfl k S hk
        rw [this, Finset.card_insert_of_not_mem hf]
        omega

theorem chain_removesFeature_card (l : List FeatureSet)
    (hchain : l.Chain' RemovesFeature) :
    ∀ (S₀ : FeatureSet), l.head? = some S₀ → ∀ (k : ℕ) (S : FeatureSet),
      l[k]? = some S → S.card + k = S₀.card := by
  induction l with
  | nil => intro S₀ h; simp at h
  | cons a rest ih =>
    intro S₀ h k S hk
    simp only [List.head?_cons, Option.some.injEq] at h
    subst h
    cases k with
    | zero =>
      simp only [List.getElem?_cons_zero, Option.some.injEq] at hk
      subst hk
      rfl
    | succ k =>
      simp only [List.getElem?_cons_succ] at hk
      cases rest with
      | nil => simp at hk
      | cons b rest' =>
        obtain ⟨hab, hrest⟩ := List.chain'_cons.1 hchain
        obtain ⟨f, hf, rfl⟩ := hab
        have := ih hrest _ rfl k S hk
        have hcard := Finset.card_erase_of_mem hf
        have hpos : 0 < a.card := Finset.card_pos.2 ⟨f, hf⟩
        omega

theorem chain_step_of_getElem? {β : Type} (R : β → β → Prop) (l : List β)
    (hchain : l.Chain' R) (k : ℕ) (x y : β) (hx : l[k]? = some x)
    (hy : l[k + 1]? = some y) : R x y := by
  induction l generalizing k with
  | nil => simp at hx
  | cons a rest ih =>
    cases rest with
    | nil => simp at hy
    | cons b rest' =>
      obtain ⟨hab, hrest⟩ := List.chain'_cons.1 hchain
      cases k with
      | zero =>
        simp only [List.getElem?_cons_zero, List.getElem?_cons_succ, zero_add,
          Option.some.injEq] at hx hy
        subst hx hy
        exact hab
      | succ k =>
        rw [List.getElem?_cons_succ] at hx hy
        exact ih hrest k hx hy

end HistoryLemmas

section ForwardChain
variable {α : Type} [LinearOrderedField α]

theorem forwardLoop_chain
    (arrival : List (CandidateResult α) → List (CandidateResult α))
    (sqrt : α → α) (dblMax : α) (data : DataMatrix α) (labels : LabelVector)
    (numFeatures : ℕ) (harr : ∀ l, (arrival l).Perm l) (n : ℕ) (st : ForwardState α)
    (hinv : HistoryInv (AddsFeature numFeatures) (loocvAccuracy sqrt dblMax data labels)
      st.currentSet st.result.allResults)
    (hsub : st.currentSet ⊆ Finset.range numFeatures)
    (hcard : st.currentSet.card + n ≤ numFeatures) :
    ∃ st', forwardLoop arrival sqrt dblMax data labels numFeatures n st = some st' ∧
      HistoryInv (AddsFeature numFeatures) (loocvAccuracy sqrt dblMax data labels)
        st'.currentSet st'.result.allResults ∧
      st'.currentSet ⊆ Finset.range numFeatures ∧
      st'.currentSet.card = st.currentSet.card + n ∧
      st'.result.allResults.length = st.result.allResults.length + n ∧
      forwardLevelsRun arrival sqrt dblMax data labels numFeatures n st = n := by
  induction n generalizing st with
  | zero => exact ⟨st, rfl, hinv, hsub, rfl, rfl, rfl⟩
  | succ n ih =>
    obtain ⟨f, hf, hfc, hnext⟩ := forwardLevel_perm arrival sqrt dblMax data labels numFeatures
      st (by omega) harr (exists_missing_feature numFeatures st.currentSet (by omega))
    have hcs : (forwardAdvance st
        (forwardCandidate sqrt dblMax data labels st.currentSet f)).currentSet
          = insert f st.currentSet := rfl
    have hres : (forwardAdvance st
        (forwardCandidate sqrt dblMax data labels st.currentSet f)).result.allResults
          = st.result.allResults
            ++ [(insert f st.currentSet,
                loocvAccuracy sqrt dblMax data labels (insert f st.currentSet))] := rfl
    have hinv' : HistoryInv (AddsFeature numFeatures)
        (loocvAccuracy sqrt dblMax data labels)
        (forwardAdvance st
          (forwardCandidate sqrt dblMax data labels st.currentSet f)).currentSet
        (forwardAdvance st
          (forwardCandidate sqrt dblMax data labels st.currentSet f)).result.allResults := by
      rw [hcs, hres]
      exact historyInv_append _ _ _ _ _ _ hinv ⟨f, hf, hfc, rfl⟩ rfl
    have hsub' : (forwardAdvance st
        (forwardCandidate sqrt dblMax data labels st.currentSet f)).currentSet
          ⊆ Finset.range numFeatures := by
      rw [hcs]
      exact Finset.insert_subset (Finset.mem_range.2 hf) hsub
    have hcardInsert : (forwardAdvance st
        (forwardCandidate sqrt dblMax data labels st.currentSet f)).currentSet.card
          = st.currentSet.card + 1 := by
      rw [hcs, Finset.card_insert_of_not_mem hfc]
    obtain ⟨st', hloop, hinv'', hsub'', hcard'', hlen, hrun⟩ :=
      ih _ hinv' hsub' (by omega)
    refine ⟨st', ?_, hinv'', hsub'', by omega, ?_, ?_⟩
    · rw [forwardLoop, hnext]
      exact hloop
    · rw [hlen, hres, List.length_append, List.length_singleton]
      omega
    · rw [forwardLevelsRun, hnext]
      simp only [hrun]

/-- The run of `forwardSelection` under a push order that permutes the candidates: the
search returns, its history is a chain of single additions from the empty set to the full
set with the accuracies of the evaluator, and all `numFeatures` levels select a winner. -/
theorem forwardSelection_chain
    (arrival : List (CandidateResult α) → List (CandidateResult α))
    (sqrt : α → α) (dblMax : α) (data : DataMatrix α) (labels : LabelVector)
    (verbose : Bool) (harr : ∀ l, (arrival l).Perm l) :
    ∃ result, forwardSelection arrival sqrt dblMax data labels verbose = some result ∧
      HistoryInv (AddsFeature (numFeaturesOf data)) (loocvAccuracy sqrt dblMax data labels)
        (Finset.range (numFeaturesOf data)) result.allResults ∧
      result.allResults.length = numFeaturesOf data + 1 ∧
      result.allResults.head? = some (∅, loocvAccuracy sqrt dblMax data labels ∅) ∧
      BestIsFirstMax result ∧
      forwardLevelsRun arrival sqrt dblMax data labels (numFeaturesOf data)
        (numFeaturesOf data)
        ⟨∅, ⟨∅, loocvAccuracy sqrt dblMax data labels ∅,
          [(∅, loocvAccuracy sqrt dblMax data labels ∅)]⟩⟩ = numFeaturesOf data := by
  obtain ⟨st, hloop, hsel, hbest, tail, htail⟩ :=
    forwardSelection_run arrival sqrt dblMax data labels verbose
  obtain ⟨st', hloop', hinv, hsub, hcard, hlen, hrun⟩ :=
    forwardLoop_chain arrival sqrt dblMax data labels (numFeaturesOf data) harr
      (numFeaturesOf data)
      ⟨∅, ⟨∅, loocvAccuracy sqrt dblMax data labels ∅,
        [(∅, loocvAccuracy sqrt dblMax data labels ∅)]⟩⟩
      (historyInv_init _ _ _) (Finset.empty_subset _) (by simp)
  rw [hloop] at hloop'
  obtain rfl := Option.some.inj hloop'
  have hfull : st.currentSet = Finset.range (numFeaturesOf data) := by
    apply Finset.eq_of_subset_of_card_le hsub
    rw [Finset.card_range, hcard]
    simp
  refine ⟨st.result, hsel, hfull ▸ hinv, ?_, ?_, hbest, hrun⟩
  · rw [hlen]
    simp
    omega
  · rw [htail]
    rfl

end ForwardChain

section BackwardChain
variable {α : Type} [LinearOrderedField α]

theorem backwardFilter_length (l : List FeatureIndex) (x : FeatureIndex) (hnd : l.Nodup)
    (hx : x ∈ l) : (l.filter (fun f => decide (f ≠ x))).length + 1 = l.length := by
  induction l with
  | nil => simp at hx
  | cons a rest ih =>
    obtain ⟨ha, hrest⟩ := List.nodup_cons.1 hnd
    by_cases hax : a = x
    · subst hax
      have hself : rest.filter (fun f => decide (f ≠ a)) = rest := by
        rw [List.filter_eq_self]
        intro b hb
        simp only [ne_eq, decide_not, Bool.not_eq_eq_eq_not, Bool.not_true,
          decide_eq_false_iff_not]
        intro hba
        exact ha (hba ▸ hb)
      rw [List.filter_cons_of_neg (by simp), hself, List.length_cons]
    · have hx' : x ∈ rest := by
        rcases List.mem_cons.1 hx with h | h
        · exact absurd h.symm hax
        · exact h
      have := ih hrest hx'
      rw [List.filter_cons_of_pos (by simpa using hax), List.length_cons, this,
        List.length_cons]

theorem backwardFilter_toFinset (l : List FeatureIndex) (x : FeatureIndex) :
    (l.filter (fun f => decide (f ≠ x))).toFinset = l.toFinset.erase x := by
  ext a
  simp only [List.mem_toFinset, List.mem_filter, Finset.mem_erase, ne_eq, decide_not,
    Bool.not_eq_eq_eq_not, Bool.not_true, decide_eq_false_iff_not]
  tauto

theorem backwardLevel_perm
    (arrival : List (CandidateResult α) → List (CandidateResult α))
    (sqrt : α → α) (dblMax : α) (data : DataMatrix α) (labels : LabelVector)
    (st : BackwardState α) (harr : ∀ l, (arrival l).Perm l)
    (hnd : st.allFeatures.Nodup) (hcs : st.currentSet = st.allFeatures.toFinset)
    (hlen : st.allFeatures.length > 1) :
    (∀ f ∈ st.allFeatures, st.currentSet.erase f ≠ ∅) ∧
    ∃ f, f ∈ st.allFeatures ∧
      backwardLevel arrival sqrt dblMax data labels st
        = some (LevelStep.next
            (backwardAdvance st (backwardCandidate sqrt dblMax data labels st.currentSet f))) := by
  have hcard : st.currentSet.card = st.allFeatures.length := by
    rw [hcs, List.toFinset_card_of_nodup hnd]
  have hne : ∀ f ∈ st.allFeatures, st.currentSet.erase f ≠ ∅ := by
    intro f _ hempty
    have h1 := Finset.pred_card_le_card_erase (s := st.currentSet) (a := f)
    rw [hempty, Finset.card_empty] at h1
    omega
  have hpushed : (st.allFeatures.filter (fun f => decide (st.currentSet.erase f ≠ ∅)))
      = st.allFeatures := by
    rw [List.filter_eq_self]
    intro f hf
    exact decide_eq_true (hne f hf)
  have hmem : ∀ c ∈ backwardArrived arrival sqrt dblMax data labels st,
      c ∈ st.allFeatures.map (backwardCandidate sqrt dblMax data labels st.currentSet) := by
    intro c hc
    unfold backwardArrived at hc
    simp only [hpushed] at hc
    split at hc
    · exact (harr _).mem_iff.mp hc
    · exact hc
  refine ⟨hne, ?_⟩
  rcases backwardLevel_eq arrival sqrt dblMax data labels st with
    ⟨hnil, _⟩ | ⟨pre, c, post, hsplit, _, _, hnext⟩
  · exfalso
    unfold backwardArrived at hnil
    simp only [hpushed] at hnil
    have hmap : st.allFeatures.map (backwardCandidate sqrt dblMax data labels st.currentSet)
        = [] := by
      split at hnil
      · exact (List.perm_nil.1 (hnil ▸ (harr _).symm))
      · exact hnil
    have := congrArg List.length hmap
    simp only [List.length_map, List.length_nil] at this
    omega
  · obtain ⟨f, hf, hfc⟩ := List.mem_map.mp (hmem c (by rw [hsplit]; simp))
    exact ⟨f, hf, by rw [hfc]; exact hnext⟩

theorem backwardLoop_chain
    (arrival : List (CandidateResult α) → List (CandidateResult α))
    (sqrt : α → α) (dblMax : α) (data : DataMatrix α) (labels : LabelVector)
    (harr : ∀ l, (arrival l).Perm l) (n : ℕ) (st : BackwardState α)
    (hinv : HistoryInv RemovesFeature (loocvAccuracy sqrt dblMax data labels)
      st.currentSet st.result.allResults)
    (hnd : st.allFeatures.Nodup) (hcs : st.currentSet = st.allFeatures.toFinset)
    (hn : st.allFeatures.length ≤ n + 1) :
    ∃ st', backwardLoop arrival sqrt dblMax data labels n st = some st' ∧
      HistoryInv RemovesFeature (loocvAccuracy sqrt dblMax data labels)
        st'.currentSet st'.result.allResults ∧
      st'.allFeatures.Nodup ∧ st'.currentSet = st'.allFeatures.toFinset ∧
      st'.allFeatures.length = min st.allFeatures.length 1 ∧
      st'.result.allResults.length + st'.allFeatures.length
        = st.result.allResults.length + st.allFeatures.length ∧
      (backwardVisited arrival sqrt dblMax data labels n st).length
        = st.allFeatures.length - 1 ∧
      ∀ s ∈ backwardVisited arrival sqrt dblMax data labels n st,
        (∀ f ∈ s.allFeatures, s.currentSet.erase f ≠ ∅) ∧
        ∃ s', backwardLevel arrival sqrt dblMax data labels s = some (LevelStep.next s') := by
  induction n generalizing st with
  | zero =>
    refine ⟨st, rfl, hinv, hnd, hcs, ?_, rfl, ?_, ?_⟩
    · omega
    · simp only [backwardVisited, List.length_nil]
      omega
    · intro s hs
      simp [backwardVisited] at hs
  | succ n ih =>
    by_cases hlen : st.allFeatures.length > 1
    · obtain ⟨hne, f, hf, hnext⟩ :=
        backwardLevel_perm arrival sqrt dblMax data labels st harr hnd hcs hlen
      have hfl := backwardFilter_length st.allFeatures f hnd hf
      obtain ⟨st', hloop, hinv', hnd', hcs', hlen', hsum, hvis, hall⟩ :=
        ih (backwardAdvance st (backwardCandidate sqrt dblMax data labels st.currentSet f))
          (historyInv_append _ _ _ _ _ _ hinv ⟨f, by rw [hcs]; simpa using hf, rfl⟩ rfl)
          (hnd.filter _)
          (show st.currentSet.erase f = (st.allFeatures.filter _).toFinset by
            rw [hcs]; exact (backwardFilter_toFinset _ _).symm)
          (show (st.allFeatures.filter (fun g => decide (g ≠ f))).length ≤ n + 1 by omega)
      have hlenAdv : (backwardAdvance st
          (backwardCandidate sqrt dblMax data labels st.currentSet f)).allFeatures.length
            = (st.allFeatures.filter (fun g => decide (g ≠ f))).length := rfl
      have hresAdv : (backwardAdvance st
          (backwardCandidate sqrt dblMax data labels st.currentSet f)).result.allResults.length
            = st.result.allResults.length + 1 := by
        simp [backwardAdvance, recordLevel]
      rw [hlenAdv] at hlen' hvis
      rw [hlenAdv, hresAdv] at hsum
      refine ⟨st', ?_, hinv', hnd', hcs', ?_, ?_, ?_, ?_⟩
      · rw [backwardLoop, if_pos hlen, hnext]
        exact hloop
      · rw [hlen']
        omega
      · rw [hsum]
        omega
      · rw [backwardVisited, if_pos hlen, hnext]
        simp only [List.length_cons, hvis]
        omega
      · intro s hs
        rw [backwardVisited, if_pos hlen, hnext] at hs
        rcases List.mem_cons.1 hs with h | h
        · subst h
          exact ⟨hne, _, hnext⟩
        · exact hall s h
    · refine ⟨st, ?_, hinv, hnd, hcs, ?_, rfl, ?_, ?_⟩
      · rw [backwardLoop, if_neg hlen]
      · omega
      · rw [backwardVisited, if_neg hlen]
        simp only [List.length_nil]
        omega
      · intro s hs
        rw [backwardVisited, if_neg hlen] at hs
        simp at hs

end BackwardChain

section SearchChains
variable {α : Type} [LinearOrderedField α]

theorem loocvAccuracy_range (sqrt : α → α) (dblMax : α) (data : DataMatrix α)
    (labels : LabelVector) (m : ℕ) (hm : ∀ p ∈ data, p.length = m) :
    loocvAccuracy sqrt dblMax data labels ∅
      = loocvAccuracy sqrt dblMax data labels (Finset.range m) := by
  have hnn := findNearestNeighbor_range sqrt dblMax data m hm
  have h : leaveOneOutCrossValidation sqrt dblMax data labels ∅ false
      = leaveOneOutCrossValidation sqrt dblMax data labels (Finset.range m) false := by
    simp only [leaveOneOutCrossValidation,
      loocvLoop_congr sqrt dblMax data labels ∅ (Finset.range m) hnn]
  rw [loocv_eq_accuracy, loocv_eq_accuracy] at h
  exact Option.some.inj h

omit [LinearOrderedField α] in
theorem historyInv_step (step : FeatureSet → FeatureSet → Prop) (acc : FeatureSet → α)
    (current : FeatureSet) (history : List (FeatureSet × α))
    (hinv : HistoryInv step acc current history) (k : ℕ) (S T : FeatureSet) (a b : α)
    (hk : history[k]? = some (S, a)) (hk' : history[k + 1]? = some (T, b)) : step S T :=
  chain_step_of_getElem? step (history.map Prod.fst) hinv.1 k S T
    (by rw [List.getElem?_map, hk]; rfl) (by rw [List.getElem?_map, hk']; rfl)

omit [LinearOrderedField α] in
theorem historyInv_last (step : FeatureSet → FeatureSet → Prop) (acc : FeatureSet → α)
    (current : FeatureSet) (history : List (FeatureSet × α))
    (hinv : HistoryInv step acc current history) (n : ℕ) (hlen : history.length = n + 1) :
    history[n]? = some (current, acc current) := by
  have hlast := hinv.2.1
  rw [List.getLast?_eq_getElem?, List.length_map, hlen, Nat.add_sub_cancel,
    List.getElem?_map] at hlast
  cases he : history[n]? with
  | none => rw [he] at hlast; simp at hlast
  | some e =>
    rw [he] at hlast
    simp only [Option.map_some', Option.some.injEq] at hlast
    have hacc := hinv.2.2 e (List.getElem?_mem he)
    obtain ⟨S, a⟩ := e
    simp only at hlast hacc
    subst hlast hacc
    rfl

theorem historyInv_mem_best (acc : FeatureSet → α) (result : SearchResult α)
    (hall : ∀ e ∈ result.allResults, e.2 = acc e.1) (hbest : BestIsFirstMax result) :
    result.bestAccuracy = acc result.bestFeatureSet := by
  obtain ⟨pre, post, hsplit, _, _⟩ := hbest
  exact hall (result.bestFeatureSet, result.bestAccuracy) (by rw [hsplit]; simp)

/-- The best pair of a history with at least two entries is not its last entry when the
last accuracy equals the first one and the last set occurs at no other position. -/
theorem best_ne_last (result : SearchResult α) (hbest : BestIsFirstMax result)
    (m : ℕ) (hm : 1 ≤ m) (first last : FeatureSet × α)
    (hfirst : result.allResults[0]? = some first)
    (hlast : result.allResults[m]? = some last) (heq : first.2 = last.2)
    (huniq : ∀ (k : ℕ) (e : FeatureSet × α), result.allResults[k]? = some e →
      e.1 = last.1 → k = m) :
    result.bestFeatureSet ≠ last.1 := by
  intro hset
  obtain ⟨k, hk, hbefore⟩ := bestIsFirstMax_index result hbest
  have hkm : k = m := huniq k _ hk hset
  subst hkm
  rw [hlast] at hk
  have hacc : last.2 = result.bestAccuracy := by
    have := Option.some.inj hk
    rw [this]
  have hlt := hbefore 0 first (by omega) hfirst
  rw [heq, hacc] at hlt
  exact lt_irrefl _ hlt

/-- The run of `backwardElimination` under a push order that permutes the candidates: the
search returns, its history is a chain of single removals from the full set to the empty
set with the accuracies of the evaluator, every level entered finds all its candidate sets
non-empty and selects a winner. -/
theorem backwardElimination_chain
    (arrival : List (CandidateResult α) → List (CandidateResult α))
    (sqrt : α → α) (dblMax : α) (data : DataMatrix α) (labels : LabelVector)
    (verbose : Bool) (harr : ∀ l, (arrival l).Perm l) :
    ∃ result, backwardElimination arrival sqrt dblMax data labels verbose = some result ∧
      HistoryInv RemovesFeature (loocvAccuracy sqrt dblMax data labels) ∅
        result.allResults ∧
      result.allResults.length = (if numFeaturesOf data = 0 then 1 else numFeaturesOf data + 1) ∧
      result.allResults.head? = some (Finset.range (numFeaturesOf data),
        loocvAccuracy sqrt dblMax data labels (Finset.range (numFeaturesOf data))) ∧
      BestIsFirstMax result ∧
      (backwardVisited arrival sqrt dblMax data labels (numFeaturesOf data)
        ⟨Finset.range (numFeaturesOf data), List.range (numFeaturesOf data),
          ⟨Finset.range (numFeaturesOf data),
            loocvAccuracy sqrt dblMax data labels (Finset.range (numFeaturesOf data)),
            [(Finset.range (numFeaturesOf data),
              loocvAccuracy sqrt dblMax data labels
                (Finset.range (numFeaturesOf data)))]⟩⟩).length
        = numFeaturesOf data - 1 ∧
      ∀ s ∈ backwardVisited arrival sqrt dblMax data labels (numFeaturesOf data)
        ⟨Finset.range (numFeaturesOf data), List.range (numFeaturesOf data),
          ⟨Finset.range (numFeaturesOf data),
            loocvAccuracy sqrt dblMax data labels (Finset.range (numFeaturesOf data)),
            [(Finset.range (numFeaturesOf data),
              loocvAccuracy sqrt dblMax data labels
                (Finset.range (numFeaturesOf data)))]⟩⟩,
        (∀ f ∈ s.allFeatures, s.currentSet.erase f ≠ ∅) ∧
        ∃ s', backwardLevel arrival sqrt dblMax data labels s = some (LevelStep.next s') := by
  obtain ⟨st, result, hloop, _, hrun, hbest, _, ⟨tail, htail⟩, hrec, hsame⟩ :=
    backwardElimination_run arrival sqrt dblMax data labels verbose
  obtain ⟨st', hloop', hinv, hnd, hcs, hlen, hsum, hvis, hall⟩ :=
    backwardLoop_chain arrival sqrt dblMax data labels harr (numFeaturesOf data)
      ⟨Finset.range (numFeaturesOf data), List.range (numFeaturesOf data),
        ⟨Finset.range (numFeaturesOf data),
          loocvAccuracy sqrt dblMax data labels (Finset.range (numFeaturesOf data)),
          [(Finset.range (numFeaturesOf data),
            loocvAccuracy sqrt dblMax data labels (Finset.range (numFeaturesOf data)))]⟩⟩
      (historyInv_init _ _ _) (List.nodup_range _) (by ext i; simp) (by simp)
  rw [hloop] at hloop'
  obtain rfl := Option.some.inj hloop'
  simp only [List.length_range, List.length_singleton] at hlen hsum hvis
  have hhead : ∀ (l : List (FeatureSet × α)), (st.result.allResults ++ l).head?
      = some (Finset.range (numFeaturesOf data),
        loocvAccuracy sqrt dblMax data labels (Finset.range (numFeaturesOf data))) := by
    intro l
    rw [htail]
    rfl
  by_cases hzero : numFeaturesOf data = 0
  · have hnil : st.allFeatures = [] := List.length_eq_zero.1 (by rw [hlen, hzero]; rfl)
    have hres := hsame hnil
    have hcur : st.currentSet = ∅ := by rw [hcs, hnil]; rfl
    refine ⟨result, hrun, ?_, ?_, ?_, hbest, hvis, hall⟩
    · rw [hres, ← hcur]
      exact hinv
    · rw [hres, if_pos hzero]
      rw [hnil, hzero] at hsum
      simpa using hsum
    · rw [hres]
      simpa using hhead []
  · have hone : st.allFeatures.length = 1 := by rw [hlen]; omega
    obtain ⟨f, hf⟩ := List.length_eq_one.1 hone
    have hres := hrec (by rw [hf]; simp)
    have hcur : st.currentSet = {f} := by rw [hcs, hf]; rfl
    refine ⟨result, hrun, ?_, ?_, ?_, hbest, hvis, hall⟩
    · rw [hres]
      exact historyInv_append _ _ _ _ _ _ hinv
        ⟨f, by rw [hcur]; simp, by rw [hcur]; simp⟩ rfl
    · rw [hres, if_neg hzero]
      simp only [recordLevel, List.length_append, List.length_singleton]
      omega
    · rw [hres]
      exact hhead _

end SearchChains

section TerminalSets
variable {α : Type} [LinearOrderedField α]

omit [LinearOrderedField α] in
theorem numFeaturesOf_eq (data : DataMatrix α) (m : ℕ) (hne : data ≠ [])
    (hlen : ∀ p ∈ data, p.length = m) : numFeaturesOf data = m := by
  cases data with
  | nil => exact absurd rfl hne
  | cons p rest => exact hlen p (List.mem_cons_self _ _)

omit [LinearOrderedField α] in
theorem historyInv_adds_card (numFeatures : ℕ) (acc : FeatureSet → α)
    (current : FeatureSet) (history : List (FeatureSet × α))
    (hinv : HistoryInv (AddsFeature numFeatures) acc current history)
    (first : FeatureSet × α) (hfirst : history.head? = some first) (hempty : first.1 = ∅)
    (k : ℕ) (S : FeatureSet) (a : α) (hk : history[k]? = some (S, a)) : S.card = k := by
  have := chain_addsFeature_card numFeatures (history.map Prod.fst) hinv.1 first.1
    (by rw [List.head?_map, hfirst]; rfl) k S (by rw [List.getElem?_map, hk]; rfl)
  rw [this, hempty]
  simp

omit [LinearOrderedField α] in
theorem historyInv_removes_card (acc : FeatureSet → α)
    (current : FeatureSet) (history : List (FeatureSet × α))
    (hinv : HistoryInv RemovesFeature acc current history)
    (first : FeatureSet × α) (hfirst : history.head? = some first)
    (k : ℕ) (S : FeatureSet) (a : α) (hk : history[k]? = some (S, a)) :
    S.card + k = first.1.card :=
  chain_removesFeature_card (history.map Prod.fst) hinv.1 first.1
    (by rw [List.head?_map, hfirst]; rfl) k S (by rw [List.getElem?_map, hk]; rfl)

theorem backwardElimination_best_ne_empty
    (arrival : List (CandidateResult α) → List (CandidateResult α))
    (sqrt : α → α) (dblMax : α) (data : DataMatrix α) (labels : LabelVector)
    (verbose : Bool) (m : ℕ) (hm : 1 ≤ m) (hne : data ≠ [])
    (hlen : ∀ p ∈ data, p.length = m) (harr : ∀ l, (arrival l).Perm l) :
    ∃ result first last,
      backwardElimination arrival sqrt dblMax data labels verbose = some result ∧
      result.allResults.head? = some first ∧ result.allResults.getLast? = some last ∧
      first.2 = last.2 ∧ result.bestFeatureSet ≠ ∅ := by
  obtain ⟨result, hrun, hinv, hlength, hhead, hbest, _, _⟩ :=
    backwardElimination_chain arrival sqrt dblMax data labels verbose harr
  have hnf := numFeaturesOf_eq data m hne hlen
  rw [hnf] at hlength hhead
  rw [if_neg (by omega)] at hlength
  have hlast := historyInv_last _ _ _ _ hinv m hlength
  have hrange := loocvAccuracy_range sqrt dblMax data labels m hlen
  refine ⟨result, _, (∅, loocvAccuracy sqrt dblMax data labels ∅), hrun, hhead, ?_,
    hrange.symm, ?_⟩
  · rw [List.getLast?_eq_getElem?, hlength, Nat.add_sub_cancel]
    exact hlast
  · refine best_ne_last result hbest m hm _ (∅, loocvAccuracy sqrt dblMax data labels ∅)
      (by rw [← List.head?_eq_getElem?]; exact hhead) hlast hrange.symm ?_
    intro k e hk he
    have := historyInv_removes_card _ _ _ hinv _ hhead k e.1 e.2 hk
    rw [he] at this
    simpa using this

theorem forwardSelection_best_ne_full
    (arrival : List (CandidateResult α) → List (CandidateResult α))
    (sqrt : α → α) (dblMax : α) (data : DataMatrix α) (labels : LabelVector)
    (verbose : Bool) (m : ℕ) (hm : 1 ≤ m) (hne : data ≠ [])
    (hlen : ∀ p ∈ data, p.length = m) (harr : ∀ l, (arrival l).Perm l) :
    ∃ result first last,
      forwardSelection arrival sqrt dblMax data labels verbose = some result ∧
      result.allResults.head? = some first ∧ result.allResults.getLast? = some last ∧
      first.2 = last.2 ∧ result.bestFeatureSet ≠ Finset.range m := by
  obtain ⟨result, hrun, hinv, hlength, hhead, hbest, _⟩ :=
    forwardSelection_chain arrival sqrt dblMax data labels verbose harr
  have hnf := numFeaturesOf_eq data m hne hlen
  rw [hnf] at hlength hinv
  have hlast := historyInv_last _ _ _ _ hinv m hlength
  have hrange := loocvAccuracy_range sqrt dblMax data labels m hlen
  refine ⟨result, _,
    (Finset.range m, loocvAccuracy sqrt dblMax data labels (Finset.range m)), hrun, hhead,
    ?_, hrange, ?_⟩
  · rw [List.getLast?_eq_getElem?, hlength, Nat.add_sub_cancel]
    exact hlast
  · refine best_ne_last result hbest m hm _
      (Finset.range m, loocvAccuracy sqrt dblMax data labels (Finset.range m))
      (by rw [← List.head?_eq_getElem?]; exact hhead) hlast hrange ?_
    intro k e hk he
    have := historyInv_adds_card _ _ _ _ hinv _ hhead rfl k e.1 e.2 hk
    rw [he] at this
    simpa using this.symm

theorem backwardElimination_empty_data :
    ∃ result, backwardElimination id ratSqrt doubleMax [] [] false = some result ∧
      result.bestFeatureSet = ∅ ∧ result.allResults = [(∅, 0)] := by
  refine ⟨⟨∅, 0, [(∅, 0)]⟩, ?_, rfl, rfl⟩
  unfold backwardElimination
  simp [numFeaturesOf, loocv_eq_accuracy, loocvAccuracy, backwardLoop, backwardFinal,
    FeatureSet.toList]

end TerminalSets

section LoaderLemmas

variable {α : Type}

theorem processRawData_foldl (toLabel : α → ℤ) (rawData : List (List α))
    (acc : DataMatrix α × LabelVector) :
    rawData.foldl (fun (acc : DataMatrix α × LabelVector) row =>
      match row with
      | [] => acc
      | first :: point => (acc.1 ++ [point], acc.2 ++ [toLabel first])) acc
    = (acc.1 ++ (nonEmptyRows rawData).map List.tail,
       acc.2 ++ (nonEmptyRows rawData).map (rowLabel toLabel)) := by
  induction rawData generalizing acc with
  | nil => simp [nonEmptyRows]
  | cons row rest ih =>
    rw [List.foldl_cons, ih]
    cases row with
    | nil => simp [nonEmptyRows]
    | cons first point => simp [nonEmptyRows, rowLabel]

theorem processRawData_eq (toLabel : α → ℤ) (rawData : List (List α)) :
    processRawData toLabel rawData
    = ((nonEmptyRows rawData).map List.tail,
       (nonEmptyRows rawData).map (rowLabel toLabel)) := by
  unfold processRawData
  rw [processRawData_foldl]
  simp

theorem verifyDatasetConsistency_iff (data : DataMatrix α) :
    verifyDatasetConsistency data = true ↔
      ∀ p ∈ data, ∀ q ∈ data, p.length = q.length := by
  cases data with
  | nil => simp [verifyDatasetConsistency]
  | cons first rest =>
    simp only [verifyDatasetConsistency, List.all_eq_true, beq_iff_eq]
    constructor
    · intro h p hp q hq
      rw [h p hp, h q hq]
    · intro h p hp
      exact h p hp first (List.mem_cons_self _ _)

theorem mem_nonEmptyRows (rawData : List (List α)) (row : List α) :
    row ∈ nonEmptyRows rawData ↔ row ∈ rawData ∧ row ≠ [] := by
  cases row <;> simp [nonEmptyRows]

theorem loadDatasetRows_eq (toLabel : α → ℤ) (rawData : List (List α)) :
    loadDatasetRows toLabel rawData
    = if verifyDatasetConsistency ((nonEmptyRows rawData).map List.tail) = true then
        some ((nonEmptyRows rawData).map List.tail,
          (nonEmptyRows rawData).map (rowLabel toLabel))
      else none := by
  simp only [loadDatasetRows, processRawData_eq]
  by_cases h : verifyDatasetConsistency ((nonEmptyRows rawData).map List.tail) = true
  · simp [h]
  · simp [h]

theorem verify_tails_iff (rawData : List (List α)) :
    verifyDatasetConsistency ((nonEmptyRows rawData).map List.tail) = true ↔
      ∀ r ∈ rawData, ∀ r' ∈ rawData, r ≠ [] → r' ≠ [] → r.length = r'.length := by
  rw [verifyDatasetConsistency_iff]
  constructor
  · intro h r hr r' hr' hne hne'
    have h1 := h r.tail (List.mem_map_of_mem _ ((mem_nonEmptyRows _ _).2 ⟨hr, hne⟩))
      r'.tail (List.mem_map_of_mem _ ((mem_nonEmptyRows _ _).2 ⟨hr', hne'⟩))
    cases r with
    | nil => exact absurd rfl hne
    | cons a r =>
      cases r' with
      | nil => exact absurd rfl hne'
      | cons b r' => simpa using h1
  · intro h p hp q hq
    obtain ⟨r, hr, rfl⟩ := List.mem_map.1 hp
    obtain ⟨r', hr', rfl⟩ := List.mem_map.1 hq
    obtain ⟨hr, hne⟩ := (mem_nonEmptyRows _ _).1 hr
    obtain ⟨hr', hne'⟩ := (mem_nonEmptyRows _ _).1 hr'
    have := h r hr r' hr' hne hne'
    simp [List.length_tail, this]

end LoaderLemmas

section ExtractLemmas

variable {α : Type}

theorem extractPoint_foldl (dataPoint : List α) (indices : List ℕ) (init : List α) :
    indices.foldl (fun (newPoint : DataPoint α) idx =>
      if h : idx < dataPoint.length then newPoint ++ [dataPoint[idx]] else newPoint) init
    = init ++ indices.filterMap (fun idx => dataPoint[idx]?) := by
  induction indices generalizing init with
  | nil => simp
  | cons idx rest ih =>
    rw [List.foldl_cons, ih]
    by_cases h : idx < dataPoint.length
    · simp [h, List.getElem?_eq_getElem h]
    · simp [h, List.getElem?_eq_none (Nat.le_of_not_lt h)]

theorem extractRows_foldl {β : Type} (g : List α → β) (data : DataMatrix α)
    (init : List β) :
    data.foldl (fun result dataPoint => result ++ [g dataPoint]) init
    = init ++ data.map g := by
  induction data generalizing init with
  | nil => simp
  | cons p rest ih => rw [List.foldl_cons, ih]; simp

theorem extractFeatures_eq (data : DataMatrix α) (features : FeatureSet)
    (hdata : data ≠ []) (hfeatures : features ≠ ∅) :
    extractFeatures data features
    = data.map (fun dataPoint => features.toList.filterMap (fun idx => dataPoint[idx]?)) := by
  unfold extractFeatures
  have h1 : data.isEmpty = false := by cases data <;> simp_all
  rw [h1]
  simp only [Bool.false_or, decide_eq_true_eq, if_neg hfeatures]
  rw [extractRows_foldl]
  simp [extractPoint_foldl]

end ExtractLemmas

section ExtractLemmasB

variable {α : Type}

theorem filterMap_getElem?_map_some (p : List α) (l : List ℕ)
    (h : ∀ s ∈ l, s < p.length) :
    (l.filterMap (fun idx => p[idx]?)).map some = l.map (fun idx => p[idx]?) := by
  induction l with
  | nil => simp
  | cons s rest ih =>
    have hs : s < p.length := h s (List.mem_cons_self _ _)
    have hrest := ih (fun t ht => h t (List.mem_cons_of_mem _ ht))
    rw [List.filterMap_cons_some (List.getElem?_eq_getElem hs)]
    simp only [List.map_cons, hrest, List.getElem?_eq_getElem hs]

theorem extractRow_spec (p : List α) (S : FeatureSet) (h : ∀ s ∈ S, s < p.length) :
    (S.toList.filterMap (fun idx => p[idx]?)).length = S.card ∧
    ∀ (j s : ℕ), (S.sort (· ≤ ·))[j]? = some s →
      ∃ v, (S.toList.filterMap (fun idx => p[idx]?))[j]? = some v ∧ p[s]? = some v := by
  have hmap := filterMap_getElem?_map_some p S.toList
    (fun s hs => h s ((Finset.mem_sort _).1 hs))
  refine ⟨?_, ?_⟩
  · have := congrArg List.length hmap
    simpa [FeatureSet.toList] using this
  · intro j s hj
    have hmem : s ∈ S := (Finset.mem_sort (· ≤ ·)).1 (List.getElem?_mem hj)
    have hs : s < p.length := h s hmem
    have hj' : S.toList[j]? = some s := hj
    have h2 := congrArg (fun l => l[j]?) hmap
    simp only [List.getElem?_map, hj', Option.map_some'] at h2
    refine ⟨p[s], ?_, List.getElem?_eq_getElem hs⟩
    cases hx : (S.toList.filterMap (fun idx => p[idx]?))[j]? with
    | none => rw [hx] at h2; simp at h2
    | some v =>
      rw [hx] at h2
      simp only [Option.map_some', Option.some.injEq] at h2
      rw [List.getElem?_eq_getElem hs] at h2
      exact h2 ▸ rfl

end ExtractLemmasB

section ChunkLemmas

variable {α : Type}

theorem getline_rest_length (stream line rest : List ℕ)
    (h : getline stream = some (line, rest)) :
    rest.length < stream.length ∧
    (rest = [] ∨ line.length + 1 + rest.length = stream.length) := by
  cases stream with
  | nil => simp [getline] at h
  | cons c s =>
    simp only [getline, Option.some.injEq, Prod.mk.injEq] at h
    obtain ⟨hline, hrest⟩ := h
    have hsplit := List.takeWhile_append_dropWhile (fun x => x != 10) (c :: s)
    have hlen := congrArg List.length hsplit
    rw [List.length_append, hline] at hlen
    cases hd : List.dropWhile (fun x => x != 10) (c :: s) with
    | nil =>
      rw [hd] at hrest
      simp only [List.tail_nil] at hrest
      subst hrest
      exact ⟨by simp, Or.inl rfl⟩
    | cons x r =>
      rw [hd] at hrest hlen
      simp only [List.tail_cons] at hrest
      subst hrest
      simp only [List.length_cons] at hlen ⊢
      exact ⟨by omega, Or.inr (by omega)⟩

/-- The fuel of `readLines` is sufficient as soon as it is at least the number of unread
bytes: more fuel does not change the result. -/
theorem readLines_fuel (parseRow : List ℕ → List α) (chunkSize : ℕ) (fuel₁ : ℕ) :
    ∀ (fuel₂ bytesRead : ℕ) (stream : List ℕ) (chunkData : List (List α)),
      stream.length ≤ fuel₁ → stream.length ≤ fuel₂ →
      readLines parseRow chunkSize fuel₁ bytesRead stream chunkData
        = readLines parseRow chunkSize fuel₂ bytesRead stream chunkData := by
  induction fuel₁ with
  | zero =>
    intro fuel₂ bytesRead stream chunkData h1 _
    have hs : stream = [] := List.length_eq_zero.1 (Nat.le_zero.1 h1)
    subst hs
    cases fuel₂ with
    | zero => rfl
    | succ f => simp [readLines, getline]
  | succ fuel₁ ih =>
    intro fuel₂ bytesRead stream chunkData h1 h2
    cases hg : getline stream with
    | none =>
      cases fuel₂ with
      | zero => simp [readLines, hg]
      | succ f => simp [readLines, hg]
    | some lr =>
      obtain ⟨line, rest⟩ := lr
      obtain ⟨hlt, _⟩ := getline_rest_length stream line rest hg
      cases fuel₂ with
      | zero => omega
      | succ f =>
        simp only [readLines, hg]
        by_cases hb : bytesRead < chunkSize
        · rw [if_pos hb, if_pos hb]
          exact ih _ _ _ _ (by omega) (by omega)
        · rw [if_neg hb, if_neg hb]

theorem readLines_sequential (parseRow : List ℕ → List α) (chunkSize : ℕ) (fuel : ℕ) :
    ∀ (bytesRead : ℕ) (stream : List ℕ) (chunkData : List (List α)),
      stream.length ≤ fuel → (stream = [] ∨ bytesRead + stream.length ≤ chunkSize) →
      readLines parseRow chunkSize fuel bytesRead stream chunkData
        = chunkData
          ++ ((fileLines fuel stream).map parseRow).filter (fun row => !row.isEmpty) := by
  induction fuel with
  | zero =>
    intro bytesRead stream chunkData h1 _
    simp [readLines, fileLines]
  | succ fuel ih =>
    intro bytesRead stream chunkData h1 h2
    cases stream with
    | nil => simp [readLines, getline, fileLines]
    | cons c s =>
      have hb : bytesRead < chunkSize := by
        rcases h2 with h2 | h2
        · exact absurd h2 (by simp)
        · simp only [List.length_cons] at h2; omega
      have hg : getline (c :: s) = some ((c :: s).takeWhile (· != 10),
          ((c :: s).dropWhile (· != 10)).tail) := rfl
      obtain ⟨hlt, hlen⟩ := getline_rest_length _ _ _ hg
      simp only [readLines, if_pos hb, hg, fileLines]
      rw [ih _ _ _ (by simp only [List.length_cons] at h1 hlt; omega)
        (by rcases hlen with hlen | hlen
            · exact Or.inl hlen
            · rcases h2 with h2 | h2
              · exact absurd h2 (by simp)
              · exact Or.inr (by omega))]
      by_cases hrow : (parseRow ((c :: s).takeWhile (· != 10))).isEmpty = true
      · simp [hrow]
      · simp [hrow]

/-- With a single thread the file is read as one chunk from position 0, and the result is
the sequential parse of the whole file. -/
theorem readFileConcurrent_single (parseRow : List ℕ → List α) (content : List ℕ) :
    readFileConcurrent parseRow 1 content = some (sequentialRows parseRow content) := by
  have h := readLines_sequential parseRow content.length content.length 0 content []
    (le_refl _) (Or.inr (by simp))
  simp [readFileConcurrent, readFileChunk, List.range, List.range.loop, sequentialRows, h]

end ChunkLemmas

section Evaluation

theorem ratSqrt_eq (x : ℚ) (n : ℕ) (h : x = (n : ℚ) * n) : ratSqrt x = n := by
  have h' : x = ((n * n : ℕ) : ℚ) := by rw [h]; push_cast; ring
  rw [h', ratSqrt, Rat.num_natCast, Rat.den_natCast, Int.toNat_natCast, Nat.sqrt_eq]
  simp

theorem doubleMax_gt (n : ℕ) (h : n ≤ 1000) : (n : ℚ) < doubleMax := by
  unfold doubleMax
  have : (n : ℚ) ≤ 1000 := by exact_mod_cast h
  norm_num
  linarith

theorem tieData_dist_lt (j : ℕ) (hj : j < ([[5], [1], [-1], [1]] : DataMatrix ℚ).length) :
    calculateDistance ratSqrt [0] ([[5], [1], [-1], [1]] : DataMatrix ℚ)[j] ∅ < doubleMax := by
  simp only [List.length_cons, List.length_nil] at hj
  interval_cases j
  · simp [calculateDistance, allStep, List.finRange]
    rw [ratSqrt_eq _ 5 (by norm_num)]
    exact doubleMax_gt 5 (by norm_num)
  · simp [calculateDistance, allStep, List.finRange]
    rw [ratSqrt_eq _ 1 (by norm_num)]
    exact doubleMax_gt 1 (by norm_num)
  · simp [calculateDistance, allStep, List.finRange]
    rw [ratSqrt_eq _ 1 (by norm_num)]
    exact doubleMax_gt 1 (by norm_num)
  · simp [calculateDistance, allStep, List.finRange]
    rw [ratSqrt_eq _ 1 (by norm_num)]
    exact doubleMax_gt 1 (by norm_num)

theorem calculateDistance_example_all : calculateDistance ratSqrt [0, 0] [3, 4] ∅ = 5 := by
  simp [calculateDistance, allStep, List.finRange]
  exact ratSqrt_eq _ 5 (by norm_num)

theorem calculateDistance_example_skip :
    calculateDistance ratSqrt [0, 0] [3, 4] {1, 7} = 4 := by
  rw [calculateDistance_eq_sum]
  have h : effectiveIndices ([0, 0] : DataPoint ℚ) [3, 4] {1, 7} = {1} := by
    unfold effectiveIndices
    rw [if_pos (by simp)]
    decide
  rw [h]
  simp [sqDiff]
  exact ratSqrt_eq _ 4 (by norm_num)

theorem findNearestNeighbor_example_tie :
    findNearestNeighbor ratSqrt doubleMax [[5], [1], [-1], [1]] [0] 0 ∅ = 1 := by
  have h1 : ratSqrt 1 = 1 := by simpa using ratSqrt_eq 1 1 (by norm_num)
  have hm : (1 : ℚ) < doubleMax := by simpa using doubleMax_gt 1 (by norm_num)
  simp [findNearestNeighbor, findNearestLoop, calculateDistance, allStep, List.finRange, h1, hm]

theorem findNearestNeighbor_example_single :
    findNearestNeighbor ratSqrt doubleMax [[5]] [5] 0 ∅ = 0 := by
  simp [findNearestNeighbor, findNearestLoop]

theorem leaveOneOutCrossValidation_example :
    leaveOneOutCrossValidation ratSqrt doubleMax [[0], [1], [5]] [1, 1, 2] ∅ false
      = some (2 / 3) := by
  have h0 : ratSqrt 0 = 0 := by simpa using ratSqrt_eq 0 0 (by norm_num)
  have h1 : ratSqrt 1 = 1 := by simpa using ratSqrt_eq 1 1 (by norm_num)
  have h4 : ratSqrt 16 = 4 := by simpa using ratSqrt_eq 16 4 (by norm_num)
  have h5 : ratSqrt 25 = 5 := by simpa using ratSqrt_eq 25 5 (by norm_num)
  have hm1 : (1 : ℚ) < doubleMax := by simpa using doubleMax_gt 1 (by norm_num)
  have hm4 : (4 : ℚ) < doubleMax := by simpa using doubleMax_gt 4 (by norm_num)
  have hm5 : (5 : ℚ) < doubleMax := by simpa using doubleMax_gt 5 (by norm_num)
  simp [leaveOneOutCrossValidation, loocvLoop, List.range, List.range.loop,
    findNearestNeighbor, findNearestLoop, calculateDistance, allStep, List.finRange]
  norm_num [h0, h1, h4, h5, hm1, hm4, hm5]

end Evaluation

section RaceEvaluation

theorem nineFeatures_accuracy (S : FeatureSet) :
    loocvAccuracy ratSqrt doubleMax
      [[0, 0, 0, 0, 0, 0, 0, 0, 0], [1, 1, 1, 1, 1, 1, 1, 1, 1]] [1, 1] S = 1 :=
  loocvAccuracy_const ratSqrt doubleMax _ [1, 1] S 1 (by simp) (by simp) (by simp)

theorem nineFeatures_forwardLevel :
    forwardLevel List.reverse ratSqrt doubleMax
        [[0, 0, 0, 0, 0, 0, 0, 0, 0], [1, 1, 1, 1, 1, 1, 1, 1, 1]] [1, 1] 9
        ⟨∅, ⟨∅, 1, [(∅, 1)]⟩⟩
      = some (LevelStep.next ⟨{8}, ⟨∅, 1, [(∅, 1), ({8}, 1)]⟩⟩) := by
  rw [forwardLevel, if_neg (by simp), forwardCandidates_eq]
  simp [List.range, List.range.loop, forwardCandidate, nineFeatures_accuracy, forwardBestStep]

end RaceEvaluation

section RaceEvaluationBackward

theorem nineFeatures_erase_ne (f : ℕ) : (Finset.range 9).erase f ≠ ∅ := by
  intro h
  have h0 : 0 ∈ (Finset.range 9).erase f ∨ 1 ∈ (Finset.range 9).erase f := by
    by_cases hf : f = 0
    · right; subst hf; decide
    · left; exact Finset.mem_erase.mpr ⟨fun h => hf h.symm, by decide⟩
  rw [h] at h0
  simp at h0

theorem nineFeatures_backwardLevel :
    backwardLevel List.reverse ratSqrt doubleMax
        [[0, 0, 0, 0, 0, 0, 0, 0, 0], [1, 1, 1, 1, 1, 1, 1, 1, 1]] [1, 1]
        ⟨Finset.range 9, List.range 9, ⟨Finset.range 9, 1, [(Finset.range 9, 1)]⟩⟩
      = some (LevelStep.next ⟨(Finset.range 9).erase 8, List.range 8,
          ⟨Finset.range 9, 1, [(Finset.range 9, 1), ((Finset.range 9).erase 8, 1)]⟩⟩) := by
  rw [backwardLevel, backwardCandidates_eq]
  simp [List.range, List.range.loop, backwardCandidate, nineFeatures_accuracy,
    backwardBestStep, nineFeatures_erase_ne]

end RaceEvaluationBackward

section RaceEvaluationSequential

theorem nineFeatures_backwardLevel_sequential :
    backwardLevel id ratSqrt doubleMax
        [[0, 0, 0, 0, 0, 0, 0, 0, 0], [1, 1, 1, 1, 1, 1, 1, 1, 1]] [1, 1]
        ⟨Finset.range 9, List.range 9, ⟨Finset.range 9, 1, [(Finset.range 9, 1)]⟩⟩
      = some (LevelStep.next ⟨(Finset.range 9).erase 0, [1, 2, 3, 4, 5, 6, 7, 8],
          ⟨Finset.range 9, 1, [(Finset.range 9, 1), ((Finset.range 9).erase 0, 1)]⟩⟩) := by
  rw [backwardLevel, backwardCandidates_eq]
  simp [List.range, List.range.loop, backwardCandidate, nineFeatures_accuracy,
    backwardBestStep, nineFeatures_erase_ne]

end RaceEvaluationSequential

section ScenarioEvaluation

theorem twoPoints_accuracy (S : FeatureSet) :
    loocvAccuracy ratSqrt doubleMax [[0], [1]] [1, 1] S = 1 :=
  loocvAccuracy_const ratSqrt doubleMax _ [1, 1] S 1 (by simp) (by simp) (by simp)

theorem twoPoints_forwardSelection :
    forwardSelection id ratSqrt doubleMax [[0], [1]] [1, 1] false
      = some ⟨∅, 1, [(∅, 1), ({0}, 1)]⟩ := by
  unfold forwardSelection
  simp only [loocv_eq_accuracy, twoPoints_accuracy, numFeaturesOf, List.length_cons,
    List.length_nil, forwardLoop]
  rw [forwardLevel, if_neg (by simp), forwardCandidates_eq]
  simp [List.range, List.range.loop, forwardCandidate, twoPoints_accuracy, forwardBestStep]

theorem scenario_accuracy :
    leaveOneOutCrossValidation ratSqrt doubleMax [[0, 5], [1, 0], [10, 6], [11, 1]]
      [1, 1, 2, 2] {0} false = some 1 := by
  have h1 : ratSqrt 1 = 1 := by simpa using ratSqrt_eq 1 1 (by norm_num)
  have h9 : ratSqrt 81 = 9 := by simpa using ratSqrt_eq 81 9 (by norm_num)
  have h10 : ratSqrt 100 = 10 := by simpa using ratSqrt_eq 100 10 (by norm_num)
  have h11 : ratSqrt 121 = 11 := by simpa using ratSqrt_eq 121 11 (by norm_num)
  have hm1 : (1 : ℚ) < doubleMax := by simpa using doubleMax_gt 1 (by norm_num)
  have hm9 : (9 : ℚ) < doubleMax := by simpa using doubleMax_gt 9 (by norm_num)
  have hm10 : (10 : ℚ) < doubleMax := by simpa using doubleMax_gt 10 (by norm_num)
  have hm11 : (11 : ℚ) < doubleMax := by simpa using doubleMax_gt 11 (by norm_num)
  simp [leaveOneOutCrossValidation, loocvLoop, List.range, List.range.loop,
    findNearestNeighbor, findNearestLoop, calculateDistance, FeatureSet.toList, subsetStep]
  norm_num [h1, h9, h10, h11, hm1, hm9, hm10, hm11]

theorem nineFeatures_second_entry :
    ∃ result, forwardSelection List.reverse ratSqrt doubleMax
        [[0, 0, 0, 0, 0, 0, 0, 0, 0], [1, 1, 1, 1, 1, 1, 1, 1, 1]] [1, 1] false
        = some result ∧
      result.allResults[1]? = some ({8}, 1) := by
  obtain ⟨st', tail, hloop, htail⟩ :=
    forwardLoop_first_level List.reverse ratSqrt doubleMax
      [[0, 0, 0, 0, 0, 0, 0, 0, 0], [1, 1, 1, 1, 1, 1, 1, 1, 1]] [1, 1] 9 8 _ _
      nineFeatures_forwardLevel (by simp)
  have hloop' : forwardLoop List.reverse ratSqrt doubleMax
      [[0, 0, 0, 0, 0, 0, 0, 0, 0], [1, 1, 1, 1, 1, 1, 1, 1, 1]] [1, 1] 9 9
      ⟨∅, ⟨∅, 1, [(∅, 1)]⟩⟩ = some st' := hloop
  have hnf : numFeaturesOf
      ([[0, 0, 0, 0, 0, 0, 0, 0, 0], [1, 1, 1, 1, 1, 1, 1, 1, 1]] : DataMatrix ℚ) = 9 := rfl
  refine ⟨st'.result, ?_, ?_⟩
  · unfold forwardSelection
    simp only [loocv_eq_accuracy, nineFeatures_accuracy, hnf, hloop']
  · rw [htail]
    simp

end ScenarioEvaluation

section NearestFallback
variable {α : Type} [LinearOrderedField α]

/-- When no scanned instance is closer than the initial `minDistance`, the function
returns its initial `nearestIndex`, 0. -/
theorem findNearestNeighbor_fallback (sqrt : α → α) (dblMax : α) (data : DataMatrix α)
    (point : DataPoint α) (excl : ℕ) (S : FeatureSet)
    (hall : ∀ j p, data[j]? = some p → j ≠ excl →
      ¬ calculateDistance sqrt point p S < dblMax) :
    findNearestNeighbor sqrt dblMax data point excl S = 0 := by
  unfold findNearestNeighbor
  rcases findNearestLoop_cases sqrt point excl S data 0 dblMax 0 with
    ⟨hr, _⟩ | ⟨k, p, hk, _, hne, hlt, _⟩
  · exact hr
  · exact absurd hlt (hall k p hk (by simpa using hne))

end NearestFallback

section OverflowEvaluation

theorem doubleMax_eq_natCast : doubleMax = (((2 ^ 53 - 1) * 2 ^ 971 : ℕ) : ℚ) := by
  unfold doubleMax
  norm_num

theorem doubleMax_distance :
    calculateDistance ratSqrt [0] [doubleMax] ∅ = doubleMax := by
  have h : ratSqrt (doubleMax * doubleMax) = doubleMax := by
    rw [ratSqrt_eq (doubleMax * doubleMax) ((2 ^ 53 - 1) * 2 ^ 971)
      (by rw [← doubleMax_eq_natCast])]
    exact doubleMax_eq_natCast.symm
  simp [calculateDistance, allStep, List.finRange, h]

theorem doubleMax_fallback (rest : DataMatrix ℚ) (hrest : ∀ p ∈ rest, p = [doubleMax]) :
    findNearestNeighbor ratSqrt doubleMax ([0] :: rest) [0] 0 ∅ = 0 := by
  apply findNearestNeighbor_fallback
  intro j p hj hne
  cases j with
  | zero => exact absurd rfl hne
  | succ j =>
    rw [List.getElem?_cons_succ] at hj
    rw [hrest p (List.getElem?_mem hj), doubleMax_distance]
    exact lt_irrefl _

end OverflowEvaluation
section RaceEvaluationTwoThreads

theorem secondFirst_perm {β : Type} (l : List β) : (secondFirst l).Perm l := by
  cases l with
  | nil => exact List.Perm.refl _
  | cons a rest =>
    cases rest with
    | nil => exact List.Perm.refl _
    | cons b others => exact List.Perm.swap a b others

theorem nineFeatures_forwardLevel_secondFirst :
    forwardLevel secondFirst ratSqrt doubleMax
        [[0, 0, 0, 0, 0, 0, 0, 0, 0], [1, 1, 1, 1, 1, 1, 1, 1, 1]] [1, 1] 9
        ⟨∅, ⟨∅, 1, [(∅, 1)]⟩⟩
      = some (LevelStep.next ⟨{1}, ⟨∅, 1, [(∅, 1), ({1}, 1)]⟩⟩) := by
  rw [forwardLevel, if_neg (by simp), forwardCandidates_eq]
  simp [List.range, List.range.loop, forwardCandidate, nineFeatures_accuracy, forwardBestStep,
    secondFirst]

theorem nineFeatures_backwardLevel_secondFirst :
    backwardLevel secondFirst ratSqrt doubleMax
        [[0, 0, 0, 0, 0, 0, 0, 0, 0], [1, 1, 1, 1, 1, 1, 1, 1, 1]] [1, 1]
        ⟨Finset.range 9, List.range 9, ⟨Finset.range 9, 1, [(Finset.range 9, 1)]⟩⟩
      = some (LevelStep.next ⟨(Finset.range 9).erase 1, [0, 2, 3, 4, 5, 6, 7, 8],
          ⟨Finset.range 9, 1, [(Finset.range 9, 1), ((Finset.range 9).erase 1, 1)]⟩⟩) := by
  rw [backwardLevel, backwardCandidates_eq]
  simp [List.range, List.range.loop, backwardCandidate, nineFeatures_accuracy,
    backwardBestStep, nineFeatures_erase_ne, secondFirst]

theorem nineFeatures_second_entry_secondFirst :
    ∃ result, forwardSelection secondFirst ratSqrt doubleMax
        [[0, 0, 0, 0, 0, 0, 0, 0, 0], [1, 1, 1, 1, 1, 1, 1, 1, 1]] [1, 1] false
        = some result ∧
      result.allResults[1]? = some ({1}, 1) := by
  obtain ⟨st', tail, hloop, htail⟩ :=
    forwardLoop_first_level secondFirst ratSqrt doubleMax
      [[0, 0, 0, 0, 0, 0, 0, 0, 0], [1, 1, 1, 1, 1, 1, 1, 1, 1]] [1, 1] 9 8 _ _
      nineFeatures_forwardLevel_secondFirst (by simp)
  have hloop' : forwardLoop secondFirst ratSqrt doubleMax
      [[0, 0, 0, 0, 0, 0, 0, 0, 0], [1, 1, 1, 1, 1, 1, 1, 1, 1]] [1, 1] 9 9
      ⟨∅, ⟨∅, 1, [(∅, 1)]⟩⟩ = some st' := hloop
  have hnf : numFeaturesOf
      ([[0, 0, 0, 0, 0, 0, 0, 0, 0], [1, 1, 1, 1, 1, 1, 1, 1, 1]] : DataMatrix ℚ) = 9 := rfl
  refine ⟨st'.result, ?_, ?_⟩
  · unfold forwardSelection
    simp only [loocv_eq_accuracy, nineFeatures_accuracy, hnf, hloop']
  · rw [htail]
    simp

end RaceEvaluationTwoThreads

section Claims
variable {α : Type} [LinearOrderedField α]

/-- C1: `calculateDistance(a, b, S)` is the square root of the sum of `(a[i]-b[i])^2` over
the effective index set: the indices of `S` valid for both points when `S` is non-empty
(the others contribute nothing, and the function is total), every index below
`min(len(a), len(b))` when `S` is empty. -/
theorem calculateDistance_spec (sqrt : α → α) (a b : DataPoint α) (S : FeatureSet) :
    calculateDistance sqrt a b S
      = sqrt (∑ i ∈ effectiveIndices a b S, (a.getD i 0 - b.getD i 0) ^ 2) :=
  calculateDistance_eq_sum sqrt a b S

/-- C2: for points `a` and `b` of the same length `n`, the distance under the empty subset
equals the distance under `{0, ..., n-1}`. -/
theorem calculateDistance_empty_eq_all (sqrt : α → α) (a b : DataPoint α) (n : ℕ)
    (ha : a.length = n) (hb : b.length = n) :
    calculateDistance sqrt a b ∅ = calculateDistance sqrt a b (Finset.range n) :=
  (calculateDistance_range sqrt a b n (by rw [ha, hb, min_self])).symm

theorem calculateDistance_empty_eq_all_witness :
    ([0, 0] : List ℚ).length = 2 ∧ ([3, 4] : List ℚ).length = 2 ∧
      calculateDistance ratSqrt [0, 0] [3, 4] ∅
        = calculateDistance ratSqrt [0, 0] [3, 4] (Finset.range 2) :=
  ⟨rfl, rfl, calculateDistance_empty_eq_all ratSqrt [0, 0] [3, 4] 2 rfl rfl⟩

/-- C4 fails in the code: when no scanned instance is closer than the initial
`minDistance = DBL_MAX`, `findNearestNeighbor` returns its initial `nearestIndex = 0`,
whether or not index 0 is excluded.  For the query `[0]`, the instances `[0]`,
`[DBL_MAX]`, `[DBL_MAX]` and `excludeIndex = 0`, the two non-excluded instances are at
the same distance, which is not below `DBL_MAX` (in `double` arithmetic the squared
difference overflows and the distance is `+inf`); the function returns 0, the excluded
index, and not 1, the smallest non-excluded index at the minimum distance. -/
theorem findNearestNeighbor_first_minimum_fails :
    findNearestNeighbor ratSqrt doubleMax [[0], [doubleMax], [doubleMax]] [0] 0 ∅ = 0 ∧
      ¬ calculateDistance ratSqrt [0] [doubleMax] ∅ < doubleMax :=
  ⟨doubleMax_fallback [[doubleMax], [doubleMax]] (by simp),
    by rw [doubleMax_distance]; exact lt_irrefl _⟩

/-- C5 fails in the code: for the two instances `[0]` and `[DBL_MAX]`, `excludeIndex = 0`
and the query `data[0]`, the only other instance is not closer than the initial
`minDistance = DBL_MAX` (its exact distance is `DBL_MAX`; in `double` arithmetic the
squared difference overflows and the distance is `+inf`), so `findNearestNeighbor`
returns its initial `nearestIndex = 0`, which is the excluded index. -/
theorem findNearestNeighbor_returns_excluded :
    2 ≤ ([[0], [doubleMax]] : DataMatrix ℚ).length ∧
      findNearestNeighbor ratSqrt doubleMax [[0], [doubleMax]]
        ([[0], [doubleMax]] : DataMatrix ℚ)[0] 0 ∅ = 0 :=
  ⟨by decide, doubleMax_fallback [[doubleMax]] (by simp)⟩

/-- C7: `leaveOneOutCrossValidation` returns exactly `0.0`, and does not fail, whenever
`data` is empty, `labels` is empty or the two sizes differ, for every feature subset and
either value of `verbose`. -/
theorem leaveOneOutCrossValidation_degenerate (sqrt : α → α) (dblMax : α)
    (data : DataMatrix α) (labels : LabelVector) (S : FeatureSet) (verbose : Bool)
    (h : data = [] ∨ labels = [] ∨ data.length ≠ labels.length) :
    leaveOneOutCrossValidation sqrt dblMax data labels S verbose = some 0 := by
  rw [loocv_eq_accuracy, loocvAccuracy, if_pos h]

theorem leaveOneOutCrossValidation_degenerate_witness :
    leaveOneOutCrossValidation ratSqrt doubleMax [[0], [1], [5]] [1, 1] {0} true = some 0 :=
  leaveOneOutCrossValidation_degenerate ratSqrt doubleMax [[0], [1], [5]] [1, 1] {0} true
    (Or.inr (Or.inr (by decide)))

/-- C9: the empty feature set means "use all features": when every data point has length
`m`, `leaveOneOutCrossValidation` returns the same value under `{}` and under
`{0, ..., m-1}`, and `findNearestNeighbor` returns the same index under both, for every
query point and excluded index. -/
theorem empty_subset_means_all (sqrt : α → α) (dblMax : α) (data : DataMatrix α)
    (labels : LabelVector) (m : ℕ) (verbose : Bool) (hm : ∀ p ∈ data, p.length = m) :
    leaveOneOutCrossValidation sqrt dblMax data labels ∅ verbose
        = leaveOneOutCrossValidation sqrt dblMax data labels (Finset.range m) verbose ∧
      ∀ (point : DataPoint α) (excludeIndex : ℕ),
        findNearestNeighbor sqrt dblMax data point excludeIndex ∅
          = findNearestNeighbor sqrt dblMax data point excludeIndex (Finset.range m) := by
  have hnn := findNearestNeighbor_range sqrt dblMax data m hm
  refine ⟨?_, hnn⟩
  simp only [leaveOneOutCrossValidation,
    loocvLoop_congr sqrt dblMax data labels ∅ (Finset.range m) hnn]

theorem empty_subset_means_all_witness :
    leaveOneOutCrossValidation ratSqrt doubleMax [[0, 5], [1, 0], [10, 6]] [1, 1, 2] ∅ false
        = leaveOneOutCrossValidation ratSqrt doubleMax [[0, 5], [1, 0], [10, 6]] [1, 1, 2]
            (Finset.range 2) false ∧
      ∀ (point : DataPoint ℚ) (excludeIndex : ℕ),
        findNearestNeighbor ratSqrt doubleMax [[0, 5], [1, 0], [10, 6]] point excludeIndex ∅
          = findNearestNeighbor ratSqrt doubleMax [[0, 5], [1, 0], [10, 6]] point excludeIndex
              (Finset.range 2) :=
  empty_subset_means_all ratSqrt doubleMax [[0, 5], [1, 0], [10, 6]] [1, 1, 2] 2 false
    (by simp)

/-- C10: `forwardSelection` returns a result whose first history entry is the pair (empty
set, `leaveOneOutCrossValidation(data, labels, {})`); a level either leaves the loop
without touching the history or selects a winner and appends exactly one entry; and the
history length is 1 plus the number of levels that selected a winner.  This holds for
every order in which a parallel candidate loop pushes its results. -/
theorem forwardSelection_history
    (arrival : List (CandidateResult α) → List (CandidateResult α))
    (sqrt : α → α) (dblMax : α) (data : DataMatrix α) (labels : LabelVector)
    (verbose : Bool) :
    ∃ result baseline,
      forwardSelection arrival sqrt dblMax data labels verbose = some result ∧
      leaveOneOutCrossValidation sqrt dblMax data labels ∅ false = some baseline ∧
      result.allResults.head? = some (∅, baseline) ∧
      (∀ st step, forwardLevel arrival sqrt dblMax data labels (numFeaturesOf data) st
            = some step →
          step = LevelStep.exit ∨
            ∃ st' entry, step = LevelStep.next st' ∧
              st'.result.allResults = st.result.allResults ++ [entry]) ∧
      result.allResults.length
        = 1 + forwardLevelsRun arrival sqrt dblMax data labels (numFeaturesOf data)
            (numFeaturesOf data) ⟨∅, ⟨∅, baseline, [(∅, baseline)]⟩⟩ := by
  obtain ⟨st', hloop, tail, htail, hlen⟩ :=
    forwardLoop_history arrival sqrt dblMax data labels (numFeaturesOf data)
      (numFeaturesOf data)
      ⟨∅, ⟨∅, loocvAccuracy sqrt dblMax data labels ∅,
        [(∅, loocvAccuracy sqrt dblMax data labels ∅)]⟩⟩ (by simp)
  refine ⟨st'.result, loocvAccuracy sqrt dblMax data labels ∅, ?_,
    loocv_eq_accuracy _ _ _ _ _ _, ?_, ?_, ?_⟩
  · unfold forwardSelection
    simp only [loocv_eq_accuracy, hloop]
  · rw [htail]
    rfl
  · exact forwardLevel_step arrival sqrt dblMax data labels (numFeaturesOf data)
  · rw [htail, List.length_append, hlen]
    rfl

/-- C11 fails in the code: with nine features and two instances of one class every
candidate of the first level has accuracy 1, and the feature added is the one whose result
is pushed first by the parallel candidate loop.  When the result of feature 1 is pushed
before that of feature 0 the level adds feature 1, and when the results are pushed in
descending order it adds feature 8, although feature 0 is not in the set and has the same
maximal candidate accuracy. -/
theorem forwardSelection_lowest_index_fails :
    (∃ st', forwardLevel secondFirst ratSqrt doubleMax
        [[0, 0, 0, 0, 0, 0, 0, 0, 0], [1, 1, 1, 1, 1, 1, 1, 1, 1]] [1, 1] 9
        ⟨∅, ⟨∅, 1, [(∅, 1)]⟩⟩ = some (LevelStep.next st') ∧
      st'.currentSet = insert 1 ∅) ∧
    (∃ st', forwardLevel List.reverse ratSqrt doubleMax
        [[0, 0, 0, 0, 0, 0, 0, 0, 0], [1, 1, 1, 1, 1, 1, 1, 1, 1]] [1, 1] 9
        ⟨∅, ⟨∅, 1, [(∅, 1)]⟩⟩ = some (LevelStep.next st') ∧
      st'.currentSet = insert 8 ∅) ∧
    (∀ f, leaveOneOutCrossValidation ratSqrt doubleMax
        [[0, 0, 0, 0, 0, 0, 0, 0, 0], [1, 1, 1, 1, 1, 1, 1, 1, 1]] [1, 1] (insert f ∅) false
        = some 1) :=
  ⟨⟨_, nineFeatures_forwardLevel_secondFirst, by simp⟩,
    ⟨_, nineFeatures_forwardLevel, by simp⟩,
    fun f => by rw [loocv_eq_accuracy, nineFeatures_accuracy]⟩

/-- C12 fails in the code: with nine features and two instances of one class every
candidate of the first level of `backwardElimination` has accuracy 1, and the feature
removed is the one whose result is pushed first by the parallel candidate loop.  When the
result of feature 1 is pushed before that of feature 0 the level removes feature 1, and
when the results are pushed in reverse order it removes feature 8, although feature 0
appears earlier in `allFeatures` and has the same maximal candidate accuracy. -/
theorem backwardElimination_earliest_fails :
    (∃ st', backwardLevel secondFirst ratSqrt doubleMax
        [[0, 0, 0, 0, 0, 0, 0, 0, 0], [1, 1, 1, 1, 1, 1, 1, 1, 1]] [1, 1]
        ⟨Finset.range 9, List.range 9, ⟨Finset.range 9, 1, [(Finset.range 9, 1)]⟩⟩
        = some (LevelStep.next st') ∧
      st'.currentSet = (Finset.range 9).erase 1) ∧
    (∃ st', backwardLevel List.reverse ratSqrt doubleMax
        [[0, 0, 0, 0, 0, 0, 0, 0, 0], [1, 1, 1, 1, 1, 1, 1, 1, 1]] [1, 1]
        ⟨Finset.range 9, List.range 9, ⟨Finset.range 9, 1, [(Finset.range 9, 1)]⟩⟩
        = some (LevelStep.next st') ∧
      st'.currentSet = (Finset.range 9).erase 8) ∧
    (∀ f, leaveOneOutCrossValidation ratSqrt doubleMax
        [[0, 0, 0, 0, 0, 0, 0, 0, 0], [1, 1, 1, 1, 1, 1, 1, 1, 1]] [1, 1]
        ((Finset.range 9).erase f) false = some 1) :=
  ⟨⟨_, nineFeatures_backwardLevel_secondFirst, rfl⟩,
    ⟨_, nineFeatures_backwardLevel, rfl⟩,
    fun f => by rw [loocv_eq_accuracy, nineFeatures_accuracy]⟩

/-- C13: for `forwardSelection` and for `backwardElimination`, the returned
`bestAccuracy` is at least the accuracy of every history entry, and the pair
(`bestFeatureSet`, `bestAccuracy`) is the earliest history entry whose accuracy equals
`bestAccuracy`: it occurs in the history and no entry before it has that accuracy. -/
theorem best_is_earliest_maximum
    (arrival : List (CandidateResult α) → List (CandidateResult α))
    (sqrt : α → α) (dblMax : α) (data : DataMatrix α) (labels : LabelVector)
    (verbose : Bool) :
    (∃ result, forwardSelection arrival sqrt dblMax data labels verbose = some result ∧
      (∀ e ∈ result.allResults, e.2 ≤ result.bestAccuracy) ∧
      ∃ k, result.allResults[k]? = some (result.bestFeatureSet, result.bestAccuracy) ∧
        ∀ (j : ℕ) (e : FeatureSet × α), j < k → result.allResults[j]? = some e →
          e.2 ≠ result.bestAccuracy) ∧
    ∃ result, backwardElimination arrival sqrt dblMax data labels verbose = some result ∧
      (∀ e ∈ result.allResults, e.2 ≤ result.bestAccuracy) ∧
      ∃ k, result.allResults[k]? = some (result.bestFeatureSet, result.bestAccuracy) ∧
        ∀ (j : ℕ) (e : FeatureSet × α), j < k → result.allResults[j]? = some e →
          e.2 ≠ result.bestAccuracy := by
  constructor
  · obtain ⟨st, _, hrun, hbest, _⟩ :=
      forwardSelection_run arrival sqrt dblMax data labels verbose
    obtain ⟨k, hk, hfirst⟩ := bestIsFirstMax_index st.result hbest
    exact ⟨st.result, hrun, bestIsFirstMax_le st.result hbest, k, hk,
      fun j e hj he => ne_of_lt (hfirst j e hj he)⟩
  · obtain ⟨_, result, _, _, hrun, hbest, _⟩ :=
      backwardElimination_run arrival sqrt dblMax data labels verbose
    obtain ⟨k, hk, hfirst⟩ := bestIsFirstMax_index result hbest
    exact ⟨result, hrun, bestIsFirstMax_le result hbest, k, hk,
      fun j e hj he => ne_of_lt (hfirst j e hj he)⟩

/-- C14 (counterexample): for the data `[[0], [1]]` with labels `[1, 1]` the baseline
accuracy is 1 and the only candidate of the first level, `{0}`, has accuracy 1, which is
not greater; `forwardSelection` nevertheless appends `({0}, 1)` and returns a history of
`numFeatures + 1 = 2` entries. -/
theorem forwardSelection_early_stop_fails :
    leaveOneOutCrossValidation ratSqrt doubleMax [[0], [1]] [1, 1] ∅ false = some 1 ∧
      leaveOneOutCrossValidation ratSqrt doubleMax [[0], [1]] [1, 1] (insert 0 ∅) false
        = some 1 ∧
      forwardSelection id ratSqrt doubleMax [[0], [1]] [1, 1] false
        = some ⟨∅, 1, [(∅, 1), ({0}, 1)]⟩ :=
  ⟨by rw [loocv_eq_accuracy, twoPoints_accuracy],
    by rw [loocv_eq_accuracy, twoPoints_accuracy], twoPoints_forwardSelection⟩

/-- C14 (amended): when the pushed candidate results are a permutation of the candidates,
a level of `forwardSelection` leaves the loop exactly when it has no candidate (every
feature index below `numFeatures` is in the current set); a level that has a candidate
selects a winner and appends one history entry, whether or not the winner improves on the
accuracy recorded for the current set; and the returned history has exactly
`numFeatures + 1` entries. -/
theorem forwardSelection_stops_only_without_candidate
    (arrival : List (CandidateResult α) → List (CandidateResult α))
    (sqrt : α → α) (dblMax : α) (data : DataMatrix α) (labels : LabelVector)
    (verbose : Bool) (harr : ∀ l, (arrival l).Perm l) :
    (∀ st : ForwardState α, st.currentSet.card ≤ numFeaturesOf data →
      (forwardLevel arrival sqrt dblMax data labels (numFeaturesOf data) st
          = some LevelStep.exit
        ↔ ∀ f, f < numFeaturesOf data → f ∈ st.currentSet)) ∧
    (∀ st : ForwardState α, st.currentSet.card ≤ numFeaturesOf data →
      (∃ f, f < numFeaturesOf data ∧ f ∉ st.currentSet) →
      ∃ st' entry, forwardLevel arrival sqrt dblMax data labels (numFeaturesOf data) st
          = some (LevelStep.next st') ∧
        st'.result.allResults = st.result.allResults ++ [entry]) ∧
    ∃ result, forwardSelection arrival sqrt dblMax data labels verbose = some result ∧
      result.allResults.length = numFeaturesOf data + 1 := by
  refine ⟨fun st hcard => forwardLevel_exit_iff arrival sqrt dblMax data labels _ st hcard harr,
    fun st hcard hex => ?_, ?_⟩
  · obtain ⟨f, _, _, hnext⟩ :=
      forwardLevel_perm arrival sqrt dblMax data labels _ st hcard harr hex
    exact ⟨_, _, hnext, rfl⟩
  · obtain ⟨st', hloop, hlen⟩ :=
      forwardLoop_full arrival sqrt dblMax data labels (numFeaturesOf data) harr
        (numFeaturesOf data)
        ⟨∅, ⟨∅, loocvAccuracy sqrt dblMax data labels ∅,
          [(∅, loocvAccuracy sqrt dblMax data labels ∅)]⟩⟩ (by simp)
    refine ⟨st'.result, ?_, ?_⟩
    · unfold forwardSelection
      simp only [loocv_eq_accuracy, hloop]
    · rw [hlen]
      simp
      omega

theorem forwardSelection_stops_only_without_candidate_witness :
    ∃ result, forwardSelection id ratSqrt doubleMax [[0, 5], [1, 0]] [1, 1] false
        = some result ∧
      result.allResults.length = numFeaturesOf ([[0, 5], [1, 0]] : DataMatrix ℚ) + 1 :=
  (forwardSelection_stops_only_without_candidate id ratSqrt doubleMax [[0, 5], [1, 0]]
    [1, 1] false (fun l => List.Perm.refl l)).2.2

/-- C15: for a dataset whose data points have 0 features (empty data included),
`forwardSelection` returns a result whose best feature set is empty and whose history has
exactly one entry, the empty-set baseline. -/
theorem forwardSelection_no_features
    (arrival : List (CandidateResult α) → List (CandidateResult α))
    (sqrt : α → α) (dblMax : α) (data : DataMatrix α) (labels : LabelVector)
    (verbose : Bool) (h : ∀ p ∈ data, p.length = 0) :
    ∃ baseline, leaveOneOutCrossValidation sqrt dblMax data labels ∅ false = some baseline ∧
      forwardSelection arrival sqrt dblMax data labels verbose
        = some ⟨∅, baseline, [(∅, baseline)]⟩ := by
  refine ⟨loocvAccuracy sqrt dblMax data labels ∅, loocv_eq_accuracy _ _ _ _ _ _, ?_⟩
  unfold forwardSelection
  simp only [loocv_eq_accuracy, numFeaturesOf_eq_zero data h, forwardLoop]

theorem forwardSelection_no_features_witness :
    ∃ baseline : ℚ,
      leaveOneOutCrossValidation ratSqrt doubleMax [[], []] [1, 2] ∅ false = some baseline ∧
      forwardSelection id ratSqrt doubleMax [[], []] [1, 2] true
        = some ⟨∅, baseline, [(∅, baseline)]⟩ :=
  forwardSelection_no_features id ratSqrt doubleMax [[], []] [1, 2] true (by simp)

/-- C16 fails in the code: on the dataset with nine features and two instances of one
class, `leaveOneOutCrossValidation(data, labels, {0})` is 1.0, but the second history
entry of `forwardSelection` is `({1}, 1)` when the result of feature 1 is pushed before
that of feature 0 by the parallel candidate loop, and `({8}, 1)` when the results are
pushed in descending order.  On the scenario of the specification, which has two features
and a sequential candidate loop, the second entry is `({0}, 1)` for every push order. -/
theorem forwardSelection_level_one_fails :
    1 ≤ numFeaturesOf
        ([[0, 0, 0, 0, 0, 0, 0, 0, 0], [1, 1, 1, 1, 1, 1, 1, 1, 1]] : DataMatrix ℚ) ∧
      leaveOneOutCrossValidation ratSqrt doubleMax
        [[0, 0, 0, 0, 0, 0, 0, 0, 0], [1, 1, 1, 1, 1, 1, 1, 1, 1]] [1, 1] {0} false
        = some 1 ∧
      (∃ result, forwardSelection secondFirst ratSqrt doubleMax
          [[0, 0, 0, 0, 0, 0, 0, 0, 0], [1, 1, 1, 1, 1, 1, 1, 1, 1]] [1, 1] false
          = some result ∧
        result.allResults[1]? = some ({1}, 1)) ∧
      (∃ result, forwardSelection List.reverse ratSqrt doubleMax
          [[0, 0, 0, 0, 0, 0, 0, 0, 0], [1, 1, 1, 1, 1, 1, 1, 1, 1]] [1, 1] false
          = some result ∧
        result.allResults[1]? = some ({8}, 1)) ∧
      ∀ arrival : List (CandidateResult ℚ) → List (CandidateResult ℚ),
        ∃ result, forwardSelection arrival ratSqrt doubleMax
            [[0, 5], [1, 0], [10, 6], [11, 1]] [1, 1, 2, 2] false = some result ∧
          result.allResults[1]? = some ({0}, 1) :=
  ⟨by decide, by rw [loocv_eq_accuracy, nineFeatures_accuracy],
    nineFeatures_second_entry_secondFirst, nineFeatures_second_entry,
    fun arrival => forwardSelection_level_one arrival ratSqrt doubleMax
      [[0, 5], [1, 0], [10, 6], [11, 1]] [1, 1, 2, 2] false (by decide) (Or.inl (by decide))
      (by
        have h := scenario_accuracy
        rw [loocv_eq_accuracy] at h
        exact Option.some.inj h)⟩

/-- C17: `backwardElimination` returns a result whose first history entry is
`(F, leaveOneOutCrossValidation(data, labels, F))` with `F = {0, ..., numFeatures-1}` the
full feature set, and the main loop starts with this pair as the global best: the result
is the final empty-set step applied to the state that the main loop reaches from it. -/
theorem backwardElimination_baseline
    (arrival : List (CandidateResult α) → List (CandidateResult α))
    (sqrt : α → α) (dblMax : α) (data : DataMatrix α) (labels : LabelVector)
    (verbose : Bool) :
    ∃ result baseline st,
      backwardElimination arrival sqrt dblMax data labels verbose = some result ∧
      leaveOneOutCrossValidation sqrt dblMax data labels
        (Finset.range (numFeaturesOf data)) false = some baseline ∧
      result.allResults.head? = some (Finset.range (numFeaturesOf data), baseline) ∧
      backwardLoop arrival sqrt dblMax data labels (numFeaturesOf data)
        ⟨Finset.range (numFeaturesOf data), List.range (numFeaturesOf data),
          ⟨Finset.range (numFeaturesOf data), baseline,
            [(Finset.range (numFeaturesOf data), baseline)]⟩⟩ = some st ∧
      backwardFinal sqrt dblMax data labels st = some result ∧
      baseline ≤ result.bestAccuracy := by
  obtain ⟨st, result, hloop, hfinal, hrun, hbest, _, ⟨tail, htail⟩, hrec, hsame⟩ :=
    backwardElimination_run arrival sqrt dblMax data labels verbose
  have hhead : result.allResults.head?
      = some (Finset.range (numFeaturesOf data),
          loocvAccuracy sqrt dblMax data labels (Finset.range (numFeaturesOf data))) := by
    by_cases hne : st.allFeatures = []
    · rw [hsame hne, htail]
      rfl
    · rw [hrec hne, recordLevel, htail]
      rfl
  refine ⟨result, _, st, hrun, loocv_eq_accuracy _ _ _ _ _ _, hhead, hloop, hfinal, ?_⟩
  exact bestIsFirstMax_le result hbest _ (List.mem_of_mem_head? hhead)

/-- C18: the last entry of the history of `backwardElimination` is the empty-set
evaluation: its feature set is empty and its accuracy is
`leaveOneOutCrossValidation(data, labels, {})`, however the main loop ended. -/
theorem backwardElimination_last_entry
    (arrival : List (CandidateResult α) → List (CandidateResult α))
    (sqrt : α → α) (dblMax : α) (data : DataMatrix α) (labels : LabelVector)
    (verbose : Bool) :
    ∃ result emptySetAccuracy,
      backwardElimination arrival sqrt dblMax data labels verbose = some result ∧
      leaveOneOutCrossValidation sqrt dblMax data labels ∅ false = some emptySetAccuracy ∧
      result.allResults.getLast? = some (∅, emptySetAccuracy) := by
  obtain ⟨st, result, hloop, _, hrun, _, hne, _, hrec, hsame⟩ :=
    backwardElimination_run arrival sqrt dblMax data labels verbose
  refine ⟨result, _, hrun, loocv_eq_accuracy _ _ _ _ _ _, ?_⟩
  by_cases hnf : numFeaturesOf data = 0
  · simp only [hnf, backwardLoop, Option.some.injEq] at hloop
    have hall : st.allFeatures = [] := by rw [← hloop]; rfl
    rw [hsame hall, ← hloop]
    rfl
  · rw [hrec (hne hnf), recordLevel]
    exact List.getLast?_concat _

/-- C19: on a dataset with zero features (the first data point has none, or the data are
empty) `backwardElimination` does not fail and returns a result whose history has the
single entry `({}, leaveOneOutCrossValidation(data, labels, {}))`, with `bestFeatureSet`
empty and `bestAccuracy` the accuracy of that entry. -/
theorem backwardElimination_no_features
    (arrival : List (CandidateResult α) → List (CandidateResult α))
    (sqrt : α → α) (dblMax : α) (data : DataMatrix α) (labels : LabelVector)
    (verbose : Bool) (h : numFeaturesOf data = 0) :
    ∃ baseline, leaveOneOutCrossValidation sqrt dblMax data labels ∅ false = some baseline ∧
      backwardElimination arrival sqrt dblMax data labels verbose
        = some ⟨∅, baseline, [(∅, baseline)]⟩ := by
  refine ⟨loocvAccuracy sqrt dblMax data labels ∅, loocv_eq_accuracy _ _ _ _ _ _, ?_⟩
  unfold backwardElimination
  simp only [h, fullSet_eq_range, toList_range, loocv_eq_accuracy, backwardLoop]
  rfl

theorem backwardElimination_no_features_witness :
    ∃ baseline : ℚ,
      leaveOneOutCrossValidation ratSqrt doubleMax [[], []] [1, 2] ∅ false = some baseline ∧
      backwardElimination id ratSqrt doubleMax [[], []] [1, 2] true
        = some ⟨∅, baseline, [(∅, baseline)]⟩ :=
  backwardElimination_no_features id ratSqrt doubleMax [[], []] [1, 2] true rfl

/-- C20 fails in the code: with `verbose = true` on a team of more than one thread,
`leaveOneOutCrossValidation` does not return.  Only thread 0 reaches the
`#pragma omp single` of line 88, which is placed under `if (threadId == 0 && verbose)`,
and it waits at the barrier of the construct for threads that never arrive.  For the
instances `[0]`, `[1]` of one class and a team of two threads the call returns the
accuracy 1 with `verbose = false` and no value with `verbose = true`.  The two searches
pass `false` to every call of `leaveOneOutCrossValidation`, and each returns one and the
same result for both values of their own `verbose` flag (under the same push order of the
candidate results), as does `leaveOneOutCrossValidation` on a team of one thread. -/
theorem verbose_blocks_cross_validation (numThreads : ℕ)
    (arrival : List (CandidateResult α) → List (CandidateResult α))
    (sqrt : α → α) (dblMax : α) (data : DataMatrix α) (labels : LabelVector)
    (featureSubset : FeatureSet) :
    ((leaveOneOutCrossValidationLog 2 ratSqrt doubleMax [[0], [1]] [1, 1] ∅ false).map
        Prod.fst = some 1 ∧
      leaveOneOutCrossValidationLog 2 ratSqrt doubleMax [[0], [1]] [1, 1] ∅ true = none) ∧
    ∃ (forward backward : SearchResult α) (accuracy : α),
      (∀ verbose, (forwardSelectionLog numThreads arrival sqrt dblMax data labels
          verbose).map Prod.fst = some forward) ∧
      (∀ verbose, (backwardEliminationLog numThreads arrival sqrt dblMax data labels
          verbose).map Prod.fst = some backward) ∧
      ∀ verbose, (leaveOneOutCrossValidationLog 1 sqrt dblMax data labels
          featureSubset verbose).map Prod.fst = some accuracy := by
  obtain ⟨st, _, hfwd, _⟩ := forwardSelection_run arrival sqrt dblMax data labels false
  obtain ⟨_, result, _, _, hbwd, _⟩ :=
    backwardElimination_run arrival sqrt dblMax data labels false
  refine ⟨⟨?_, ?_⟩, st.result, result, loocvAccuracy sqrt dblMax data labels featureSubset,
    ?_, ?_, ?_⟩
  · rw [leaveOneOutCrossValidationLog_fst _ _ _ _ _ _ _ (Or.inl rfl), loocv_eq_accuracy,
      twoPoints_accuracy]
  · exact leaveOneOutCrossValidationLog_blocks 2 ratSqrt doubleMax [[0], [1]] [1, 1] ∅
      (by simp) (by simp) (by decide)
  · intro verbose
    rw [forwardSelectionLog_fst]
    exact hfwd
  · intro verbose
    rw [backwardEliminationLog_fst]
    exact hbwd
  · intro verbose
    rw [leaveOneOutCrossValidationLog_fst _ _ _ _ _ _ _ (Or.inr (le_refl 1)),
      loocv_eq_accuracy]

/-- C21 fails in the code: the reduction over a level keeps the first candidate of maximal
accuracy in the order in which the results were pushed, so with tied candidates the
selected feature depends on that order.  On the nine-feature dataset with constant labels
every candidate has accuracy 1: `forwardSelection` adds feature 0 at level 1 when the
results arrive in loop order and feature 8 when they arrive in the reverse order, and the
first level of `backwardElimination` removes feature 0 in loop order and feature 8 in the
reverse order.  The reverse order is a permutation of the pushed results. -/
theorem search_depends_on_arrival_order :
    (∀ l : List (CandidateResult ℚ), (List.reverse l).Perm l) ∧
    (∃ result, forwardSelection id ratSqrt doubleMax
        [[0, 0, 0, 0, 0, 0, 0, 0, 0], [1, 1, 1, 1, 1, 1, 1, 1, 1]] [1, 1] false
        = some result ∧
      result.allResults[1]? = some ({0}, 1)) ∧
    (∃ result, forwardSelection List.reverse ratSqrt doubleMax
        [[0, 0, 0, 0, 0, 0, 0, 0, 0], [1, 1, 1, 1, 1, 1, 1, 1, 1]] [1, 1] false
        = some result ∧
      result.allResults[1]? = some ({8}, 1)) ∧
    backwardLevel id ratSqrt doubleMax
        [[0, 0, 0, 0, 0, 0, 0, 0, 0], [1, 1, 1, 1, 1, 1, 1, 1, 1]] [1, 1]
        ⟨Finset.range 9, List.range 9, ⟨Finset.range 9, 1, [(Finset.range 9, 1)]⟩⟩
      = some (LevelStep.next ⟨(Finset.range 9).erase 0, [1, 2, 3, 4, 5, 6, 7, 8],
          ⟨Finset.range 9, 1, [(Finset.range 9, 1), ((Finset.range 9).erase 0, 1)]⟩⟩) ∧
    backwardLevel List.reverse ratSqrt doubleMax
        [[0, 0, 0, 0, 0, 0, 0, 0, 0], [1, 1, 1, 1, 1, 1, 1, 1, 1]] [1, 1]
        ⟨Finset.range 9, List.range 9, ⟨Finset.range 9, 1, [(Finset.range 9, 1)]⟩⟩
      = some (LevelStep.next ⟨(Finset.range 9).erase 8, List.range 8,
          ⟨Finset.range 9, 1, [(Finset.range 9, 1), ((Finset.range 9).erase 8, 1)]⟩⟩) :=
  ⟨fun l => List.reverse_perm l,
    forwardSelection_level_one id ratSqrt doubleMax _ [1, 1] false (by decide)
      (Or.inr (fun _ => rfl)) (nineFeatures_accuracy {0}),
    nineFeatures_second_entry, nineFeatures_backwardLevel_sequential,
    nineFeatures_backwardLevel⟩

/-- C22: malformed row data is rejected by the loader.  The processing of `loadDataset`
(`processRawData`, then `verifyDatasetConsistency`, then the comparison of the label and
row counts) succeeds if and only if all non-empty raw rows have the same number of values.
On success the data matrix and the label vector have the same length, which is the number
of non-empty rows, every data point has the same number of features, `labels[i]` is the
first value of the i-th non-empty row (converted by `static_cast<Label>`, the parameter
`toLabel`) and `data[i]` is the rest of that row. -/
theorem loadDatasetRows_accepts_iff_consistent {β : Type} (toLabel : β → ℤ)
    (rawData : List (List β)) :
    ((loadDatasetRows toLabel rawData).isSome = true ↔
      ∀ r ∈ rawData, ∀ r' ∈ rawData, r ≠ [] → r' ≠ [] → r.length = r'.length) ∧
    ∀ data labels, loadDatasetRows toLabel rawData = some (data, labels) →
      data.length = labels.length ∧
      data.length = (rawData.filter (fun row => !row.isEmpty)).length ∧
      (∀ p ∈ data, ∀ q ∈ data, p.length = q.length) ∧
      ∀ (i : ℕ) first point,
        (rawData.filter (fun row => !row.isEmpty))[i]? = some (first :: point) →
        labels[i]? = some (toLabel first) ∧ data[i]? = some point := by
  rw [loadDatasetRows_eq]
  refine ⟨?_, ?_⟩
  · rw [← verify_tails_iff]
    by_cases h : verifyDatasetConsistency ((nonEmptyRows rawData).map List.tail) = true
    · simp [h]
    · simp [h]
  · intro data labels hsome
    by_cases h : verifyDatasetConsistency ((nonEmptyRows rawData).map List.tail) = true
    · rw [if_pos h] at hsome
      simp only [Option.some.injEq, Prod.mk.injEq] at hsome
      obtain ⟨rfl, rfl⟩ := hsome
      refine ⟨by simp, by simp [nonEmptyRows], (verifyDatasetConsistency_iff _).1 h, ?_⟩
      intro i first point hi
      have hi' : (nonEmptyRows rawData)[i]? = some (first :: point) := hi
      simp [List.getElem?_map, hi', rowLabel]
    · rw [if_neg h] at hsome
      exact absurd hsome (by simp)

theorem loadDatasetRows_accepts_iff_consistent_witness :
    (loadDatasetRows (fun q : ℚ => Int.tdiv q.num q.den) [[1, 5, 6], [], [2, 7, 8]]
        = some ([[5, 6], [7, 8]], [1, 2])) ∧
      ([[5, 6], [7, 8]] : DataMatrix ℚ).length = ([1, 2] : LabelVector).length ∧
      loadDatasetRows (fun q : ℚ => Int.tdiv q.num q.den) [[1, 5, 6], [], [2, 7]] = none := by
  have h : loadDatasetRows (fun q : ℚ => Int.tdiv q.num q.den) [[1, 5, 6], [], [2, 7, 8]]
      = some ([[5, 6], [7, 8]], [1, 2]) := by
    simp [loadDatasetRows, processRawData, verifyDatasetConsistency]
  refine ⟨h, ((loadDatasetRows_accepts_iff_consistent _ _).2 _ _ h).1, ?_⟩
  simp [loadDatasetRows, processRawData, verifyDatasetConsistency]

/-- C23 fails in the code: a file without any row is loaded successfully.  With no raw row
`processRawData` returns an empty matrix and an empty label vector,
`verifyDatasetConsistency` accepts the empty matrix and the two sizes agree, so
`loadDataset` returns the empty dataset instead of throwing; the same holds for raw rows
that are all empty and for the empty file read with four threads. -/
theorem loadDataset_accepts_empty {β : Type} (parseRow : List ℕ → List β) (toLabel : β → ℤ) :
    loadDatasetRows toLabel [] = some ([], []) ∧
    loadDatasetRows toLabel [[], []] = some ([], []) ∧
    loadDataset parseRow toLabel 4 [] = some ([], []) := by
  refine ⟨?_, ?_, ?_⟩
  · simp [loadDatasetRows, processRawData, verifyDatasetConsistency]
  · simp [loadDatasetRows, processRawData, verifyDatasetConsistency]
  · simp [loadDataset, readFileConcurrent, readFileChunk, readLines, List.range,
      List.range.loop, loadDatasetRows, processRawData, verifyDatasetConsistency]

/-- C24: for a non-empty data matrix and a non-empty feature set `S` all of whose indices
are below the length of every data point, `extractFeatures(data, S)` has as many rows as
`data`, every row has exactly `|S|` values, and position `j` of row `i` holds `data[i][s]`
where `s` is the `j`-th element of `S` in strictly ascending order. -/
theorem extractFeatures_rows {β : Type} (data : DataMatrix β) (S : FeatureSet)
    (hdata : data ≠ []) (hS : S.Nonempty)
    (hlt : ∀ p ∈ data, ∀ s ∈ S, s < p.length) :
    (extractFeatures data S).length = data.length ∧
    (∀ row ∈ extractFeatures data S, row.length = S.card) ∧
    (S.sort (· ≤ ·)).Sorted (· < ·) ∧
    ∀ (i j s : ℕ) (p : List β), data[i]? = some p → (S.sort (· ≤ ·))[j]? = some s →
      ∃ row v, (extractFeatures data S)[i]? = some row ∧ row[j]? = some v ∧
        p[s]? = some v := by
  rw [extractFeatures_eq data S hdata (Finset.nonempty_iff_ne_empty.1 hS)]
  refine ⟨by simp, ?_, Finset.sort_sorted_lt S, ?_⟩
  · intro row hrow
    obtain ⟨p, hp, rfl⟩ := List.mem_map.1 hrow
    exact (extractRow_spec p S (hlt p hp)).1
  · intro i j s p hi hj
    obtain ⟨v, hv, hpv⟩ := (extractRow_spec p S (hlt p (List.getElem?_mem hi))).2 j s hj
    exact ⟨_, v, by rw [List.getElem?_map, hi]; rfl, hv, hpv⟩

theorem extractFeatures_rows_witness :
    (extractFeatures [[10, 11, 12, 13, 14, 15, 16, 17, 18, 19, 20]] {0, 5, 10}).length = 1 ∧
    (∀ row ∈ extractFeatures [[10, 11, 12, 13, 14, 15, 16, 17, 18, 19, 20]] {0, 5, 10},
      row.length = ({0, 5, 10} : Finset ℕ).card) :=
  have h := extractFeatures_rows [[10, 11, 12, 13, 14, 15, 16, 17, 18, 19, 20]] {0, 5, 10}
    (by simp) (by simp) (by simp)
  ⟨h.1, h.2.1⟩

/-- C25 fails in the code: a line that starts exactly at an interior chunk boundary is
read by no chunk.  For the 8-byte file `"1 2\n3 4\n"` and two threads the chunk size is 4;
the first chunk stops after the first line (its byte count has reached 4) and the second
chunk discards the line `"3 4"` as its partial first line.  The concurrent read returns
the rows of `"1 2\n"` alone, while sequential parsing, and the read with one thread,
return the rows of both lines. -/
theorem readFileConcurrent_drops_boundary_line {β : Type} (parseRow : List ℕ → List β) :
    readFileConcurrent parseRow 2 [49, 32, 50, 10, 51, 32, 52, 10]
      = some (sequentialRows parseRow [49, 32, 50, 10]) ∧
    sequentialRows parseRow [49, 32, 50, 10, 51, 32, 52, 10]
      = sequentialRows parseRow [49, 32, 50, 10]
        ++ sequentialRows parseRow [51, 32, 52, 10] ∧
    sequentialRows parseRow [51, 32, 52, 10]
      = (if (parseRow [51, 32, 52]).isEmpty then [] else [parseRow [51, 32, 52]]) ∧
    readFileConcurrent parseRow 1 [49, 32, 50, 10, 51, 32, 52, 10]
      = some (sequentialRows parseRow [49, 32, 50, 10, 51, 32, 52, 10]) := by
  refine ⟨?_, ?_, ?_, ?_⟩
  · by_cases h1 : (parseRow [49, 32, 50]).isEmpty = true <;>
    simp [readFileConcurrent, readFileChunk, readLines, getline, sequentialRows, fileLines,
      List.range, List.range.loop, h1]
  · by_cases h1 : (parseRow [49, 32, 50]).isEmpty = true <;>
    by_cases h2 : (parseRow [51, 32, 52]).isEmpty = true <;>
    simp [sequentialRows, fileLines, h1, h2]
  · by_cases h2 : (parseRow [51, 32, 52]).isEmpty = true <;>
    simp [sequentialRows, fileLines, h2]
  · by_cases h1 : (parseRow [49, 32, 50]).isEmpty = true <;>
    by_cases h2 : (parseRow [51, 32, 52]).isEmpty = true <;>
    simp [readFileConcurrent, readFileChunk, readLines, getline, sequentialRows, fileLines,
      List.range, List.range.loop, h1, h2]

/-- C26: every history entry is consistent with the evaluator.  For `forwardSelection` and
for `backwardElimination`, on every dataset and for every order in which the candidate
results of a level are pushed (a permutation of the results), the search returns a result
in which each pair `(set, accuracy)` of `allResults` satisfies
`accuracy == leaveOneOutCrossValidation(data, labels, set)`, and `bestAccuracy` equals
`leaveOneOutCrossValidation(data, labels, bestFeatureSet)`. -/
theorem history_consistent_with_evaluator
    (arrival : List (CandidateResult α) → List (CandidateResult α))
    (sqrt : α → α) (dblMax : α) (data : DataMatrix α) (labels : LabelVector)
    (verbose : Bool) (harr : ∀ l, (arrival l).Perm l) :
    (∃ result, forwardSelection arrival sqrt dblMax data labels verbose = some result ∧
      (∀ e ∈ result.allResults,
        leaveOneOutCrossValidation sqrt dblMax data labels e.1 false = some e.2) ∧
      leaveOneOutCrossValidation sqrt dblMax data labels result.bestFeatureSet false
        = some result.bestAccuracy) ∧
    (∃ result, backwardElimination arrival sqrt dblMax data labels verbose = some result ∧
      (∀ e ∈ result.allResults,
        leaveOneOutCrossValidation sqrt dblMax data labels e.1 false = some e.2) ∧
      leaveOneOutCrossValidation sqrt dblMax data labels result.bestFeatureSet false
        = some result.bestAccuracy) := by
  obtain ⟨fwd, hfwd, hinvF, _, _, hbestF, _⟩ :=
    forwardSelection_chain arrival sqrt dblMax data labels verbose harr
  obtain ⟨bwd, hbwd, hinvB, _, _, hbestB, _⟩ :=
    backwardElimination_chain arrival sqrt dblMax data labels verbose harr
  refine ⟨⟨fwd, hfwd, ?_, ?_⟩, ⟨bwd, hbwd, ?_, ?_⟩⟩
  · intro e he
    rw [loocv_eq_accuracy, hinvF.2.2 e he]
  · rw [loocv_eq_accuracy, historyInv_mem_best _ fwd hinvF.2.2 hbestF]
  · intro e he
    rw [loocv_eq_accuracy, hinvB.2.2 e he]
  · rw [loocv_eq_accuracy, historyInv_mem_best _ bwd hinvB.2.2 hbestB]

theorem history_consistent_with_evaluator_witness :
    ∃ result, forwardSelection id ratSqrt doubleMax [[0, 5], [1, 0], [10, 6]] [1, 1, 2] false
        = some result ∧
      (∀ e ∈ result.allResults,
        leaveOneOutCrossValidation ratSqrt doubleMax [[0, 5], [1, 0], [10, 6]] [1, 1, 2] e.1
          false = some e.2) ∧
      leaveOneOutCrossValidation ratSqrt doubleMax [[0, 5], [1, 0], [10, 6]] [1, 1, 2]
        result.bestFeatureSet false = some result.bestAccuracy :=
  (history_consistent_with_evaluator id ratSqrt doubleMax [[0, 5], [1, 0], [10, 6]]
    [1, 1, 2] false (fun l => List.Perm.refl l)).1

/-- C27: for a non-empty data matrix `point :: rest` whose first data point has
`m = point.length` features, and for every order in which the candidate results of a level
are pushed (a permutation of the results), `forwardSelection` returns a history of exactly
`m + 1` entries; the `k`-th entry holds a feature set of size `k`; each set is the
previous entry's set plus exactly one feature index in `[0, m)`; the last entry's set is
the full set `{0, ..., m-1}`; and all `m` levels select a winner, so the level loop never
leaves through its `break`. -/
theorem forwardSelection_history_chain
    (arrival : List (CandidateResult α) → List (CandidateResult α))
    (sqrt : α → α) (dblMax : α) (point : DataPoint α) (rest : DataMatrix α)
    (labels : LabelVector) (verbose : Bool) (harr : ∀ l, (arrival l).Perm l) :
    ∃ result,
      forwardSelection arrival sqrt dblMax (point :: rest) labels verbose = some result ∧
      result.allResults.length = point.length + 1 ∧
      (∀ (k : ℕ) (S : FeatureSet) (a : α), result.allResults[k]? = some (S, a) →
        S.card = k) ∧
      (∀ (k : ℕ) (S T : FeatureSet) (a b : α), result.allResults[k]? = some (S, a) →
        result.allResults[k + 1]? = some (T, b) →
        ∃ f, f < point.length ∧ f ∉ S ∧ T = insert f S) ∧
      (∃ a, result.allResults[point.length]? = some (Finset.range point.length, a)) ∧
      forwardLevelsRun arrival sqrt dblMax (point :: rest) labels point.length point.length
        ⟨∅, ⟨∅, loocvAccuracy sqrt dblMax (point :: rest) labels ∅,
          [(∅, loocvAccuracy sqrt dblMax (point :: rest) labels ∅)]⟩⟩ = point.length := by
  obtain ⟨result, hrun, hinv, hlength, hhead, _, hlevels⟩ :=
    forwardSelection_chain arrival sqrt dblMax (point :: rest) labels verbose harr
  have hnf : numFeaturesOf (point :: rest) = point.length := rfl
  rw [hnf] at hinv hlength hlevels
  refine ⟨result, hrun, hlength, ?_, ?_, ⟨_, historyInv_last _ _ _ _ hinv _ hlength⟩,
    hlevels⟩
  · intro k S a hk
    exact historyInv_adds_card _ _ _ _ hinv _ hhead rfl k S a hk
  · intro k S T a b hk hk'
    exact historyInv_step _ _ _ _ hinv k S T a b hk hk'

theorem forwardSelection_history_chain_witness :
    ∃ result,
      forwardSelection id ratSqrt doubleMax ([0, 5] :: [[1, 0], [10, 6]]) [1, 1, 2] false
        = some result ∧
      result.allResults.length = ([0, 5] : DataPoint ℚ).length + 1 :=
  match forwardSelection_history_chain id ratSqrt doubleMax [0, 5] [[1, 0], [10, 6]]
    [1, 1, 2] false (fun l => List.Perm.refl l) with
  | ⟨result, hrun, hlength, _⟩ => ⟨result, hrun, hlength⟩

/-- C28: for a non-empty data matrix `point :: rest` whose first data point has
`m = point.length >= 1` features, and for every order in which the candidate results of a
level are pushed (a permutation of the results), `backwardElimination` returns a history
of exactly `m + 1` entries; the `k`-th entry holds a feature set of size `m - k`; each set
is the previous entry's set minus exactly one of its features.  The body of the main loop
is entered `m - 1` times, and each time every candidate set is non-empty (the branch that
skips the removal of the last feature is not taken) and the level selects a winner (the
`break` for a level without candidates is not taken). -/
theorem backwardElimination_history_chain
    (arrival : List (CandidateResult α) → List (CandidateResult α))
    (sqrt : α → α) (dblMax : α) (point : DataPoint α) (rest : DataMatrix α)
    (labels : LabelVector) (verbose : Bool) (hm : 1 ≤ point.length)
    (harr : ∀ l, (arrival l).Perm l) :
    ∃ result,
      backwardElimination arrival sqrt dblMax (point :: rest) labels verbose = some result ∧
      result.allResults.length = point.length + 1 ∧
      (∀ (k : ℕ) (S : FeatureSet) (a : α), result.allResults[k]? = some (S, a) →
        S.card + k = point.length) ∧
      (∀ (k : ℕ) (S T : FeatureSet) (a b : α), result.allResults[k]? = some (S, a) →
        result.allResults[k + 1]? = some (T, b) → ∃ f, f ∈ S ∧ T = S.erase f) ∧
      (backwardVisited arrival sqrt dblMax (point :: rest) labels point.length
        ⟨Finset.range point.length, List.range point.length,
          ⟨Finset.range point.length,
            loocvAccuracy sqrt dblMax (point :: rest) labels (Finset.range point.length),
            [(Finset.range point.length,
              loocvAccuracy sqrt dblMax (point :: rest) labels
                (Finset.range point.length))]⟩⟩).length = point.length - 1 ∧
      ∀ s ∈ backwardVisited arrival sqrt dblMax (point :: rest) labels point.length
        ⟨Finset.range point.length, List.range point.length,
          ⟨Finset.range point.length,
            loocvAccuracy sqrt dblMax (point :: rest) labels (Finset.range point.length),
            [(Finset.range point.length,
              loocvAccuracy sqrt dblMax (point :: rest) labels
                (Finset.range point.length))]⟩⟩,
        (∀ f ∈ s.allFeatures, s.currentSet.erase f ≠ ∅) ∧
        ∃ s', backwardLevel arrival sqrt dblMax (point :: rest) labels s
          = some (LevelStep.next s') := by
  obtain ⟨result, hrun, hinv, hlength, hhead, _, hvis, hall⟩ :=
    backwardElimination_chain arrival sqrt dblMax (point :: rest) labels verbose harr
  have hnf : numFeaturesOf (point :: rest) = point.length := rfl
  rw [hnf] at hlength hhead hvis hall
  rw [if_neg (by omega)] at hlength
  refine ⟨result, hrun, hlength, ?_, ?_, hvis, hall⟩
  · intro k S a hk
    have := historyInv_removes_card _ _ _ hinv _ hhead k S a hk
    simpa using this
  · intro k S T a b hk hk'
    exact historyInv_step _ _ _ _ hinv k S T a b hk hk'

theorem backwardElimination_history_chain_witness :
    ∃ result,
      backwardElimination id ratSqrt doubleMax ([0, 5] :: [[1, 0], [10, 6]]) [1, 1, 2] false
        = some result ∧
      result.allResults.length = ([0, 5] : DataPoint ℚ).length + 1 :=
  match backwardElimination_history_chain id ratSqrt doubleMax [0, 5]
    [[1, 0], [10, 6]] [1, 1, 2] false (by decide) (fun l => List.Perm.refl l) with
  | ⟨result, hrun, hlength, _⟩ => ⟨result, hrun, hlength⟩

/-- C29 as stated fails: in the empty dataset every data point has length 1, vacuously,
and `backwardElimination` returns the empty set as `bestFeatureSet`, the set of its only
history entry. -/
theorem search_best_not_terminal_fails :
    (∀ p ∈ ([] : DataMatrix ℚ), p.length = 1) ∧
      ∃ result, backwardElimination id ratSqrt doubleMax [] [] false = some result ∧
        result.bestFeatureSet = ∅ :=
  ⟨by simp, by
    obtain ⟨result, hrun, hbest, _⟩ := backwardElimination_empty_data
    exact ⟨result, hrun, hbest⟩⟩

/-- C29 (amended): for every non-empty dataset in which every data point has the same
length `m >= 1`, and for every order in which the candidate results of a level are pushed
(a permutation of the results), the first and last history accuracies of
`backwardElimination` are equal and its `bestFeatureSet` is not the empty set, and the
first and last history accuracies of `forwardSelection` are equal and its `bestFeatureSet`
is not the full set `{0, ..., m-1}`. -/
theorem search_best_not_terminal
    (arrival : List (CandidateResult α) → List (CandidateResult α))
    (sqrt : α → α) (dblMax : α) (data : DataMatrix α) (labels : LabelVector)
    (verbose : Bool) (m : ℕ) (hm : 1 ≤ m) (hne : data ≠ [])
    (hlen : ∀ p ∈ data, p.length = m) (harr : ∀ l, (arrival l).Perm l) :
    (∃ result first last,
      backwardElimination arrival sqrt dblMax data labels verbose = some result ∧
      result.allResults.head? = some first ∧ result.allResults.getLast? = some last ∧
      first.2 = last.2 ∧ result.bestFeatureSet ≠ ∅) ∧
    (∃ result first last,
      forwardSelection arrival sqrt dblMax data labels verbose = some result ∧
      result.allResults.head? = some first ∧ result.allResults.getLast? = some last ∧
      first.2 = last.2 ∧ result.bestFeatureSet ≠ Finset.range m) :=
  ⟨backwardElimination_best_ne_empty arrival sqrt dblMax data labels verbose m hm hne hlen
      harr,
    forwardSelection_best_ne_full arrival sqrt dblMax data labels verbose m hm hne hlen harr⟩

theorem search_best_not_terminal_witness :
    ∃ result first last,
      backwardElimination id ratSqrt doubleMax [[0, 5], [1, 0], [10, 6]] [1, 1, 2] false
        = some result ∧
      result.allResults.head? = some first ∧ result.allResults.getLast? = some last ∧
      first.2 = last.2 ∧ result.bestFeatureSet ≠ ∅ :=
  (search_best_not_terminal id ratSqrt doubleMax [[0, 5], [1, 0], [10, 6]] [1, 1, 2] false 2
    (by decide) (by simp) (by simp) (fun l => List.Perm.refl l)).1

end Claims

end feature_selection
